import Mathlib

/-!
# myshell: a shallow embedding of `myshell.c`

The development embeds the line editor (`read_input_with_completion`), the
history store (`add_to_history`, `load_history_from_file`), the tokenizer
(`parse_input`), the pipeline builder (`execute_piped_commands`,
`handle_redirection`), the command dispatcher (`execute_command`), the
arithmetic line test (`is_arithmetic_expression`), the choice of completion
engine (`get_completions`) and the command completion engine
(`get_command_completions`) of `myshell.c` as Lean functions, and proves
properties of them.

Conventions of the embedding.

* A byte is a `Nat`. A C string value (`char*` to NUL-terminated bytes) is the
  list of its bytes before the terminator, so it holds no `0`; theorems that
  read a string back from memory state this as a hypothesis.
* The edit buffer `input` is memory indexed from the pointer: a function
  `Nat → Nat`. `int` variables are `Int`; an index expression `input[k]` is
  `input k.toNat`, and every such read in the source sits behind a guard that
  makes `k` non-negative.
* `read(STDIN_FILENO, ..)` is a blocking terminal read: the bytes that arrive
  are a list, and when the list is used up the session is still waiting in
  `read`.
* Memory is unbounded: a store past the `MAX_INPUT` bytes of the buffer is an
  ordinary store in the embedding (in C it is out of bounds). A theorem that
  describes the buffer after such a store could happen carries the hypothesis
  that the line fits, and shows that no byte at an index `≥ MAX_INPUT` changes.
* Terminal output (`printf`, redraws) and raw-mode switching do not change the
  editor state and are left out. `malloc`, `strdup`, `realloc` and `fork` are
  taken to succeed.
* The file system seen by `get_command_completions` is the search path as a
  list of directories in `PATH` order, each either not openable or the list of
  names `readdir` returns, in that order.
-/

namespace MyShell

/-! ## Constants -/

def MAX_INPUT : Nat := 1024
def MAX_ARGS : Nat := 64
def MAX_PIPES : Nat := 10
def MAX_COMPLETIONS : Nat := 256
def MAX_HISTORY : Nat := 1000

/-- C string value: the bytes before the terminating NUL. -/
abbrev CStr := List Nat

/-! ## Memory helpers -/

/-- Store one byte: `m[k] = b`. -/
def poke (m : Nat → Nat) (k : Nat) (b : Nat) : Nat → Nat :=
  fun i => if i = k then b else m i

/-- Overlap-safe block move `memmove(m + dst, m + src, n)`. -/
def memmove (m : Nat → Nat) (dst src n : Nat) : Nat → Nat :=
  fun i => if dst ≤ i ∧ i < dst + n then m (src + (i - dst)) else m i

/-- Copy of the first `n` bytes of a string into memory: `memcpy(m + dst, s, n)`. -/
def memcpy (m : Nat → Nat) (dst : Nat) (s : CStr) (n : Nat) : Nat → Nat :=
  fun i => if dst ≤ i ∧ i < dst + n then s.getD (i - dst) 0 else m i

/-- Zero fill `memset(m, 0, n)`. -/
def memset0 (m : Nat → Nat) (n : Nat) : Nat → Nat :=
  fun i => if i < n then 0 else m i

/-- String copy `strcpy(m, s)`: the bytes of `s`, then the terminator. -/
def strcpy (m : Nat → Nat) (s : CStr) : Nat → Nat :=
  fun i => if i < s.length then s.getD i 0 else if i = s.length then 0 else m i

/-- Scan for the terminator from offset `i`, as `strlen` does; `fuel` is a
position at which a NUL is known to be stored. -/
def strlen_from (m : Nat → Nat) : Nat → Nat → Nat
  | 0, i => i
  | fuel + 1, i => if m i = 0 then i else strlen_from m fuel (i + 1)

/-- The result of `strlen(m)` when a NUL is stored at offset `bound`. -/
def strlen_mem (m : Nat → Nat) (bound : Nat) : Nat :=
  strlen_from m bound 0

/-- The bytes `m[a], .., m[b-1]`. -/
def slice (m : Nat → Nat) (a b : Nat) : List Nat :=
  (List.range (b - a)).map (fun i => m (a + i))

/-- The C string stored at `m` when a NUL is stored at offset `bound`. -/
def c_string (m : Nat → Nat) (bound : Nat) : CStr :=
  slice m 0 (strlen_mem m bound)

/-- The test `isspace(b)` in the C locale. -/
def isspace (b : Nat) : Bool :=
  b == 32 || (9 ≤ b && b ≤ 13)

/-! ## History store -/

/-- Process-wide history state: `history`, `history_count`, `history_index`.
Slot `i` of `history` is the string the pointer `history[i]` refers to; slots
below `history_count` are the stored entries. -/
structure Globals where
  history : Nat → CStr
  history_count : Int
  history_index : Int

/-- Pointer store `history[k] = s`. -/
def hist_set (h : Nat → CStr) (k : Nat) (s : CStr) : Nat → CStr :=
  fun i => if i = k then s else h i

/-- The loop `for (i = 0; i < MAX_HISTORY - 1; i++) history[i] = history[i + 1];`. -/
def shift_history (h : Nat → CStr) : Nat → CStr :=
  (List.range (MAX_HISTORY - 1)).foldl (fun a i => hist_set a i (a (i + 1))) h

/-- Embedding of `add_to_history(cmd)`; `none` is a NULL `cmd`. -/
def add_to_history (g : Globals) (cmd : Option CStr) : Globals :=
  match cmd with
  | none => g
  | some c =>
    if c.length = 0 then g
    else if g.history_count > 0 ∧ g.history (g.history_count - 1).toNat = c then g
    else if g.history_count < (MAX_HISTORY : Int) then
      { history := hist_set g.history g.history_count.toNat c,
        history_count := g.history_count + 1,
        history_index := g.history_count + 1 }
    else
      { history := hist_set (shift_history g.history) (MAX_HISTORY - 1) c,
        history_count := g.history_count,
        history_index := g.history_count }

/-- The stored entries `history[0], .., history[history_count - 1]` in order. -/
def entries (g : Globals) : List CStr :=
  (List.range g.history_count.toNat).map g.history

/-! ## Line editor -/

/-- Local state of `read_input_with_completion`: the buffer `input`, `cursor`,
`len` and `temp_history_index`. -/
structure Editor where
  input : Nat → Nat
  cursor : Int
  len : Int
  temp_history_index : Int

/-- Printable byte (lines 713-731): insert at the cursor. -/
def insert_char (s : Editor) (c : Nat) : Editor :=
  if s.len < (MAX_INPUT : Int) - 1 then
    let m1 := memmove s.input (s.cursor + 1).toNat s.cursor.toNat (s.len - s.cursor).toNat
    let m2 := poke m1 s.cursor.toNat c
    let len := s.len + 1
    let cursor := s.cursor + 1
    { s with input := poke m2 len.toNat 0, cursor := cursor, len := len }
  else s

/-- Bytes 127 and 8 (lines 688-705): delete the byte left of the cursor. -/
def backspace (s : Editor) : Editor :=
  if s.cursor > 0 then
    let m1 := memmove s.input (s.cursor - 1).toNat s.cursor.toNat (s.len - s.cursor).toNat
    let len := s.len - 1
    let cursor := s.cursor - 1
    { s with input := poke m1 len.toNat 0, cursor := cursor, len := len }
  else s

/-- Sequence `ESC [ C` (lines 559-565). -/
def arrow_right (s : Editor) : Editor :=
  if s.cursor < s.len then { s with cursor := s.cursor + 1 } else s

/-- Sequence `ESC [ D` (lines 566-572). -/
def arrow_left (s : Editor) : Editor :=
  if s.cursor > 0 then { s with cursor := s.cursor - 1 } else s

/-- The loop `while (cursor < len && input[cursor] != ' ') cursor++;`. At most
`len - cursor` iterations run, which is the fuel the caller passes. -/
def skip_word_right (m : Nat → Nat) (len : Int) : Nat → Int → Int
  | 0, cursor => cursor
  | fuel + 1, cursor =>
    if cursor < len ∧ m cursor.toNat ≠ 32 then skip_word_right m len fuel (cursor + 1)
    else cursor

/-- The loop `while (cursor < len && input[cursor] == ' ') cursor++;`. -/
def skip_spaces_right (m : Nat → Nat) (len : Int) : Nat → Int → Int
  | 0, cursor => cursor
  | fuel + 1, cursor =>
    if cursor < len ∧ m cursor.toNat = 32 then skip_spaces_right m len fuel (cursor + 1)
    else cursor

/-- Sequence `ESC [ 1 ; 5 C` (lines 581-592). -/
def word_right (s : Editor) : Editor :=
  let c1 := skip_word_right s.input s.len (s.len - s.cursor).toNat s.cursor
  let c2 := skip_spaces_right s.input s.len (s.len - c1).toNat c1
  { s with cursor := c2 }

/-- The loop `while (cursor > 0 && input[cursor] == ' ') cursor--;`. At most
`cursor` iterations run. -/
def skip_spaces_left (m : Nat → Nat) : Nat → Int → Int
  | 0, cursor => cursor
  | fuel + 1, cursor =>
    if cursor > 0 ∧ m cursor.toNat = 32 then skip_spaces_left m fuel (cursor - 1)
    else cursor

/-- The loop `while (cursor > 0 && input[cursor - 1] != ' ') cursor--;`. -/
def skip_word_left (m : Nat → Nat) : Nat → Int → Int
  | 0, cursor => cursor
  | fuel + 1, cursor =>
    if cursor > 0 ∧ m (cursor - 1).toNat ≠ 32 then skip_word_left m fuel (cursor - 1)
    else cursor

/-- Sequence `ESC [ 1 ; 5 D` (lines 594-606). -/
def word_left (s : Editor) : Editor :=
  let c0 := if s.cursor > 0 then s.cursor - 1 else s.cursor
  let c1 := skip_spaces_left s.input c0.toNat c0
  let c2 := skip_word_left s.input c1.toNat c1
  { s with cursor := c2 }

/-- Sequence `ESC [ A` (lines 515-530): recall the previous history entry. -/
def arrow_up (g : Globals) (s : Editor) : Editor :=
  if s.temp_history_index > 0 then
    let t := s.temp_history_index - 1
    let m := strcpy s.input (g.history t.toNat)
    let len : Int := strlen_mem m (g.history t.toNat).length
    { input := m, cursor := len, len := len, temp_history_index := t }
  else s

/-- Sequence `ESC [ B` (lines 531-558): recall the next history entry, or
clear the line when leaving the last one. -/
def arrow_down (g : Globals) (s : Editor) : Editor :=
  if s.temp_history_index < g.history_count - 1 then
    let t := s.temp_history_index + 1
    let m := strcpy s.input (g.history t.toNat)
    let len : Int := strlen_mem m (g.history t.toNat).length
    { input := m, cursor := len, len := len, temp_history_index := t }
  else if s.temp_history_index = g.history_count - 1 then
    { input := memset0 s.input MAX_INPUT, cursor := 0, len := 0,
      temp_history_index := g.history_count }
  else s

/-- The loop `while (word_start >= 0 && !isspace(input[word_start])) word_start--;`.
At most `cursor` iterations run. -/
def find_word_start (m : Nat → Nat) : Nat → Int → Int
  | 0, w => w
  | fuel + 1, w =>
    if w ≥ 0 ∧ isspace (m w.toNat) = false then find_word_start m fuel (w - 1)
    else w

/-- The word handed to `get_completions` on Tab (lines 616-627): `strncpy` of
`cursor - word_start` bytes from `input + word_start`, then a terminator, read
as a C string. -/
def tab_word (m : Nat → Nat) (word_start cursor : Int) : CStr :=
  (slice m word_start.toNat cursor.toNat).takeWhile (fun b => b != 0)

/-- The value of `word_start` on Tab (lines 616-623): after `input[len] = '\0'`,
start at `cursor - 1`, walk left over non-space bytes, then step right once. -/
def word_start (s : Editor) : Int :=
  find_word_start (poke s.input s.len.toNat 0) s.cursor.toNat (s.cursor - 1) + 1

/-- Byte 9 (lines 614-687): Tab completion. `gc` is `get_completions` under the
current environment, returning the candidate list (`count` is its length).

The source makes no bound test before the `memmove` and `memcpy` of the
single-candidate branch (lines 638-645). The highest index that branch stores to
is the new `len` (the terminator of line 658), so its stores are inside the
`MAX_INPUT` bytes of the buffer exactly when
`len - partial_len + completion_len ≤ MAX_INPUT - 1`; beyond that the C program
writes past the buffer, and the value below describes it no longer. -/
def tab (gc : CStr → List CStr) (s : Editor) : Editor :=
  let m0 := poke s.input s.len.toNat 0
  let word_start := word_start s
  let part := tab_word m0 word_start s.cursor
  match gc part with
  | [c] =>
    let partial_len : Int := part.length
    let completion_len : Int := c.length
    let m1 :=
      if s.cursor < s.len then
        memmove m0 (word_start + completion_len).toNat s.cursor.toNat (s.len - s.cursor).toNat
      else m0
    let m2 := memcpy m1 word_start.toNat c completion_len.toNat
    let len := s.len - partial_len + completion_len
    let cursor := word_start + completion_len
    if cursor = len ∧ len < (MAX_INPUT : Int) - 1 then
      let m3 := poke m2 len.toNat 32
      { s with input := poke m3 (len + 1).toNat 0, cursor := cursor + 1, len := len + 1 }
    else
      { s with input := poke m2 len.toNat 0, cursor := cursor, len := len }
  | _ => { s with input := m0 }

/-- Result of one pass through the body of `while (1)`. -/
inductive Step where
  /-- The pass ended; the loop reads the next byte. -/
  | cont (s : Editor) (rest : List Nat)
  /-- The byte was `'\n'`: `break`. -/
  | brk (s : Editor) (rest : List Nat)
  /-- The call `exit(0)` on Ctrl+D with an empty line. -/
  | exit0
  /-- A `read` is waiting for a byte that has not arrived. -/
  | blocked (s : Editor)

/-- The bytes after `ESC [ 1` (lines 573-611): one more byte is read; after
`;` two more are read, and `5 C`, `5 D` move by a word. Anything else changes
nothing. -/
def extended_sequence (s : Editor) : List Nat → Step
  | [] => Step.blocked s
  | seq2 :: rest3 =>
    if seq2 = 59 then
      match rest3 with
      | seq3 :: seq4 :: rest5 =>
        if seq3 = 53 then
          if seq4 = 67 then Step.cont (word_right s) rest5
          else if seq4 = 68 then Step.cont (word_left s) rest5
          else Step.cont s rest5
        else Step.cont s rest5
      | _ => Step.blocked s
    else Step.cont s rest3

/-- The bytes after `ESC` (lines 510-613): `seq[0]` and `seq[1]` are read first,
whatever they are; only `seq[0] == '['` leads to a key. -/
def escape_sequence (g : Globals) (s : Editor) : List Nat → Step
  | seq0 :: seq1 :: rest2 =>
    if seq0 = 91 then
      if seq1 = 65 then Step.cont (arrow_up g s) rest2
      else if seq1 = 66 then Step.cont (arrow_down g s) rest2
      else if seq1 = 67 then Step.cont (arrow_right s) rest2
      else if seq1 = 68 then Step.cont (arrow_left s) rest2
      else if seq1 = 49 then extended_sequence s rest2
      else Step.cont s rest2
    else Step.cont s rest2
  | _ => Step.blocked s

/-- One pass through the body of `while (1)` (lines 500-733) on the bytes that
arrive on standard input. -/
def iteration (gc : CStr → List CStr) (g : Globals) (s : Editor) : List Nat → Step
  | [] => Step.blocked s
  | c :: rest =>
    if c = 10 then Step.brk s rest
    else if c = 27 then escape_sequence g s rest
    else if c = 9 then Step.cont (tab gc s) rest
    else if c = 127 ∨ c = 8 then Step.cont (backspace s) rest
    else if c = 4 then
      if s.len = 0 then Step.exit0 else Step.cont s rest
    else if 32 ≤ c ∧ c ≤ 126 then Step.cont (insert_char s c) rest
    else Step.cont s rest

/-- How a call of `read_input_with_completion` ends. -/
inductive Outcome where
  /-- The function returned `line`; `g` is the history state afterwards and
  `rest` the bytes not yet read. -/
  | returned (line : CStr) (g : Globals) (rest : List Nat)
  /-- The process ended with `exit(0)`; the history state is as at entry. -/
  | exited (g : Globals)
  /-- The session is waiting in `read` with editor state `s`. -/
  | reading (s : Editor)
  /-- The model ran out of fuel. -/
  | out_of_fuel

/-- The code after the loop (lines 735-743): terminate the buffer, store a
non-empty line in the history, return the line. -/
def finish (g : Globals) (s : Editor) (rest : List Nat) : Outcome :=
  let m := poke s.input s.len.toNat 0
  let line := c_string m s.len.toNat
  if line.length > 0 then Outcome.returned line (add_to_history g (some line)) rest
  else Outcome.returned line g rest

/-- The loop `while (1)` followed by the code after it. Each pass reads at
least one byte, so `bytes.length + 1` passes are enough fuel. -/
def run (gc : CStr → List CStr) (g : Globals) : Nat → Editor → List Nat → Outcome
  | 0, _, _ => Outcome.out_of_fuel
  | fuel + 1, s, bytes =>
    match iteration gc g s bytes with
    | Step.cont s1 rest => run gc g fuel s1 rest
    | Step.brk s1 rest => finish g s1 rest
    | Step.exit0 => Outcome.exited g
    | Step.blocked s1 => Outcome.reading s1

/-- State at loop entry (lines 492-497): a zeroed buffer of `MAX_INPUT` bytes
inside the memory `heap`, and the navigation index set to `history_index`. -/
def init_editor (g : Globals) (heap : Nat → Nat) : Editor :=
  { input := memset0 heap MAX_INPUT, cursor := 0, len := 0,
    temp_history_index := g.history_index }

/-- Embedding of `read_input_with_completion()` on the bytes `bytes` arriving
on standard input. -/
def read_input_with_completion (gc : CStr → List CStr) (g : Globals)
    (heap : Nat → Nat) (bytes : List Nat) : Outcome :=
  run gc g (bytes.length + 1) (init_editor g heap) bytes

/-! ## Tokenizer -/

/-- Membership in the delimiter string `" \t\r\n"` of `parse_input`. -/
def is_delim (b : Nat) : Bool :=
  b == 32 || b == 9 || b == 13 || b == 10

/-- One call of `strtok(.., " \t\r\n")` on the string `s` left at the saved
pointer: skip leading delimiters; at the end of the string return NULL (`none`);
otherwise the token runs up to the next delimiter, which is overwritten by NUL,
and the saved pointer moves past it (or stays on the final NUL). The result is the
token and the string left at the saved pointer. -/
def strtok (s : CStr) : Option (CStr × CStr) :=
  match s.dropWhile is_delim with
  | [] => none
  | b :: bs =>
    some ((b :: bs).takeWhile (fun x => !is_delim x),
          ((b :: bs).dropWhile (fun x => !is_delim x)).drop 1)

/-- The loop of `parse_input` (lines 758-773): `toks` is `tokens[0..position)`.
The array grows by `realloc` whenever it is full, so no token is dropped. -/
def parse_loop : Nat → CStr → List CStr → Option (List CStr)
  | 0, _, _ => none
  | fuel + 1, s, toks =>
    match strtok s with
    | none => some toks
    | some (tok, rest) => parse_loop fuel rest (toks ++ [tok])

/-- Embedding of `parse_input(input)`: the tokens before the NULL terminator of
the returned array. Each pass consumes at least one byte, so `input.length + 1`
passes are enough fuel. -/
def parse_input (input : CStr) : Option (List CStr) :=
  parse_loop (input.length + 1) input []

/-- The string `s` is cut into the token list `ts` along maximal runs of
non-delimiter bytes: `s` is delimiters only and `ts` is empty, or `s` is a run of
delimiters, then a non-empty delimiter-free token that is followed by the end of
the string or by a delimiter, then a string cut into the remaining tokens. -/
inductive MaximalRuns : CStr → List CStr → Prop where
  | done (d : CStr) (hd : ∀ b ∈ d, is_delim b = true) : MaximalRuns d []
  | tok (d t rest : CStr) (ts : List CStr)
      (hd : ∀ b ∈ d, is_delim b = true)
      (ht : t ≠ [])
      (htn : ∀ b ∈ t, is_delim b = false)
      (hrest : rest = [] ∨ ∃ x xs, rest = x :: xs ∧ is_delim x = true)
      (h : MaximalRuns rest ts) : MaximalRuns (d ++ t ++ rest) (t :: ts)

/-! ## Pipeline builder -/

/-- The token `"|"`. -/
def tok_bar : CStr := [124]

/-- The token `"<"`. -/
def tok_lt : CStr := [60]

/-- The token `">"`. -/
def tok_gt : CStr := [62]

/-- The array `char** args` returned by `parse_input` for a token list: one
pointer per token, then the NULL terminator (`none`). -/
def args_of (toks : List CStr) : List (Option CStr) :=
  toks.map some ++ [none]

/-- The NULL-terminated vector that starts at `&args[start]`: the strings from
slot `start` up to the first NULL. -/
def c_argv (args : List (Option CStr)) (start : Nat) : List CStr :=
  ((args.drop start).takeWhile Option.isSome).filterMap id

/-- The first loop of `execute_piped_commands` (lines 809-814), started at slot
`i`: it visits the slots up to the first NULL; at a `"|"` it appends `i` to
`pipe_positions` and stores NULL in the slot it is on. The result is the array
from slot `i` on after the loop, and the positions recorded. -/
def find_pipes : List (Option CStr) → Nat → List (Option CStr) × List Nat
  | [], _ => ([], [])
  | none :: rest, _ => (none :: rest, [])
  | some t :: rest, i =>
    if t = tok_bar then
      (none :: (find_pipes rest (i + 1)).1, i :: (find_pipes rest (i + 1)).2)
    else
      (some t :: (find_pipes rest (i + 1)).1, (find_pipes rest (i + 1)).2)

/-- What the child forked for stage `i` does before `handle_redirection` (lines
832-846): the `pipefds` slots it duplicates onto standard input and output, the
slots it closes, and the vector at `&args[cmd_start]`. -/
structure Child where
  stage : Nat
  stdin_from : Option Nat
  stdout_to : Option Nat
  closed : List Nat
  argv : List CStr
deriving DecidableEq

/-- The child of stage `i` with `cmd_start` as given. -/
def child_of (args : List (Option CStr)) (pipe_count i cmd_start : Nat) : Child :=
  { stage := i,
    stdin_from := if i > 0 then some ((i - 1) * 2) else none,
    stdout_to := if i < pipe_count then some (i * 2 + 1) else none,
    closed := List.range (2 * pipe_count),
    argv := c_argv args cmd_start }

/-- The loop `for (i = 0; i <= pipe_count; i++)` of lines 829-853 with `n` passes
left: each pass forks one child and then sets `cmd_start = pipe_positions[i] + 1`.
In the last pass that read is past the recorded positions and its value is not
used. `fork` is taken to succeed. -/
def fork_loop (args : List (Option CStr)) (pipe_positions : List Nat) (pipe_count : Nat) :
    Nat → Nat → Nat → List Child
  | 0, _, _ => []
  | n + 1, i, cmd_start =>
    child_of args pipe_count i cmd_start ::
      fork_loop args pipe_positions pipe_count n (i + 1) (pipe_positions.getD i 0 + 1)

/-- How a call of `execute_piped_commands` ends in the parent. -/
inductive Piped where
  /-- No `"|"` was found: return -1. -/
  | no_pipes
  /-- More than `MAX_PIPES` positions were stored into `pipe_positions`: the
  store `pipe_positions[MAX_PIPES]` of line 811 is past the array. What the C
  program does from there is undefined (a build may happen to go on and fork
  the stages), so this outcome carries no children and no return value. -/
  | overflow
  /-- The call `pipe` number `created` failed after `created` pipes were made:
  return 1. -/
  | pipe_failed (created : Nat)
  /-- All pipes were made and all stages forked: the children, the `pipefds`
  slots the parent closes, the number of `wait` calls; return 1. -/
  | ran (pipes : Nat) (children : List Child) (parent_closed : List Nat) (waits : Nat)
deriving DecidableEq

/-- Embedding of `execute_piped_commands(args)` (lines 804-866). `pipe_ok i` tells
whether the call `pipe(pipefds + i * 2)` succeeds. -/
def execute_piped_commands (pipe_ok : Nat → Bool) (args : List (Option CStr)) : Piped :=
  let a := (find_pipes args 0).1
  let pipe_positions := (find_pipes args 0).2
  let pipe_count := pipe_positions.length
  if pipe_count > MAX_PIPES then Piped.overflow
  else if pipe_count = 0 then Piped.no_pipes
  else
    match (List.range pipe_count).find? (fun i => !pipe_ok i) with
    | some i => Piped.pipe_failed i
    | none =>
      Piped.ran pipe_count (fork_loop a pipe_positions pipe_count (pipe_count + 1) 0 0)
        (List.range (2 * pipe_count)) (pipe_count + 1)

/-- The value `execute_piped_commands` returns. -/
def Piped.ret : Piped → Option Int
  | Piped.no_pipes => some (-1)
  | Piped.overflow => none
  | Piped.pipe_failed _ => some 1
  | Piped.ran _ _ _ _ => some 1

/-- Which paths `open` can open for reading and for writing. -/
structure Files where
  can_read : CStr → Bool
  can_write : CStr → Bool

/-- A redirection applied by `dup2`. -/
inductive Redir where
  | stdin_from (path : CStr)
  | stdout_to (path : CStr)
deriving DecidableEq

/-- How `handle_redirection` ends. -/
inductive Redirected where
  /-- An `open` failed: `exit(1)`. -/
  | exits
  /-- The function returned: the array after the loop (without the final NULL)
  and the redirections applied, in order. -/
  | ok (args : List (Option CStr)) (redirs : List Redir)
deriving DecidableEq

/-- Embedding of `handle_redirection(args)` (lines 779-801) on a NULL-terminated
vector. At `"<"` or `">"` the next slot is opened as a path (`open` of the NULL
after the last token fails), the descriptor is duplicated, and NULL is stored in
the slot of the operator; the loop then goes on with the next slot. -/
def handle_redirection (fs : Files) : List CStr → Redirected
  | [] => Redirected.ok [] []
  | t :: rest =>
    if t = tok_lt then
      match rest with
      | [] => Redirected.exits
      | path :: _ =>
        if fs.can_read path then
          match handle_redirection fs rest with
          | Redirected.exits => Redirected.exits
          | Redirected.ok a r => Redirected.ok (none :: a) (Redir.stdin_from path :: r)
        else Redirected.exits
    else if t = tok_gt then
      match rest with
      | [] => Redirected.exits
      | path :: _ =>
        if fs.can_write path then
          match handle_redirection fs rest with
          | Redirected.exits => Redirected.exits
          | Redirected.ok a r => Redirected.ok (none :: a) (Redir.stdout_to path :: r)
        else Redirected.exits
    else
      match handle_redirection fs rest with
      | Redirected.exits => Redirected.exits
      | Redirected.ok a r => Redirected.ok (some t :: a) r

/-- The vector `execvp(args[0], args)` receives: the strings up to the first
NULL of the array. -/
def exec_argv (args : List (Option CStr)) : List CStr :=
  (args.takeWhile Option.isSome).filterMap id

/-- How a forked child ends (lines 846-849 and 891-894). -/
inductive ChildEnd where
  /-- The call `exit(1)` inside `handle_redirection`. -/
  | exit1
  /-- The call `execvp` with this argument vector, under these redirections. -/
  | exec (argv : List CStr) (redirs : List Redir)
deriving DecidableEq

/-- The child after the pipe set-up: `handle_redirection(args); execvp(args[0], args);`. -/
def run_child (fs : Files) (stage : List CStr) : ChildEnd :=
  match handle_redirection fs stage with
  | Redirected.exits => ChildEnd.exit1
  | Redirected.ok a r => ChildEnd.exec (exec_argv a) r

/-- The stages of a token list: the runs of tokens between consecutive `"|"`
tokens. -/
def split_bar : List CStr → List (List CStr)
  | [] => [[]]
  | t :: rest =>
    if t = tok_bar then [] :: split_bar rest
    else
      match split_bar rest with
      | [] => [[t]]
      | st :: sts => (t :: st) :: sts

/-- The line a finished call returned, if it returned. -/
def Outcome.line : Outcome → Option CStr
  | Outcome.returned l _ _ => some l
  | _ => none

/-- History state with no entries. -/
def empty_history : Globals :=
  { history := fun _ => [], history_count := 0, history_index := 0 }

/-- History state holding the two entries `a` and `b`, as left by
`add_to_history("a")` and `add_to_history("b")`. -/
def history_a_b : Globals :=
  add_to_history (add_to_history empty_history (some [97])) (some [98])

/-- Key presses named by the editor contract, with the bytes a terminal sends
for each. -/
inductive Key where
  | char (c : Nat)
  | backspace
  | ctrl_h
  | left
  | right
  | word_left
  | word_right

/-- Bytes sent by the terminal for a key. -/
def Key.bytes : Key → List Nat
  | Key.char c => [c]
  | Key.backspace => [127]
  | Key.ctrl_h => [8]
  | Key.left => [27, 91, 68]
  | Key.right => [27, 91, 67]
  | Key.word_left => [27, 91, 49, 59, 53, 68]
  | Key.word_right => [27, 91, 49, 59, 53, 67]

/-- A character key carries a printable byte. -/
def Key.ok : Key → Prop
  | Key.char c => 32 ≤ c ∧ c ≤ 126
  | _ => True

/-- Bytes of a sequence of key presses. -/
def key_bytes (keys : List Key) : List Nat :=
  keys.flatMap Key.bytes

/-- The handler the loop runs for a key. -/
def Key.apply (s : Editor) : Key → Editor
  | Key.char c => insert_char s c
  | Key.backspace => MyShell.backspace s
  | Key.ctrl_h => MyShell.backspace s
  | Key.left => arrow_left s
  | Key.right => arrow_right s
  | Key.word_left => MyShell.word_left s
  | Key.word_right => MyShell.word_right s

/-! ## Pipeline children and the parent -/

/-- The slot of `pipefds` holding the read end of pipe `j`, filled by
`pipe(pipefds + j * 2)`. -/
def read_end (j : Nat) : Nat := j * 2

/-- The slot of `pipefds` holding the write end of pipe `j`. -/
def write_end (j : Nat) : Nat := j * 2 + 1

/-- A call made by a pipeline child. -/
inductive Sys where
  /-- The call `dup2(pipefds[slot], fd)`. -/
  | dup2 (slot : Nat) (fd : Nat)
  /-- The call `close(pipefds[slot])`. -/
  | close (slot : Nat)
  /-- The calls `handle_redirection(&args[cmd_start]); execvp(..)` on this vector. -/
  | redirect_exec (argv : List CStr)
deriving DecidableEq

/-- The calls of a pipeline child in program order (lines 834-847): the `dup2`
onto standard input, the `dup2` onto standard output, the loop closing
`pipefds`, then the redirections and `execvp`. -/
def Child.calls (c : Child) : List Sys :=
  (match c.stdin_from with
    | some k => [Sys.dup2 k 0]
    | none => []) ++
  (match c.stdout_to with
    | some k => [Sys.dup2 k 1]
    | none => []) ++
  c.closed.map Sys.close ++ [Sys.redirect_exec c.argv]

/-- The `pipefds` slots the parent holds from successful `pipe` calls when
`execute_piped_commands` returns or is left. -/
def Piped.opened : Piped → List Nat
  | Piped.no_pipes => []
  | Piped.overflow => []
  | Piped.pipe_failed created => List.range (2 * created)
  | Piped.ran pipes _ _ _ => List.range (2 * pipes)

/-- The `pipefds` slots the parent closes before it returns: on a failed `pipe`
the function returns right after `perror("pipe")` (lines 822-825) and closes
nothing. -/
def Piped.closed_by_parent : Piped → List Nat
  | Piped.ran _ _ parent_closed _ => parent_closed
  | _ => []

/-! ## Command execution -/

/-- The table `builtin_names`: `cd`, `exit`, `help`. -/
def builtin_names : List CStr :=
  [[99, 100], [101, 120, 105, 116], [104, 101, 108, 112]]

/-- Return values of `builtin_cd`, `builtin_exit`, `builtin_help`, in the order
of the table `builtin_funcs`. -/
def builtin_rets : List Int := [1, 0, 1]

/-- The loop over the builtin table (lines 875-879) from index `i`: the first
index whose name equals `args[0]`. -/
def find_builtin (t : CStr) : List CStr → Nat → Option Nat
  | [], _ => none
  | n :: ns, i => if t = n then some i else find_builtin t ns (i + 1)

/-- What a call of `execute_command` does in the shell process. -/
inductive Executed where
  /-- No token: `args[0] == NULL`, return 1 without forking. -/
  | empty
  /-- The builtin with this table index was called and its value returned. -/
  | builtin (i : Nat)
  /-- The call `execute_piped_commands(args)` did not return -1: return 1. -/
  | piped (p : Piped)
  /-- One child was forked on the whole vector (it runs `handle_redirection` and
  `execvp`), the parent waited for it: return 1. -/
  | external (stage : List CStr)
  /-- The call `fork` failed: `perror`, return 1. -/
  | fork_failed
deriving DecidableEq

/-- Embedding of `execute_command(args)` (lines 869-904) on the token list of
`args`. `fork_ok` tells whether the `fork` of the single-command path succeeds. -/
def execute_command (pipe_ok : Nat → Bool) (fork_ok : Bool) (toks : List CStr) : Executed :=
  match toks with
  | [] => Executed.empty
  | t :: _ =>
    match find_builtin t builtin_names 0 with
    | some i => Executed.builtin i
    | none =>
      match execute_piped_commands pipe_ok (args_of toks) with
      | Piped.no_pipes => if fork_ok then Executed.external toks else Executed.fork_failed
      | p => Executed.piped p

/-- The value `execute_command` returns; none is defined when `pipe_positions`
was overrun. -/
def Executed.ret : Executed → Option Int
  | Executed.empty => some 1
  | Executed.builtin i => some (builtin_rets.getD i 1)
  | Executed.piped Piped.overflow => none
  | Executed.piped _ => some 1
  | Executed.external _ => some 1
  | Executed.fork_failed => some 1

/-- The test `while (status)` of `shell_loop` (line 933): the loop goes on
unless the status is 0. -/
def shell_loop_continues (status : Int) : Bool :=
  status != 0

/-! ## Choice of the completion engine -/

/-- The loop of lines 464-470: whether some byte of the word is whitespace. -/
def has_space (part : CStr) : Bool :=
  part.any isspace

/-- The call `get_completions` ends in. -/
inductive EngineCall where
  /-- The call `get_file_completions(partial, count)`. -/
  | file_completions (part : CStr)
  /-- The call `get_command_completions(partial, count)`. -/
  | command_completions (part : CStr)
deriving DecidableEq

/-- The branches of `get_completions` (lines 453-477); `partial[0]` of the empty
string is its NUL. -/
def get_completions_call (part : CStr) : EngineCall :=
  if part.length = 0 ∨ part.getD 0 0 = 46 ∨ part.getD 0 0 = 47 ∨ part.getD 0 0 = 126 then
    EngineCall.file_completions part
  else if has_space part = false then EngineCall.command_completions part
  else EngineCall.file_completions part

/-- Embedding of `get_completions(partial, &count)`, given the two engines. -/
def get_completions (get_command_completions get_file_completions : CStr → List CStr)
    (part : CStr) : List CStr :=
  match get_completions_call part with
  | EngineCall.file_completions p => get_file_completions p
  | EngineCall.command_completions p => get_command_completions p

/-! ## A long completion -/

/-- The editor state a call is waiting in, if it is waiting. -/
def Outcome.state : Outcome → Option Editor
  | Outcome.reading s => some s
  | _ => none

/-- A file name of 255 bytes that starts with `ab`. -/
def long_name : CStr := 97 :: 98 :: List.replicate 253 99

/-- A completion engine whose search path holds the single match `long_name`
for the word `ab`. -/
def long_engine (part : CStr) : List CStr :=
  if part = [97, 98] then [long_name] else []

/-! ## The specified word-left move -/

/-- First loop of the specified `moveWordLeft`: step left while the byte left of
the cursor is a space. -/
def spec_skip_spaces_left (m : Nat → Nat) : Nat → Int → Int
  | 0, cursor => cursor
  | fuel + 1, cursor =>
    if cursor > 0 ∧ m (cursor - 1).toNat = 32 then spec_skip_spaces_left m fuel (cursor - 1)
    else cursor

/-- Second loop of the specified `moveWordLeft`: step left while the byte left of
the cursor is not a space. -/
def spec_skip_run_left (m : Nat → Nat) : Nat → Int → Int
  | 0, cursor => cursor
  | fuel + 1, cursor =>
    if cursor > 0 ∧ m (cursor - 1).toNat ≠ 32 then spec_skip_run_left m fuel (cursor - 1)
    else cursor

/-- The specified `moveWordLeft`, in the words of the editor contract: step left
over any trailing spaces, then left over the contiguous non-space run. Each loop
makes at most as many steps as its starting cursor. -/
def moveWordLeft (m : Nat → Nat) (cursor : Int) : Int :=
  let c1 := spec_skip_spaces_left m cursor.toNat cursor
  spec_skip_run_left m c1.toNat c1

/-! ## Arithmetic lines -/

/-- The test `isdigit(b)`. -/
def isdigit (b : Nat) : Bool :=
  48 ≤ b && b ≤ 57

/-- The loop of `is_arithmetic_expression` (lines 117-129) from the byte it is
on, with the flags `has_digit` and `has_operator` so far: `none` is the early
`return 0` on a byte outside the arithmetic set, otherwise the flags at the
terminator. -/
def arith_scan : CStr → Bool → Bool → Option (Bool × Bool)
  | [], has_digit, has_operator => some (has_digit, has_operator)
  | b :: rest, has_digit, has_operator =>
    if isdigit b = true ∨ b = 46 then arith_scan rest true has_operator
    else if b = 43 ∨ b = 45 ∨ b = 42 ∨ b = 47 ∨ b = 37 ∨ b = 40 ∨ b = 41 ∨ b = 32 ∨ b = 94 then
      if b ≠ 32 ∧ b ≠ 40 ∧ b ≠ 41 then arith_scan rest has_digit true
      else arith_scan rest has_digit has_operator
    else none

/-- Embedding of `is_arithmetic_expression(str)` (lines 111-132); `none` is a
NULL `str`. -/
def is_arithmetic_expression (str : Option CStr) : Bool :=
  match str with
  | none => false
  | some l =>
    if l.length = 0 then false
    else
      match arith_scan l false false with
      | none => false
      | some (has_digit, has_operator) => has_digit && has_operator

/-- What one pass of `shell_loop` does with the line it read (lines 916-930). -/
inductive LineAction where
  /-- The line goes to `evaluate_expression` and the result is printed. -/
  | evaluate (expr : CStr)
  /-- The line goes to `parse_input` and the tokens to `execute_command`. -/
  | run_command (args : Option (List CStr))
deriving DecidableEq

/-- The branch of `shell_loop` on `is_arithmetic_expression(input)`. -/
def shell_dispatch (input : CStr) : LineAction :=
  if is_arithmetic_expression (some input) = true then LineAction.evaluate input
  else LineAction.run_command (parse_input input)

/-- The test `isalpha(b)` in the C locale. -/
def isalpha (b : Nat) : Bool :=
  (65 ≤ b && b ≤ 90) || (97 ≤ b && b ≤ 122)

/-- A byte of the arithmetic set: a digit, `.`, one of `+ - * / % ^`, a
parenthesis or a space. -/
def arith_byte (b : Nat) : Prop :=
  (48 ≤ b ∧ b ≤ 57) ∨ b = 46 ∨ b = 43 ∨ b = 45 ∨ b = 42 ∨ b = 47 ∨ b = 37 ∨ b = 94 ∨
    b = 40 ∨ b = 41 ∨ b = 32

/-- A digit or `.`. -/
def digit_byte (b : Nat) : Prop :=
  (48 ≤ b ∧ b ≤ 57) ∨ b = 46

/-- One of `+ - * / % ^`. -/
def operator_byte (b : Nat) : Prop :=
  b = 43 ∨ b = 45 ∨ b = 42 ∨ b = 47 ∨ b = 37 ∨ b = 94

/-! ## History at start-up and history reads -/

/-- The loop of `load_history_from_file` (lines 321-328) over the strings that
the successive `fgets` calls return: each is cut at its first newline and stored
when it is not empty, until the file ends or `history_count` reaches
`MAX_HISTORY`. -/
def load_loop : List CStr → Globals → Globals
  | [], g => g
  | ln :: rest, g =>
    if g.history_count < (MAX_HISTORY : Int) then
      if (ln.takeWhile (fun b => b != 10)).length > 0 then
        load_loop rest
          { g with
            history := hist_set g.history g.history_count.toNat
              (ln.takeWhile (fun b => b != 10)),
            history_count := g.history_count + 1 }
      else load_loop rest g
    else g

/-- Embedding of `load_history_from_file()` (lines 310-332). `file` is `none`
when `HOME` is not set or the file cannot be opened, else the strings `fgets`
returns. -/
def load_history_from_file (g : Globals) (file : Option (List CStr)) : Globals :=
  match file with
  | none => g
  | some chunks =>
    { load_loop chunks g with history_index := (load_loop chunks g).history_count }

/-- The slot of `history` that a pass of the editing loop reads when it starts
on these bytes: `ESC [ A` reads `history[temp_history_index - 1]` when the index
is above 0 (lines 517-525), `ESC [ B` reads `history[temp_history_index + 1]`
when the index is below `history_count - 1` (lines 533-541); no other pass reads
`history`. -/
def history_read (g : Globals) (s : Editor) : List Nat → Option Int
  | c :: seq0 :: seq1 :: _ =>
    if c = 27 ∧ seq0 = 91 then
      if seq1 = 65 then
        if s.temp_history_index > 0 then some (s.temp_history_index - 1) else none
      else if seq1 = 66 then
        if s.temp_history_index < g.history_count - 1 then some (s.temp_history_index + 1)
        else none
      else none
    else none
  | _ => none

/-- The editor states the loop of `read_input_with_completion` can be in at the
start of a pass, from the state `s0`: `s0` itself, and the state after any pass
from such a state, whatever bytes arrive. -/
inductive Reaches (gc : CStr → List CStr) (g : Globals) (s0 : Editor) : Editor → Prop where
  | start : Reaches gc g s0 s0
  | pass (s1 s2 : Editor) (bytes rest : List Nat) (h : Reaches gc g s0 s1)
      (hp : iteration gc g s1 bytes = Step.cont s2 rest) : Reaches gc g s0 s2

/-! ## Command completion -/

/-- The test `strncmp(a, b, n) == 0`: the first `n` bytes agree, the comparison
ending at a terminator. -/
def strncmp_eq (a b : CStr) (n : Nat) : Bool :=
  (a ++ [0]).take n == (b ++ [0]).take n

/-- The loop over the builtin table (lines 353-358): the names that agree with
the word on its length, in table order. -/
def builtin_matches (part : CStr) : List CStr :=
  builtin_names.filter (fun name => strncmp_eq name part part.length)

/-- The inner loop (lines 375-390) over the entries `readdir` returns for one
directory, with the completions so far: while fewer than `MAX_COMPLETIONS` are
held, an entry that agrees with the word on its length and equals none of the
completions held is appended. -/
def add_matches (part : CStr) : List CStr → List CStr → List CStr
  | [], completions => completions
  | entry :: entries, completions =>
    if completions.length < MAX_COMPLETIONS then
      if strncmp_eq entry part part.length = true then
        if entry ∈ completions then add_matches part entries completions
        else add_matches part entries (completions ++ [entry])
      else add_matches part entries completions
    else completions

/-- The outer loop (lines 367-393) over the directories of the search path, each
`none` when `opendir` fails, else its listing: while fewer than
`MAX_COMPLETIONS` are held, a directory that cannot be opened is skipped and an
opened one is scanned. -/
def scan_path (part : CStr) : List (Option (List CStr)) → List CStr → List CStr
  | [], completions => completions
  | dir :: dirs, completions =>
    if completions.length < MAX_COMPLETIONS then
      match dir with
      | none => scan_path part dirs completions
      | some listing => scan_path part dirs (add_matches part listing completions)
    else completions

/-- Embedding of `get_command_completions(partial, &count)` (lines 348-397); the
result is `completions[0..count)`. `path` is `none` when `PATH` is not set, else
the directories of the search path in order. -/
def get_command_completions (path : Option (List (Option (List CStr)))) (part : CStr) :
    List CStr :=
  match path with
  | none => builtin_matches part
  | some dirs => scan_path part dirs (builtin_matches part)

/-- The entries of all directories of the search path that can be opened, in
search-path order and then listing order. -/
def path_entries (path : Option (List (Option (List CStr)))) : List CStr :=
  ((path.getD []).filterMap id).flatten

/-- A list of names with only the first occurrence of each name kept. -/
def first_occurrences : List CStr → List CStr
  | [] => []
  | x :: xs => x :: (first_occurrences xs).filter (fun y => decide (y ≠ x))

/-! ## A pipeline of twelve stages -/

theorem skip_word_right_bounds (m : Nat → Nat) (len : Int) (fuel : Nat) (c : Int)
    (h : c ≤ len) :
    c ≤ skip_word_right m len fuel c ∧ skip_word_right m len fuel c ≤ len := by
  induction fuel generalizing c with
  | zero => exact ⟨le_refl _, h⟩
  | succ n ih =>
    unfold skip_word_right
    split
    · rename_i hc
      have := ih (c + 1) (by omega)
      omega
    · exact ⟨le_refl _, h⟩

theorem skip_spaces_right_bounds (m : Nat → Nat) (len : Int) (fuel : Nat) (c : Int)
    (h : c ≤ len) :
    c ≤ skip_spaces_right m len fuel c ∧ skip_spaces_right m len fuel c ≤ len := by
  induction fuel generalizing c with
  | zero => exact ⟨le_refl _, h⟩
  | succ n ih =>
    unfold skip_spaces_right
    split
    · rename_i hc
      have := ih (c + 1) (by omega)
      omega
    · exact ⟨le_refl _, h⟩

theorem skip_spaces_left_bounds (m : Nat → Nat) (fuel : Nat) (c : Int) (h : 0 ≤ c) :
    0 ≤ skip_spaces_left m fuel c ∧ skip_spaces_left m fuel c ≤ c := by
  induction fuel generalizing c with
  | zero => exact ⟨h, le_refl _⟩
  | succ n ih =>
    unfold skip_spaces_left
    split
    · rename_i hc
      have := ih (c - 1) (by omega)
      omega
    · exact ⟨h, le_refl _⟩

theorem skip_word_left_bounds (m : Nat → Nat) (fuel : Nat) (c : Int) (h : 0 ≤ c) :
    0 ≤ skip_word_left m fuel c ∧ skip_word_left m fuel c ≤ c := by
  induction fuel generalizing c with
  | zero => exact ⟨h, le_refl _⟩
  | succ n ih =>
    unfold skip_word_left
    split
    · rename_i hc
      have := ih (c - 1) (by omega)
      omega
    · exact ⟨h, le_refl _⟩

/-- The fuel `len - cursor` is enough: at the result the loop condition is false. -/
theorem skip_word_right_stops (m : Nat → Nat) (len : Int) (fuel : Nat) (c : Int)
    (hf : len - c ≤ fuel) :
    ¬ (skip_word_right m len fuel c < len ∧
        m (skip_word_right m len fuel c).toNat ≠ 32) := by
  induction fuel generalizing c with
  | zero =>
    simp only [skip_word_right, Nat.cast_zero] at hf ⊢
    omega
  | succ n ih =>
    unfold skip_word_right
    split
    · exact ih (c + 1) (by push_cast at hf; omega)
    · assumption

theorem skip_spaces_right_stops (m : Nat → Nat) (len : Int) (fuel : Nat) (c : Int)
    (hf : len - c ≤ fuel) :
    ¬ (skip_spaces_right m len fuel c < len ∧
        m (skip_spaces_right m len fuel c).toNat = 32) := by
  induction fuel generalizing c with
  | zero =>
    simp only [skip_spaces_right, Nat.cast_zero] at hf ⊢
    omega
  | succ n ih =>
    unfold skip_spaces_right
    split
    · exact ih (c + 1) (by push_cast at hf; omega)
    · assumption

/-- The fuel `cursor` is enough: at the result the loop condition is false. -/
theorem skip_spaces_left_stops (m : Nat → Nat) (fuel : Nat) (c : Int) (hf : c ≤ fuel) :
    ¬ (skip_spaces_left m fuel c > 0 ∧ m (skip_spaces_left m fuel c).toNat = 32) := by
  induction fuel generalizing c with
  | zero =>
    simp only [skip_spaces_left, Nat.cast_zero] at hf ⊢
    omega
  | succ n ih =>
    unfold skip_spaces_left
    split
    · exact ih (c - 1) (by push_cast at hf; omega)
    · assumption

theorem skip_word_left_stops (m : Nat → Nat) (fuel : Nat) (c : Int) (hf : c ≤ fuel) :
    ¬ (skip_word_left m fuel c > 0 ∧ m (skip_word_left m fuel c - 1).toNat ≠ 32) := by
  induction fuel generalizing c with
  | zero =>
    simp only [skip_word_left, Nat.cast_zero] at hf ⊢
    omega
  | succ n ih =>
    unfold skip_word_left
    split
    · exact ih (c - 1) (by push_cast at hf; omega)
    · assumption

theorem insert_char_inv (s : Editor) (c : Nat) (h0 : 0 ≤ s.cursor) (h1 : s.cursor ≤ s.len) :
    0 ≤ (insert_char s c).cursor ∧ (insert_char s c).cursor ≤ (insert_char s c).len := by
  unfold insert_char
  split
  · simp only
    omega
  · exact ⟨h0, h1⟩

theorem backspace_inv (s : Editor) (h0 : 0 ≤ s.cursor) (h1 : s.cursor ≤ s.len) :
    0 ≤ (backspace s).cursor ∧ (backspace s).cursor ≤ (backspace s).len := by
  unfold backspace
  split
  · simp only
    omega
  · exact ⟨h0, h1⟩

theorem arrow_left_inv (s : Editor) (h0 : 0 ≤ s.cursor) (h1 : s.cursor ≤ s.len) :
    0 ≤ (arrow_left s).cursor ∧ (arrow_left s).cursor ≤ (arrow_left s).len := by
  unfold arrow_left
  split
  · simp only
    omega
  · exact ⟨h0, h1⟩

theorem arrow_right_inv (s : Editor) (h0 : 0 ≤ s.cursor) (h1 : s.cursor ≤ s.len) :
    0 ≤ (arrow_right s).cursor ∧ (arrow_right s).cursor ≤ (arrow_right s).len := by
  unfold arrow_right
  split
  · simp only
    omega
  · exact ⟨h0, h1⟩

theorem word_right_inv (s : Editor) (h0 : 0 ≤ s.cursor) (h1 : s.cursor ≤ s.len) :
    0 ≤ (word_right s).cursor ∧ (word_right s).cursor ≤ (word_right s).len := by
  have a := skip_word_right_bounds s.input s.len (s.len - s.cursor).toNat s.cursor h1
  have b := skip_spaces_right_bounds s.input s.len
    (s.len - skip_word_right s.input s.len (s.len - s.cursor).toNat s.cursor).toNat
    (skip_word_right s.input s.len (s.len - s.cursor).toNat s.cursor) a.2
  simp only [word_right]
  omega

theorem word_left_inv (s : Editor) (h0 : 0 ≤ s.cursor) (h1 : s.cursor ≤ s.len) :
    0 ≤ (word_left s).cursor ∧ (word_left s).cursor ≤ (word_left s).len := by
  have hc : 0 ≤ (if s.cursor > 0 then s.cursor - 1 else s.cursor) ∧
      (if s.cursor > 0 then s.cursor - 1 else s.cursor) ≤ s.cursor := by
    split <;> omega
  have a := skip_spaces_left_bounds s.input
    (if s.cursor > 0 then s.cursor - 1 else s.cursor).toNat _ hc.1
  have b := skip_word_left_bounds s.input
    (skip_spaces_left s.input (if s.cursor > 0 then s.cursor - 1 else s.cursor).toNat
      (if s.cursor > 0 then s.cursor - 1 else s.cursor)).toNat _ a.1
  simp only [word_left]
  omega

theorem key_apply_inv (s : Editor) (k : Key) (h0 : 0 ≤ s.cursor) (h1 : s.cursor ≤ s.len) :
    0 ≤ (Key.apply s k).cursor ∧ (Key.apply s k).cursor ≤ (Key.apply s k).len := by
  cases k with
  | char c => exact insert_char_inv s c h0 h1
  | backspace => exact backspace_inv s h0 h1
  | ctrl_h => exact backspace_inv s h0 h1
  | left => exact arrow_left_inv s h0 h1
  | right => exact arrow_right_inv s h0 h1
  | word_left => exact word_left_inv s h0 h1
  | word_right => exact word_right_inv s h0 h1

theorem iteration_key (gc : CStr → List CStr) (g : Globals) (s : Editor) (k : Key)
    (hk : k.ok) (rest : List Nat) :
    iteration gc g s (k.bytes ++ rest) = Step.cont (Key.apply s k) rest := by
  cases k with
  | char c =>
    obtain ⟨h1, h2⟩ := hk
    have e1 : c ≠ 10 := by omega
    have e2 : c ≠ 27 := by omega
    have e3 : c ≠ 9 := by omega
    have e4 : ¬ (c = 127 ∨ c = 8) := by omega
    have e5 : c ≠ 4 := by omega
    simp [Key.bytes, iteration, escape_sequence, extended_sequence, Key.apply, e1, e2, e3, e4, e5, h1, h2]
  | backspace => simp [Key.bytes, iteration, escape_sequence, extended_sequence, Key.apply]
  | ctrl_h => simp [Key.bytes, iteration, escape_sequence, extended_sequence, Key.apply]
  | left => simp [Key.bytes, iteration, escape_sequence, extended_sequence, Key.apply]
  | right => simp [Key.bytes, iteration, escape_sequence, extended_sequence, Key.apply]
  | word_left => simp [Key.bytes, iteration, escape_sequence, extended_sequence, Key.apply]
  | word_right => simp [Key.bytes, iteration, escape_sequence, extended_sequence, Key.apply]

theorem extended_sequence_length (s s1 : Editor) (bytes rest : List Nat)
    (h : extended_sequence s bytes = Step.cont s1 rest) : rest.length < bytes.length := by
  rcases bytes with _ | ⟨b2, _ | ⟨b3, _ | ⟨b4, rest5⟩⟩⟩
  · cases h
  · simp only [extended_sequence] at h
    split_ifs at h
    simp only [Step.cont.injEq] at h
    obtain ⟨_, rfl⟩ := h
    simp
  · simp only [extended_sequence] at h
    split_ifs at h
    simp only [Step.cont.injEq] at h
    obtain ⟨_, rfl⟩ := h
    simp
  · simp only [extended_sequence] at h
    split_ifs at h <;>
      (simp only [Step.cont.injEq] at h
       obtain ⟨_, rfl⟩ := h
       simp only [List.length_cons]
       omega)

theorem escape_sequence_length (g : Globals) (s s1 : Editor) (bytes rest : List Nat)
    (h : escape_sequence g s bytes = Step.cont s1 rest) : rest.length < bytes.length := by
  rcases bytes with _ | ⟨b0, _ | ⟨b1, rest2⟩⟩
  · cases h
  · cases h
  · simp only [escape_sequence] at h
    split_ifs at h <;>
      first
        | (simp only [Step.cont.injEq] at h
           obtain ⟨_, rfl⟩ := h
           simp only [List.length_cons]
           omega)
        | exact Nat.lt_trans (extended_sequence_length s s1 rest2 rest h)
            (by simp only [List.length_cons]; omega)

/-- Every pass of the loop that goes on has read at least one byte. -/
theorem iteration_cont_length (gc : CStr → List CStr) (g : Globals) (s s1 : Editor)
    (bytes rest : List Nat) (h : iteration gc g s bytes = Step.cont s1 rest) :
    rest.length < bytes.length := by
  rcases bytes with _ | ⟨c, rest0⟩
  · cases h
  · simp only [iteration] at h
    split_ifs at h <;>
      first
        | (simp only [Step.cont.injEq] at h
           obtain ⟨_, rfl⟩ := h
           simp only [List.length_cons]
           omega)
        | exact Nat.lt_trans (escape_sequence_length g s s1 rest0 rest h)
            (by simp only [List.length_cons]; omega)

/-- The fuel `bytes.length + 1` is enough: the loop never stops for lack of it. -/
theorem run_has_fuel (gc : CStr → List CStr) (g : Globals) (fuel : Nat) (s : Editor)
    (bytes : List Nat) (hf : bytes.length < fuel) :
    run gc g fuel s bytes ≠ Outcome.out_of_fuel := by
  induction fuel generalizing s bytes with
  | zero => omega
  | succ n ih =>
    unfold run
    cases hi : iteration gc g s bytes with
    | cont s1 rest =>
      have := iteration_cont_length gc g s s1 bytes rest hi
      exact ih s1 rest (by omega)
    | brk s1 rest =>
      simp only [finish]
      split <;> simp
    | exit0 => simp
    | blocked s1 => simp

theorem key_bytes_pos (k : Key) : 0 < k.bytes.length := by
  cases k <;> simp [Key.bytes]

theorem run_keys (gc : CStr → List CStr) (g : Globals) (keys : List Key)
    (hk : ∀ k ∈ keys, k.ok) (s : Editor) (fuel : Nat)
    (hf : (key_bytes keys).length < fuel) :
    run gc g fuel s (key_bytes keys) = Outcome.reading (keys.foldl Key.apply s) := by
  induction keys generalizing s fuel with
  | nil =>
    cases fuel with
    | zero => simp at hf
    | succ f => simp [key_bytes, run, iteration, escape_sequence, extended_sequence]
  | cons k ks ih =>
    cases fuel with
    | zero => simp at hf
    | succ f =>
      have hb : key_bytes (k :: ks) = k.bytes ++ key_bytes ks := by
        simp [key_bytes]
      have hp := key_bytes_pos k
      rw [hb] at hf ⊢
      simp only [List.length_append] at hf
      simp only [run, iteration_key gc g s k (hk k (List.mem_cons_self _ _)), List.foldl_cons]
      exact ih (fun k1 h1 => hk k1 (List.mem_cons_of_mem _ h1)) _ f (by omega)

theorem foldl_keys_inv (keys : List Key) (s : Editor) (h0 : 0 ≤ s.cursor)
    (h1 : s.cursor ≤ s.len) :
    0 ≤ (keys.foldl Key.apply s).cursor ∧
      (keys.foldl Key.apply s).cursor ≤ (keys.foldl Key.apply s).len := by
  induction keys generalizing s with
  | nil => exact ⟨h0, h1⟩
  | cons k ks ih =>
    have a := key_apply_inv s k h0 h1
    exact ih (Key.apply s k) a.1 a.2

/-- C1. From an editor state with `0 ≤ cursor ≤ len`, for every sequence of
printable-character, Backspace, ArrowLeft, ArrowRight, Ctrl+Left and Ctrl+Right
key presses and every `n`, the loop of `read_input_with_completion` fed the bytes
of the first `n` keys runs the handler of each key in turn, is then waiting for
the next byte, and its state still has `0 ≤ cursor ≤ len`. -/
theorem C1_cursor_within_len (gc : CStr → List CStr) (g : Globals) (s : Editor)
    (keys : List Key) (hk : ∀ k ∈ keys, k.ok)
    (h0 : 0 ≤ s.cursor) (h1 : s.cursor ≤ s.len) (n : Nat) :
    ∃ s1 : Editor,
      run gc g ((key_bytes (keys.take n)).length + 1) s (key_bytes (keys.take n))
        = Outcome.reading s1 ∧
      s1 = (keys.take n).foldl Key.apply s ∧
      0 ≤ s1.cursor ∧ s1.cursor ≤ s1.len := by
  refine ⟨(keys.take n).foldl Key.apply s, ?_, rfl, foldl_keys_inv _ s h0 h1⟩
  exact run_keys gc g (keys.take n) (fun k h => hk k (List.mem_of_mem_take h)) s _
    (Nat.lt_succ_self _)

/-- Witness for C1: from the empty line, the keys `a`, ArrowLeft, Ctrl+Right,
Backspace. -/
theorem C1_cursor_within_len_witness :
    ∃ s1 : Editor,
      run (fun _ => []) empty_history
          ((key_bytes ([Key.char 97, Key.left, Key.word_right, Key.backspace].take 4)).length + 1)
          (init_editor empty_history (fun _ => 0))
          (key_bytes ([Key.char 97, Key.left, Key.word_right, Key.backspace].take 4))
        = Outcome.reading s1 ∧
      s1 = ([Key.char 97, Key.left, Key.word_right, Key.backspace].take 4).foldl Key.apply
            (init_editor empty_history (fun _ => 0)) ∧
      0 ≤ s1.cursor ∧ s1.cursor ≤ s1.len :=
  C1_cursor_within_len (fun _ => []) empty_history (init_editor empty_history (fun _ => 0))
    [Key.char 97, Key.left, Key.word_right, Key.backspace]
    (by
      intro k hk
      simp only [List.mem_cons, List.mem_singleton, List.not_mem_nil, or_false] at hk
      rcases hk with rfl | rfl | rfl | rfl <;> simp [Key.ok])
    (by decide) (by decide) 4

/-! ## History store -/

theorem shift_range (h : Nat → CStr) (n : Nat) :
    (List.range n).foldl (fun a i => hist_set a i (a (i + 1))) h
      = fun i => if i < n then h (i + 1) else h i := by
  induction n with
  | zero => simp
  | succ k ih =>
    rw [List.range_succ, List.foldl_append, ih]
    funext i
    simp only [List.foldl_cons, List.foldl_nil, hist_set]
    by_cases h1 : i = k
    · subst h1
      simp
    · by_cases h2 : i < k
      · have h3 : i < k + 1 := by omega
        simp [h1, h2, h3]
      · have h3 : ¬ i < k + 1 := by omega
        simp [h1, h2, h3]

theorem shift_history_eq (h : Nat → CStr) :
    shift_history h = fun i => if i < MAX_HISTORY - 1 then h (i + 1) else h i :=
  shift_range h (MAX_HISTORY - 1)

theorem map_range_shift (h : Nat → CStr) (c : CStr) (n : Nat) :
    (List.range (n + 1)).map (hist_set (fun i => if i < n then h (i + 1) else h i) n c)
      = ((List.range (n + 1)).map h).tail ++ [c] := by
  have e1 : ((List.range (n + 1)).map h).tail = (List.range n).map (fun i => h (i + 1)) := by
    rw [List.range_succ_eq_map]
    simp [List.map_map, Function.comp_def]
  rw [e1, List.range_succ, List.map_append]
  congr 1
  · apply List.map_congr_left
    intro i hi
    have hi1 : i < n := List.mem_range.mp hi
    have hi2 : i ≠ n := by omega
    simp [hist_set, hi1, hi2]
  · simp [hist_set]

/-- C4. When the command is non-empty and equal to the last stored entry,
`add_to_history` returns the history state unchanged (entries and count); an
empty or NULL command leaves it unchanged too; and from an empty history, two
editing sessions that each read `ls` and Enter leave the entries as `[ls]`. -/
theorem C4_duplicate_not_stored (g : Globals) (c : CStr) (hne : c ≠ [])
    (hpos : 0 < g.history_count)
    (hlast : g.history (g.history_count - 1).toNat = c) :
    add_to_history g (some c) = g ∧
    add_to_history g (some []) = g ∧
    add_to_history g none = g ∧
    (∀ (gc : CStr → List CStr) (heap : Nat → Nat) (g0 : Globals),
      g0.history_count = 0 →
      ∃ g1 g2 : Globals,
        read_input_with_completion gc g0 heap [108, 115, 10]
          = Outcome.returned [108, 115] g1 [] ∧
        read_input_with_completion gc g1 heap [108, 115, 10]
          = Outcome.returned [108, 115] g2 [] ∧
        entries g1 = [[108, 115]] ∧ entries g2 = [[108, 115]] ∧
        g2.history_count = 1) := by
  refine ⟨?_, ?_, rfl, ?_⟩
  · have hl : c.length ≠ 0 := by
      intro h0
      exact hne (List.length_eq_zero.mp h0)
    simp only [add_to_history]
    rw [if_neg hl, if_pos ⟨hpos, hlast⟩]
  · simp [add_to_history]
  · intro gc heap g0 h0
    have line1 : ∀ (g : Globals) (t : Int),
        run gc g 4 { input := memset0 heap MAX_INPUT, cursor := 0, len := 0,
                     temp_history_index := t } [108, 115, 10]
          = Outcome.returned [108, 115] (add_to_history g (some [108, 115])) [] := by
      intro g t
      simp [run, iteration, escape_sequence, extended_sequence, insert_char, finish, MAX_INPUT, c_string, strlen_mem,
        strlen_from, slice, poke, memmove, memset0, List.range_succ]
    refine ⟨add_to_history g0 (some [108, 115]),
      add_to_history (add_to_history g0 (some [108, 115])) (some [108, 115]),
      line1 g0 _, line1 _ _, ?_, ?_, ?_⟩
    · simp [add_to_history, h0, entries, MAX_HISTORY, hist_set, List.range_succ]
    · simp [add_to_history, h0, entries, MAX_HISTORY, hist_set, List.range_succ]
    · simp [add_to_history, h0, MAX_HISTORY, hist_set]

/-- Witness for C4: a history holding the single entry `ls`. -/
theorem C4_duplicate_not_stored_witness :
    add_to_history { history := fun _ => [108, 115], history_count := 1, history_index := 1 }
      (some [108, 115])
      = { history := fun _ => [108, 115], history_count := 1, history_index := 1 } :=
  (C4_duplicate_not_stored
    { history := fun _ => [108, 115], history_count := 1, history_index := 1 }
    [108, 115] (by decide) (by decide) rfl).1

/-- C5. With `history_count = MAX_HISTORY` and a non-empty command `c` that
differs from the last entry, after `add_to_history(c)` the entries are the old
entries without the first one, followed by `c`, and the count is still
`MAX_HISTORY`. -/
theorem C5_oldest_entry_evicted (g : Globals) (c : CStr)
    (hfull : g.history_count = (MAX_HISTORY : Int)) (hne : c ≠ [])
    (hdiff : g.history (MAX_HISTORY - 1) ≠ c) :
    entries (add_to_history g (some c)) = (entries g).tail ++ [c] ∧
    (add_to_history g (some c)).history_count = (MAX_HISTORY : Int) ∧
    (entries (add_to_history g (some c))).length = MAX_HISTORY := by
  have hl : c.length ≠ 0 := by
    intro h0
    exact hne (List.length_eq_zero.mp h0)
  have hidx : (g.history_count - 1).toNat = MAX_HISTORY - 1 := by
    rw [hfull]
    simp [MAX_HISTORY]
  have hlt : ¬ g.history_count < (MAX_HISTORY : Int) := by
    rw [hfull]
    exact lt_irrefl _
  have hadd : add_to_history g (some c)
      = { history := hist_set (shift_history g.history) (MAX_HISTORY - 1) c,
          history_count := g.history_count, history_index := g.history_count } := by
    simp only [add_to_history, hl, hidx, hdiff, hlt, if_false, and_false]
  have hn : g.history_count.toNat = (MAX_HISTORY - 1) + 1 := by
    rw [hfull]
    simp [MAX_HISTORY]
  rw [hadd]
  refine ⟨?_, hfull, ?_⟩
  · simp only [entries, hn, shift_history_eq]
    exact map_range_shift g.history c (MAX_HISTORY - 1)
  · simp only [entries, hn, List.length_map, List.length_range]
    rfl

/-- Witness for C5: a full history of entries `a`, and the command `b`. -/
theorem C5_oldest_entry_evicted_witness :
    entries (add_to_history
        { history := fun _ => [97], history_count := 1000, history_index := 1000 }
        (some [98]))
      = (entries { history := fun _ => [97], history_count := 1000,
                   history_index := 1000 }).tail ++ [[98]] :=
  (C5_oldest_entry_evicted
    { history := fun _ => [97], history_count := 1000, history_index := 1000 }
    [98] rfl (by decide) (by decide)).1

/-! ## Reading a string back from the buffer -/

theorem strlen_from_eq (m : Nat → Nat) (n i : Nat)
    (h : ∀ j, i ≤ j → j < i + n → m j ≠ 0) : strlen_from m n i = i + n := by
  induction n generalizing i with
  | zero => rfl
  | succ k ih =>
    unfold strlen_from
    rw [if_neg (h i (le_refl _) (by omega)), ih (i + 1) (fun j h1 h2 => h j (by omega) (by omega))]
    omega

theorem slice_length (m : Nat → Nat) (a b : Nat) : (slice m a b).length = b - a := by
  simp [slice]

theorem slice_eq_of_getD (m : Nat → Nat) (a : Nat) (l : List Nat)
    (h : ∀ i, i < l.length → m (a + i) = l.getD i 0) : slice m a (a + l.length) = l := by
  apply List.ext_getElem
  · simp [slice]
  · intro i h1 h2
    have e := h i h2
    simp only [slice, List.getElem_map, List.getElem_range]
    rw [e, List.getD_eq_getElem _ _ h2]

theorem getD_ne_zero (l : List Nat) (hz : ∀ b ∈ l, b ≠ 0) (i : Nat) (hi : i < l.length) :
    l.getD i 0 ≠ 0 := by
  rw [List.getD_eq_getElem _ _ hi]
  exact hz _ (List.getElem_mem _)

theorem c_string_eq (m : Nat → Nat) (l : List Nat) (hz : ∀ b ∈ l, b ≠ 0)
    (h : ∀ i, i < l.length → m i = l.getD i 0) : c_string m l.length = l := by
  have hs : strlen_mem m l.length = l.length := by
    unfold strlen_mem
    rw [strlen_from_eq m l.length 0 (fun j _ h2 => by
      rw [h j (by omega)]
      exact getD_ne_zero l hz j (by omega))]
    omega
  unfold c_string
  rw [hs]
  have := slice_eq_of_getD m 0 l (fun i hi => by simpa using h i hi)
  simpa using this

theorem strlen_strcpy (m : Nat → Nat) (e : CStr) (hz : ∀ b ∈ e, b ≠ 0) :
    strlen_mem (strcpy m e) e.length = e.length := by
  unfold strlen_mem
  rw [strlen_from_eq (strcpy m e) e.length 0 (fun j _ h2 => by
    have hj : j < e.length := by omega
    simp only [strcpy, hj, if_true]
    exact getD_ne_zero e hz j hj)]
  omega

/-- State after a recall of the entry `e`: `strcpy(input, e); len = strlen(input);
cursor = len;` with the navigation index moved to `j`. -/
theorem recall_state (m : Nat → Nat) (e : CStr) (hz : ∀ b ∈ e, b ≠ 0) (j : Int) :
    ({ input := strcpy m e, cursor := (strlen_mem (strcpy m e) e.length : Int),
       len := (strlen_mem (strcpy m e) e.length : Int), temp_history_index := j } : Editor)
      = { input := strcpy m e, cursor := e.length, len := e.length,
          temp_history_index := j } := by
  rw [strlen_strcpy m e hz]

theorem finish_recalled (g : Globals) (m : Nat → Nat) (e : CStr) (hz : ∀ b ∈ e, b ≠ 0)
    (j : Int) (rest : List Nat) :
    finish g { input := strcpy m e, cursor := e.length, len := e.length,
               temp_history_index := j } rest
      = Outcome.returned e (if 0 < e.length then add_to_history g (some e) else g) rest := by
  have hc : c_string (poke (strcpy m e) e.length 0) e.length = e := by
    apply c_string_eq _ e hz
    intro i hi
    have h1 : i ≠ e.length := by omega
    simp [poke, strcpy, h1, hi]
  simp only [finish, Int.toNat_ofNat, hc]
  split <;> rfl

/-- C6. When ArrowUp (`up = true`) or ArrowDown (`up = false`) lands on a stored
entry, index `j` with `0 ≤ j < history_count`, holding the C string `e`, then
whatever the buffer held, after the recall `cursor = len = length of e`, the
navigation index is `j`, and an Enter directly after the recall makes
`read_input_with_completion` return exactly `e`. -/
theorem C6_recall_then_enter_returns_entry (gc : CStr → List CStr) (g : Globals)
    (s : Editor) (up : Bool) (rest : List Nat) (fuel : Nat) (hf : 2 ≤ fuel)
    (h0 : 0 ≤ (if up then s.temp_history_index - 1 else s.temp_history_index + 1))
    (h1 : (if up then s.temp_history_index - 1 else s.temp_history_index + 1)
            < g.history_count)
    (hz : ∀ b ∈ g.history
            (if up then s.temp_history_index - 1 else s.temp_history_index + 1).toNat,
          b ≠ 0) :
    (if up then arrow_up g s else arrow_down g s).cursor
      = (g.history (if up then s.temp_history_index - 1
                    else s.temp_history_index + 1).toNat).length ∧
    (if up then arrow_up g s else arrow_down g s).len
      = (g.history (if up then s.temp_history_index - 1
                    else s.temp_history_index + 1).toNat).length ∧
    (if up then arrow_up g s else arrow_down g s).temp_history_index
      = (if up then s.temp_history_index - 1 else s.temp_history_index + 1) ∧
    run gc g fuel s (27 :: 91 :: (if up then 65 else 66) :: 10 :: rest)
      = Outcome.returned
          (g.history (if up then s.temp_history_index - 1
                      else s.temp_history_index + 1).toNat)
          (if 0 < (g.history (if up then s.temp_history_index - 1
                              else s.temp_history_index + 1).toNat).length
           then add_to_history g (some (g.history
                  (if up then s.temp_history_index - 1
                   else s.temp_history_index + 1).toNat))
           else g)
          rest := by
  obtain ⟨f, rfl⟩ : ∃ f, fuel = f + 2 := ⟨fuel - 2, by omega⟩
  cases up with
  | true =>
    simp only [if_true] at h0 h1 hz ⊢
    have hg : 0 < s.temp_history_index := by omega
    have hs : arrow_up g s
        = { input := strcpy s.input (g.history (s.temp_history_index - 1).toNat),
            cursor := (g.history (s.temp_history_index - 1).toNat).length,
            len := (g.history (s.temp_history_index - 1).toNat).length,
            temp_history_index := s.temp_history_index - 1 } := by
      simp only [arrow_up, hg, if_true]
      exact recall_state _ _ hz _
    refine ⟨by rw [hs], by rw [hs], by rw [hs], ?_⟩
    have it1 : iteration gc g s (27 :: 91 :: 65 :: 10 :: rest)
        = Step.cont (arrow_up g s) (10 :: rest) := by
      simp [iteration, escape_sequence, extended_sequence]
    have it2 : iteration gc g (arrow_up g s) (10 :: rest) = Step.brk (arrow_up g s) rest := by
      simp [iteration, escape_sequence, extended_sequence]
    simp only [run, it1, it2]
    rw [hs]
    exact finish_recalled g _ _ hz _ rest
  | false =>
    simp only [Bool.false_eq_true, if_false] at h0 h1 hz ⊢
    have hg : s.temp_history_index < g.history_count - 1 := by omega
    have hs : arrow_down g s
        = { input := strcpy s.input (g.history (s.temp_history_index + 1).toNat),
            cursor := (g.history (s.temp_history_index + 1).toNat).length,
            len := (g.history (s.temp_history_index + 1).toNat).length,
            temp_history_index := s.temp_history_index + 1 } := by
      simp only [arrow_down, hg, if_true]
      exact recall_state _ _ hz _
    refine ⟨by rw [hs], by rw [hs], by rw [hs], ?_⟩
    have it1 : iteration gc g s (27 :: 91 :: 66 :: 10 :: rest)
        = Step.cont (arrow_down g s) (10 :: rest) := by
      simp [iteration, escape_sequence, extended_sequence]
    have it2 : iteration gc g (arrow_down g s) (10 :: rest)
        = Step.brk (arrow_down g s) rest := by
      simp [iteration, escape_sequence, extended_sequence]
    simp only [run, it1, it2]
    rw [hs]
    exact finish_recalled g _ _ hz _ rest

/-- Witness for C6: with the single entry `ls` stored and the navigation index
at the live slot, ArrowUp then Enter returns `ls`. -/
theorem C6_recall_then_enter_returns_entry_witness :
    run (fun _ => []) { history := fun _ => [108, 115], history_count := 1, history_index := 1 }
        2 { input := fun _ => 0, cursor := 0, len := 0, temp_history_index := 1 }
        [27, 91, 65, 10]
      = Outcome.returned [108, 115]
          { history := fun _ => [108, 115], history_count := 1, history_index := 1 } [] :=
  (C6_recall_then_enter_returns_entry (fun _ => [])
    { history := fun _ => [108, 115], history_count := 1, history_index := 1 }
    { input := fun _ => 0, cursor := 0, len := 0, temp_history_index := 1 }
    true [] 2 (le_refl 2) (by decide) (by decide) (by decide)).2.2.2

/-! ## Escape sequences -/

/-- C9 fails as stated: after ESC the bytes `a` and `b` are both dropped, so
`ESC a b Enter` returns the empty line, while `a b Enter` returns `ab`. -/
theorem C9_escape_drops_two_bytes_counterexample :
    (read_input_with_completion (fun _ => []) empty_history (fun _ => 0)
        [27, 97, 98, 10]).line = some [] ∧
    (read_input_with_completion (fun _ => []) empty_history (fun _ => 0)
        [97, 98, 10]).line = some [97, 98] := by
  constructor
  · simp [read_input_with_completion, run, iteration, escape_sequence, extended_sequence, finish, init_editor, Outcome.line,
      c_string, strlen_mem, strlen_from, slice, poke, memset0, MAX_INPUT]
  · simp [read_input_with_completion, run, iteration, escape_sequence, extended_sequence, finish, init_editor, Outcome.line,
      insert_char, c_string, strlen_mem, strlen_from, slice, poke, memset0, memmove,
      MAX_INPUT, List.range_succ, empty_history]

/-- C9, amended. For every byte `b` other than `[` that arrives directly after
ESC, the loop reads `b` and the byte `x` after it and drops both: the editor
state is unchanged, nothing is inserted, and decoding goes on with the byte after
`x`. When `b` is the last byte to arrive, the loop waits for one more byte. -/
theorem C9_escape_other_byte_discards_pair (gc : CStr → List CStr) (g : Globals)
    (s : Editor) (b x : Nat) (rest : List Nat) (fuel : Nat) (hb : b ≠ 91) :
    iteration gc g s (27 :: b :: x :: rest) = Step.cont s rest ∧
    run gc g (fuel + 1) s (27 :: b :: x :: rest) = run gc g fuel s rest ∧
    run gc g (fuel + 1) s [27, b] = Outcome.reading s := by
  have it : iteration gc g s (27 :: b :: x :: rest) = Step.cont s rest := by
    simp [iteration, escape_sequence, extended_sequence, hb]
  refine ⟨it, ?_, ?_⟩
  · simp only [run, it]
  · simp [run, iteration, escape_sequence, extended_sequence]

/-- Witness for C9, amended: the bytes `ESC a b`. -/
theorem C9_escape_other_byte_discards_pair_witness :
    iteration (fun _ => []) empty_history (init_editor empty_history (fun _ => 0))
        (27 :: 97 :: 98 :: [])
      = Step.cont (init_editor empty_history (fun _ => 0)) [] :=
  (C9_escape_other_byte_discards_pair (fun _ => []) empty_history
    (init_editor empty_history (fun _ => 0)) 97 98 [] 0 (by decide)).1

/-! ## Navigation index while typing -/

/-- C10 fails as stated: with entries `a`, `b`, after ArrowUp (showing `b`, index
1) typing `x` leaves the index at 1, not at `history_count = 2`, and the next
ArrowUp and Enter return `a`, not the most recent entry `b`. -/
theorem C10_typing_keeps_navigation_index_counterexample :
    history_a_b.history_count = 2 ∧
    (insert_char (arrow_up history_a_b (init_editor history_a_b (fun _ => 0))) 120
      ).temp_history_index = 1 ∧
    (read_input_with_completion (fun _ => []) history_a_b (fun _ => 0)
        [27, 91, 65, 120, 27, 91, 65, 10]).line = some [97] := by
  refine ⟨?_, ?_, ?_⟩
  · simp [history_a_b, empty_history, add_to_history, MAX_HISTORY, hist_set]
  · simp [history_a_b, empty_history, add_to_history, MAX_HISTORY, insert_char, arrow_up,
      init_editor, MAX_INPUT, hist_set, strlen_mem, strlen_from, strcpy]
  · simp [history_a_b, empty_history, add_to_history, MAX_HISTORY, insert_char, arrow_up,
      init_editor, MAX_INPUT, hist_set, strlen_mem, strlen_from, strcpy,
      read_input_with_completion, run, iteration, escape_sequence, extended_sequence, finish, Outcome.line,
      c_string, slice, poke, memset0, memmove, List.range_succ]

/-- C10, amended. Inserting a printable byte `c` leaves the navigation index
unchanged (it is not reset to `history_count`); so when the index `t` is above
0 and the entry at `t - 1` is the C string `e`, the next ArrowUp moves the index
to `t - 1` and replaces the buffer by `e` with `cursor = len = length of e`. -/
theorem C10_typing_keeps_navigation_index (gc : CStr → List CStr) (g : Globals)
    (s : Editor) (c : Nat) (rest : List Nat)
    (hc : 32 ≤ c ∧ c ≤ 126) (ht : 0 < s.temp_history_index)
    (hz : ∀ b ∈ g.history (s.temp_history_index - 1).toNat, b ≠ 0) :
    iteration gc g s (c :: rest) = Step.cont (insert_char s c) rest ∧
    (insert_char s c).temp_history_index = s.temp_history_index ∧
    arrow_up g (insert_char s c)
      = { input := strcpy (insert_char s c).input (g.history (s.temp_history_index - 1).toNat),
          cursor := (g.history (s.temp_history_index - 1).toNat).length,
          len := (g.history (s.temp_history_index - 1).toNat).length,
          temp_history_index := s.temp_history_index - 1 } := by
  have hi : (insert_char s c).temp_history_index = s.temp_history_index := by
    unfold insert_char
    split <;> rfl
  refine ⟨iteration_key gc g s (Key.char c) hc rest, hi, ?_⟩
  simp only [arrow_up, hi, ht, if_true]
  exact recall_state _ _ hz _

/-- Witness for C10, amended: the entries `a`, `b`, the index at 1, typing `x`. -/
theorem C10_typing_keeps_navigation_index_witness :
    (insert_char { input := fun _ => 0, cursor := 0, len := 0, temp_history_index := 1 }
        120).temp_history_index = 1 :=
  (C10_typing_keeps_navigation_index (fun _ => []) history_a_b
    { input := fun _ => 0, cursor := 0, len := 0, temp_history_index := 1 } 120 []
    (by decide) (by decide)
    (by simp [history_a_b, empty_history, add_to_history, MAX_HISTORY, hist_set])).2.1

/-! ## Tab completion with a single candidate -/

theorem find_word_start_spec (m : Nat → Nat) (fuel : Nat) (w : Int) (hw : -1 ≤ w)
    (hf : w + 1 ≤ fuel) :
    -1 ≤ find_word_start m fuel w ∧ find_word_start m fuel w ≤ w ∧
    (∀ i : Int, find_word_start m fuel w < i → i ≤ w → isspace (m i.toNat) = false) ∧
    (find_word_start m fuel w = -1 ∨
      isspace (m (find_word_start m fuel w).toNat) = true) := by
  induction fuel generalizing w with
  | zero =>
    have hw1 : w = -1 := by
      simp only [Nat.cast_zero] at hf
      omega
    subst hw1
    refine ⟨le_refl _, le_refl _, ?_, Or.inl rfl⟩
    intro i h1 h2
    simp only [find_word_start] at h1
    omega
  | succ n ih =>
    unfold find_word_start
    split
    · rename_i hc
      obtain ⟨a, b, c, d⟩ := ih (w - 1) (by omega) (by push_cast at hf; omega)
      refine ⟨a, by omega, ?_, d⟩
      intro i h1 h2
      by_cases hi : i = w
      · subst hi
        exact hc.2
      · exact c i h1 (by omega)
    · rename_i hc
      refine ⟨hw, le_refl _, fun i h1 h2 => by omega, ?_⟩
      by_cases h : w ≥ 0
      · right
        have h3 : ¬ isspace (m w.toNat) = false := fun h3 => hc ⟨h, h3⟩
        simpa using h3
      · left
        omega

theorem getD_append3 (A B C : List Nat) (i : Nat) :
    (A ++ B ++ C).getD i 0 =
      if i < A.length then A.getD i 0
      else if i < A.length + B.length then B.getD (i - A.length) 0
      else C.getD (i - A.length - B.length) 0 := by
  simp only [List.getD_eq_getElem?_getD]
  split
  · rename_i h
    rw [List.append_assoc, List.getElem?_append_left h]
  · rename_i h
    split
    · rename_i h2
      rw [List.append_assoc, List.getElem?_append_right (by omega),
        List.getElem?_append_left (by omega)]
    · rename_i h2
      rw [List.append_assoc, List.getElem?_append_right (by omega),
        List.getElem?_append_right (by omega)]

theorem slice_getD (m : Nat → Nat) (a b i : Nat) (h : i < b - a) :
    (slice m a b).getD i 0 = m (a + i) := by
  rw [List.getD_eq_getElem _ _ (by simpa [slice] using h)]
  simp [slice]

theorem slice_eq (m : Nat → Nat) (l : List Nat) (n : Nat) (hn : n = l.length)
    (h : ∀ i, i < l.length → m i = l.getD i 0) : slice m 0 n = l := by
  subst hn
  have := slice_eq_of_getD m 0 l (fun i hi => by simpa using h i hi)
  simpa using this

theorem tab_content_mid (m : Nat → Nat) (w k n : Nat) (c : CStr) (hwk : w ≤ k)
    (hkn : k < n) :
    slice (poke (memcpy (memmove (poke m n 0) (w + c.length) k (n - k)) w c c.length)
        (w + c.length + (n - k)) 0) 0 (w + c.length + (n - k))
      = slice m 0 w ++ c ++ slice m k n := by
  apply slice_eq
  · simp only [List.length_append, slice_length, List.length_singleton]
    omega
  · intro i hi
    simp only [List.length_append, slice_length, Nat.sub_zero] at hi
    rw [getD_append3]
    simp only [slice_length, Nat.sub_zero, poke, memcpy, memmove]
    by_cases h1 : i < w
    · have e1 : i ≠ w + c.length + (n - k) := by omega
      have e2 : ¬ (w ≤ i ∧ i < w + c.length) := by omega
      have e3 : ¬ (w + c.length ≤ i ∧ i < w + c.length + (n - k)) := by omega
      have e4 : i ≠ n := by omega
      rw [if_neg e1, if_neg e2, if_neg e3, if_neg e4, if_pos h1, slice_getD m 0 w i (by omega)]
      simp
    · by_cases h2 : i < w + c.length
      · have e1 : i ≠ w + c.length + (n - k) := by omega
        have e2 : w ≤ i ∧ i < w + c.length := by omega
        rw [if_neg e1, if_pos e2, if_neg h1, if_pos h2]
      · have e1 : i ≠ w + c.length + (n - k) := by omega
        have e2 : ¬ (w ≤ i ∧ i < w + c.length) := by omega
        have e3 : w + c.length ≤ i ∧ i < w + c.length + (n - k) := by omega
        have e4 : k + (i - (w + c.length)) ≠ n := by omega
        rw [if_neg e1, if_neg e2, if_pos e3, if_neg e4, if_neg h1, if_neg h2,
          slice_getD m k n _ (by omega)]
        congr 1
        omega

theorem tab_content_end (m : Nat → Nat) (w n : Nat) (c : CStr) (hwn : w ≤ n) :
    slice (poke (memcpy (poke m n 0) w c c.length) (w + c.length) 0) 0 (w + c.length)
      = slice m 0 w ++ c := by
  apply slice_eq
  · simp only [List.length_append, slice_length, List.length_singleton]
    omega
  · intro i hi
    simp only [List.length_append, slice_length, Nat.sub_zero] at hi
    have h3 := getD_append3 (slice m 0 w) c [] i
    rw [List.append_nil] at h3
    rw [h3]
    simp only [slice_length, Nat.sub_zero, poke, memcpy]
    by_cases h1 : i < w
    · have e1 : i ≠ w + c.length := by omega
      have e2 : ¬ (w ≤ i ∧ i < w + c.length) := by omega
      have e4 : i ≠ n := by omega
      rw [if_neg e1, if_neg e2, if_neg e4, if_pos h1, slice_getD m 0 w i (by omega)]
      simp
    · have e1 : i ≠ w + c.length := by omega
      have e2 : w ≤ i ∧ i < w + c.length := by omega
      rw [if_neg e1, if_pos e2, if_neg h1, if_pos hi]

theorem tab_content_end_space (m : Nat → Nat) (w n : Nat) (c : CStr) (hwn : w ≤ n) :
    slice (poke (poke (memcpy (poke m n 0) w c c.length) (w + c.length) 32)
        (w + c.length + 1) 0) 0 (w + c.length + 1)
      = slice m 0 w ++ c ++ [32] := by
  apply slice_eq
  · simp only [List.length_append, slice_length, List.length_singleton]
    omega
  · intro i hi
    simp only [List.length_append, slice_length, Nat.sub_zero, List.length_singleton] at hi
    rw [getD_append3]
    simp only [slice_length, Nat.sub_zero, poke, memcpy]
    by_cases h1 : i < w
    · have e0 : i ≠ w + c.length + 1 := by omega
      have e1 : i ≠ w + c.length := by omega
      have e2 : ¬ (w ≤ i ∧ i < w + c.length) := by omega
      have e4 : i ≠ n := by omega
      rw [if_neg e0, if_neg e1, if_neg e2, if_neg e4, if_pos h1,
        slice_getD m 0 w i (by omega)]
      simp
    · by_cases h2 : i < w + c.length
      · have e0 : i ≠ w + c.length + 1 := by omega
        have e1 : i ≠ w + c.length := by omega
        have e2 : w ≤ i ∧ i < w + c.length := by omega
        rw [if_neg e0, if_neg e1, if_pos e2, if_neg h1, if_pos h2]
      · have e0 : i ≠ w + c.length + 1 := by omega
        have e1 : i = w + c.length := by omega
        rw [if_neg e0, if_pos e1, if_neg h1, if_neg h2]
        subst e1
        simp

theorem tab_word_eq (m : Nat → Nat) (w k n : Nat) (hkn : k ≤ n)
    (hz : ∀ i : Nat, i < n → m i ≠ 0) :
    tab_word (poke m n 0) (w : Int) (k : Int) = slice m w k := by
  have e : slice (poke m n 0) w k = slice m w k := by
    unfold slice
    apply List.map_congr_left
    intro i hi
    have hi1 : i < k - w := List.mem_range.mp hi
    have hi2 : w + i ≠ n := by omega
    simp [poke, hi2]
  simp only [tab_word, Int.toNat_ofNat, e]
  rw [List.takeWhile_eq_self_iff]
  intro b hb
  simp only [slice, List.mem_map, List.mem_range] at hb
  obtain ⟨i, hi, rfl⟩ := hb
  have := hz (w + i) (by omega)
  simpa using this

theorem word_start_spec (m : Nat → Nat) (k n : Nat) (t : Int) (hkn : k ≤ n) :
    ∃ w : Nat,
      word_start { input := m, cursor := k, len := n, temp_history_index := t } = (w : Int) ∧
      w ≤ k ∧ (∀ i, w ≤ i → i < k → isspace (m i) = false) ∧
      (w = 0 ∨ isspace (m (w - 1)) = true) := by
  obtain ⟨a, b, c, d⟩ :=
    find_word_start_spec (poke m n 0) k ((k : Int) - 1) (by omega) (by omega)
  have hp : ∀ i : Nat, i < k → poke m n 0 i = m i := by
    intro i hi
    have : i ≠ n := by omega
    simp [poke, this]
  generalize hr : find_word_start (poke m n 0) k ((k : Int) - 1) = r at a b c d
  refine ⟨(r + 1).toNat, ?_, ?_, ?_, ?_⟩
  · simp only [word_start, Int.toNat_ofNat, hr]
    omega
  · omega
  · intro i h1 h2
    have := c (i : Int) (by omega) (by omega)
    rw [Int.toNat_ofNat, hp i h2] at this
    exact this
  · rcases d with d | d
    · left
      omega
    · by_cases hr0 : r = -1
      · left
        omega
      · right
        have e : (r + 1).toNat - 1 = r.toNat := by omega
        rw [e, ← hp r.toNat (by omega)]
        exact d

theorem tab_eval_mid (gc : CStr → List CStr) (m : Nat → Nat) (w k n : Nat) (t : Int)
    (c : CStr) (hkn : k < n) (hwk : w ≤ k) (hz : ∀ i : Nat, i < n → m i ≠ 0)
    (hw : word_start { input := m, cursor := k, len := n, temp_history_index := t } = (w : Int))
    (hgc : gc (slice m w k) = [c]) :
    tab gc { input := m, cursor := k, len := n, temp_history_index := t }
      = { input := poke (memcpy (memmove (poke m n 0) (w + c.length) k (n - k)) w c c.length)
            (w + c.length + (n - k)) 0,
          cursor := ((w + c.length : Nat) : Int),
          len := ((w + c.length + (n - k) : Nat) : Int),
          temp_history_index := t } := by
  have hlt : (k : Int) < (n : Int) := by omega
  have e1 : ((w : Int) + (c.length : Int)).toNat = w + c.length := by omega
  have e2 : ((n : Int) - (k : Int)).toNat = n - k := by omega
  have e3 : (n : Int) - ((slice m w k).length : Int) + (c.length : Int)
      = ((w + c.length + (n - k) : Nat) : Int) := by
    rw [slice_length]
    omega
  have e4 : (w : Int) + (c.length : Int) = ((w + c.length : Nat) : Int) := by omega
  have hne : ¬ (((w + c.length : Nat) : Int) = ((w + c.length + (n - k) : Nat) : Int) ∧
      ((w + c.length + (n - k) : Nat) : Int) < (MAX_INPUT : Int) - 1) := by omega
  simp only [tab, hw, tab_word_eq m w k n (le_of_lt hkn) hz, hgc, Int.toNat_ofNat, hlt,
    if_true, e2, e3, e4, hne, if_false]

theorem tab_eval_end (gc : CStr → List CStr) (m : Nat → Nat) (w n : Nat) (t : Int)
    (c : CStr) (hwk : w ≤ n) (hz : ∀ i : Nat, i < n → m i ≠ 0)
    (hw : word_start { input := m, cursor := n, len := n, temp_history_index := t } = (w : Int))
    (hgc : gc (slice m w n) = [c]) (hfull : ¬ w + c.length < MAX_INPUT - 1) :
    tab gc { input := m, cursor := n, len := n, temp_history_index := t }
      = { input := poke (memcpy (poke m n 0) w c c.length) (w + c.length) 0,
          cursor := ((w + c.length : Nat) : Int),
          len := ((w + c.length : Nat) : Int),
          temp_history_index := t } := by
  have hlt : ¬ (n : Int) < (n : Int) := lt_irrefl _
  have e3 : (n : Int) - ((slice m w n).length : Int) + (c.length : Int)
      = ((w + c.length : Nat) : Int) := by
    rw [slice_length]
    omega
  have e4 : (w : Int) + (c.length : Int) = ((w + c.length : Nat) : Int) := by omega
  have hne : ¬ (((w + c.length : Nat) : Int) < (MAX_INPUT : Int) - 1) := by
    simp only [MAX_INPUT] at hfull ⊢
    omega
  simp only [tab, hw, tab_word_eq m w n n (le_refl _) hz, hgc, Int.toNat_ofNat, hlt,
    if_false, e3, e4, hne, and_false]

theorem tab_eval_end_space (gc : CStr → List CStr) (m : Nat → Nat) (w n : Nat) (t : Int)
    (c : CStr) (hwk : w ≤ n) (hz : ∀ i : Nat, i < n → m i ≠ 0)
    (hw : word_start { input := m, cursor := n, len := n, temp_history_index := t } = (w : Int))
    (hgc : gc (slice m w n) = [c]) (hroom : w + c.length < MAX_INPUT - 1) :
    tab gc { input := m, cursor := n, len := n, temp_history_index := t }
      = { input := poke (poke (memcpy (poke m n 0) w c c.length) (w + c.length) 32)
            (w + c.length + 1) 0,
          cursor := ((w + c.length + 1 : Nat) : Int),
          len := ((w + c.length + 1 : Nat) : Int),
          temp_history_index := t } := by
  have hlt : ¬ (n : Int) < (n : Int) := lt_irrefl _
  have e3 : (n : Int) - ((slice m w n).length : Int) + (c.length : Int)
      = ((w + c.length : Nat) : Int) := by
    rw [slice_length]
    omega
  have e4 : (w : Int) + (c.length : Int) = ((w + c.length : Nat) : Int) := by omega
  have hne : ((w + c.length : Nat) : Int) < (MAX_INPUT : Int) - 1 := by
    simp only [MAX_INPUT] at hroom ⊢
    omega
  have e5 : (((w + c.length : Nat) : Int) + 1).toNat = w + c.length + 1 := by omega
  have e6 : ((w + c.length : Nat) : Int) + 1 = ((w + c.length + 1 : Nat) : Int) := by omega
  simp only [tab, hw, tab_word_eq m w n n (le_refl _) hz, hgc, Int.toNat_ofNat, hlt,
    if_false, e3, e4, hne, and_self, if_true, e5, e6]

/-- C7 fails as stated: with `sr` typed and the single candidate `src/`, Tab
leaves `src/ ` (5 bytes, with a trailing space) although the candidate ends in
`/`; and with the cursor after `ech` in `ech foo` and the single candidate `echo`,
Tab leaves `echo foo`, with no space inserted after the candidate. -/
theorem C7_space_rule_counterexample :
    (read_input_with_completion (fun _ => [[115, 114, 99, 47]]) empty_history (fun _ => 0)
        [115, 114, 9, 10]).line = some [115, 114, 99, 47, 32] ∧
    (read_input_with_completion (fun _ => [[101, 99, 104, 111]]) empty_history (fun _ => 0)
        [101, 99, 104, 32, 102, 111, 111, 27, 91, 68, 27, 91, 68, 27, 91, 68, 27, 91, 68,
          9, 10]).line = some [101, 99, 104, 111, 32, 102, 111, 111] := by
  constructor
  · simp [read_input_with_completion, run, iteration, escape_sequence, extended_sequence, finish, init_editor, Outcome.line,
      insert_char, tab, word_start, find_word_start, tab_word, isspace, c_string,
      strlen_mem, strlen_from, slice, poke, memset0, memmove, memcpy, MAX_INPUT,
      List.range_succ, empty_history]
  · simp [read_input_with_completion, run, iteration, escape_sequence, extended_sequence, finish, init_editor, Outcome.line,
      insert_char, arrow_left, tab, word_start, find_word_start, tab_word, isspace, c_string,
      strlen_mem, strlen_from, slice, poke, memset0, memmove, memcpy, MAX_INPUT,
      List.range_succ, empty_history]

/-- C7, amended. Let the buffer hold a C string of `len` bytes with
`0 ≤ cursor ≤ len`, and let `get_completions` return the single candidate `c`
for the word left of the cursor, which starts at `word_start` (no whitespace
from there to the cursor, and `word_start` is 0 or follows a whitespace byte).
After Tab the buffer is: the text before the word, then `c`, then a single
space exactly when the cursor was at the end of the line and
`word_start + length c < MAX_INPUT - 1` (whether or not `c` ends in `/`), then
the text that was right of the cursor; the cursor sits just after `c` and that
space, and the buffer is terminated at the new `len`. This is for a line that
fits the buffer before and after the splice: `len ≤ MAX_INPUT - 1` and
`word_start + length c + (len - cursor) ≤ MAX_INPUT - 1`; then every store of the
handler is inside the `MAX_INPUT` bytes of the buffer (no byte at an index
`≥ MAX_INPUT` changes) and the new `len` is at most `MAX_INPUT - 1`. -/
theorem C7_single_candidate_splice (gc : CStr → List CStr) (s : Editor) (c : CStr)
    (h0 : 0 ≤ s.cursor) (h1 : s.cursor ≤ s.len)
    (hlen : s.len ≤ (MAX_INPUT : Int) - 1)
    (hz : ∀ i : Nat, (i : Int) < s.len → s.input i ≠ 0)
    (hgc : gc (slice s.input (word_start s).toNat s.cursor.toNat) = [c])
    (hfit : word_start s + c.length + (s.len - s.cursor) ≤ (MAX_INPUT : Int) - 1) :
    (0 ≤ word_start s ∧ word_start s ≤ s.cursor) ∧
    (∀ i : Nat, word_start s ≤ (i : Int) → (i : Int) < s.cursor →
      isspace (s.input i) = false) ∧
    (word_start s = 0 ∨ isspace (s.input ((word_start s).toNat - 1)) = true) ∧
    slice (tab gc s).input 0 (tab gc s).len.toNat
      = slice s.input 0 (word_start s).toNat ++ c
          ++ (if s.cursor = s.len ∧ word_start s + c.length < (MAX_INPUT : Int) - 1
              then [32] else [])
          ++ slice s.input s.cursor.toNat s.len.toNat ∧
    (tab gc s).cursor
      = word_start s + c.length
          + (if s.cursor = s.len ∧ word_start s + c.length < (MAX_INPUT : Int) - 1
             then 1 else 0) ∧
    (tab gc s).len = (tab gc s).cursor + (s.len - s.cursor) ∧
    (tab gc s).input (tab gc s).len.toNat = 0 ∧
    (tab gc s).len ≤ (MAX_INPUT : Int) - 1 ∧
    (∀ i : Nat, MAX_INPUT ≤ i → (tab gc s).input i = s.input i) := by
  rcases s with ⟨m, cur, len, t⟩
  simp only at h0 h1 hlen hz hgc hfit ⊢
  obtain ⟨k, rfl⟩ := Int.eq_ofNat_of_zero_le h0
  obtain ⟨n, rfl⟩ := Int.eq_ofNat_of_zero_le (le_trans h0 h1)
  have hkn : k ≤ n := by omega
  have hz1 : ∀ i : Nat, i < n → m i ≠ 0 := fun i hi => hz i (by omega)
  obtain ⟨w, hw, hwk, hns, hsp⟩ := word_start_spec m k n t hkn
  simp only [hw, Int.toNat_ofNat] at hgc hfit ⊢
  have hM : MAX_INPUT = 1024 := rfl
  rw [hM] at hlen hfit
  refine ⟨⟨by omega, by omega⟩, fun i a b => hns i (by omega) (by omega), ?_, ?_⟩
  · rcases hsp with hsp | hsp
    · left
      omega
    · right
      exact hsp
  · by_cases hlt : k < n
    · have hc : ¬ ((k : Int) = (n : Int) ∧
          (w : Int) + (c.length : Int) < (MAX_INPUT : Int) - 1) := by omega
      rw [tab_eval_mid gc m w k n t c hlt hwk hz1 hw hgc]
      simp only [hc, if_false, Int.toNat_ofNat, List.append_nil]
      refine ⟨tab_content_mid m w k n c hwk hlt, by omega, by omega, ?_, ?_, ?_⟩
      · simp [poke]
      · rw [hM]
        omega
      · intro i hi
        rw [hM] at hi
        simp only [poke, memcpy, memmove]
        split_ifs <;> first | rfl | omega
    · have hkn1 : k = n := by omega
      subst hkn1
      by_cases hroom : w + c.length < MAX_INPUT - 1
      · have hc : (w : Int) + (c.length : Int) < (MAX_INPUT : Int) - 1 := by
          have hM : MAX_INPUT = 1024 := rfl
          rw [hM] at hroom ⊢
          omega
        rw [tab_eval_end_space gc m w k t c hwk hz1 hw hgc hroom]
        simp only [hc, and_self, if_true, Int.toNat_ofNat]
        have hs : slice m k k = [] := by simp [slice]
        rw [hs, List.append_nil]
        refine ⟨tab_content_end_space m w k c hwk, by omega, by omega, ?_, ?_, ?_⟩
        · simp [poke]
        · rw [hM] at hroom ⊢
          omega
        · intro i hi
          rw [hM] at hi hroom
          simp only [poke, memcpy]
          split_ifs <;> first | rfl | omega
      · have hc : ¬ ((w : Int) + (c.length : Int) < (MAX_INPUT : Int) - 1) := by
          have hM : MAX_INPUT = 1024 := rfl
          rw [hM] at hroom ⊢
          omega
        rw [tab_eval_end gc m w k t c hwk hz1 hw hgc hroom]
        simp only [hc, and_false, if_false, Int.toNat_ofNat]
        have hs : slice m k k = [] := by simp [slice]
        rw [hs, List.append_nil, List.append_nil]
        refine ⟨tab_content_end m w k c hwk, by omega, by omega, ?_, ?_, ?_⟩
        · simp [poke]
        · rw [hM]
          omega
        · intro i hi
          rw [hM] at hi
          simp only [poke, memcpy]
          split_ifs <;> first | rfl | omega

/-- Witness for C7, amended: the buffer `ech` with the cursor at its end and the
single candidate `echo`. -/
theorem C7_single_candidate_splice_witness :
    slice (tab (fun _ => [[101, 99, 104, 111]])
        { input := strcpy (fun _ => 0) [101, 99, 104], cursor := 3, len := 3,
          temp_history_index := 0 }).input 0
      (tab (fun _ => [[101, 99, 104, 111]])
        { input := strcpy (fun _ => 0) [101, 99, 104], cursor := 3, len := 3,
          temp_history_index := 0 }).len.toNat
      = slice (strcpy (fun _ => 0) [101, 99, 104]) 0
          (word_start { input := strcpy (fun _ => 0) [101, 99, 104], cursor := 3, len := 3,
                        temp_history_index := 0 }).toNat
        ++ [101, 99, 104, 111]
        ++ (if (3 : Int) = 3 ∧
              word_start { input := strcpy (fun _ => 0) [101, 99, 104], cursor := 3,
                           len := 3, temp_history_index := 0 }
                + ([101, 99, 104, 111] : CStr).length < (MAX_INPUT : Int) - 1
            then [32] else [])
        ++ slice (strcpy (fun _ => 0) [101, 99, 104]) (3 : Int).toNat (3 : Int).toNat :=
  (C7_single_candidate_splice (fun _ => [[101, 99, 104, 111]])
    { input := strcpy (fun _ => 0) [101, 99, 104], cursor := 3, len := 3,
      temp_history_index := 0 }
    [101, 99, 104, 111] (by decide) (by decide) (by decide)
    (by
      intro i hi
      have h3 : i < 3 := by
        simp only at hi
        omega
      interval_cases i <;> simp [strcpy])
    rfl (by decide)).2.2.2.1

/-! ## Tokenizer -/

theorem dropWhile_head_false (p : Nat → Bool) (l : List Nat) (x : Nat) (xs : List Nat)
    (h : l.dropWhile p = x :: xs) : p x = false := by
  induction l with
  | nil => simp at h
  | cons a l ih =>
    simp only [List.dropWhile_cons] at h
    split at h
    · exact ih h
    · rename_i hp
      injection h with h1 h2
      subst h1
      simpa using hp

theorem maximalRuns_cons_delim (x : Nat) (s : CStr) (ts : List CStr)
    (hx : is_delim x = true) (h : MaximalRuns s ts) : MaximalRuns (x :: s) ts := by
  cases h with
  | done d hd =>
    exact MaximalRuns.done (x :: s) (fun b hb => by
      rcases List.mem_cons.mp hb with rfl | hb
      · exact hx
      · exact hd b hb)
  | tok d t rest ts1 hd ht htn hrest h1 =>
    have := MaximalRuns.tok (x :: d) t rest ts1 (fun b hb => by
      rcases List.mem_cons.mp hb with rfl | hb
      · exact hx
      · exact hd b hb) ht htn hrest h1
    simpa using this

theorem maximalRuns_drop_one (r : CStr) (ts : List CStr)
    (hr : r = [] ∨ ∃ x xs, r = x :: xs ∧ is_delim x = true)
    (h : MaximalRuns (r.drop 1) ts) : MaximalRuns r ts := by
  rcases hr with rfl | ⟨x, xs, rfl, hx⟩
  · simpa using h
  · exact maximalRuns_cons_delim x xs ts hx (by simpa using h)

theorem strtok_none (s : CStr) (h : strtok s = none) : ∀ b ∈ s, is_delim b = true := by
  unfold strtok at h
  split at h
  · rename_i hd
    exact List.dropWhile_eq_nil_iff.mp hd
  · simp at h

/-- What a successful `strtok` call returns: the string is delimiters, then the
token, then the rest `r`; the saved pointer is one past the start of `r`. -/
theorem strtok_some (s tok rest : CStr) (h : strtok s = some (tok, rest)) :
    ∃ d r : CStr, s = d ++ tok ++ r ∧ rest = r.drop 1 ∧
      (∀ b ∈ d, is_delim b = true) ∧ tok ≠ [] ∧ (∀ b ∈ tok, is_delim b = false) ∧
      (r = [] ∨ ∃ x xs, r = x :: xs ∧ is_delim x = true) := by
  unfold strtok at h
  split at h
  · simp at h
  · rename_i b bs hd
    simp only [Option.some.injEq, Prod.mk.injEq] at h
    obtain ⟨h1, h2⟩ := h
    have hb : is_delim b = false := dropWhile_head_false is_delim s b bs hd
    refine ⟨s.takeWhile is_delim, (b :: bs).dropWhile (fun x => !is_delim x), ?_, h2.symm,
      ?_, ?_, ?_, ?_⟩
    · rw [← h1, List.append_assoc, List.takeWhile_append_dropWhile, ← hd,
        List.takeWhile_append_dropWhile]
    · intro x hx
      exact List.mem_takeWhile_imp hx
    · rw [← h1]
      simp [List.takeWhile_cons, hb]
    · intro x hx
      rw [← h1] at hx
      have := List.mem_takeWhile_imp hx
      simpa using this
    · cases hr : (b :: bs).dropWhile (fun x => !is_delim x) with
      | nil => exact Or.inl rfl
      | cons x xs =>
        right
        have := dropWhile_head_false (fun x => !is_delim x) (b :: bs) x xs hr
        exact ⟨x, xs, rfl, by simpa using this⟩

theorem parse_loop_spec (fuel : Nat) (s : CStr) (toks : List CStr)
    (hf : s.length < fuel) :
    ∃ ts, parse_loop fuel s toks = some (toks ++ ts) ∧ MaximalRuns s ts := by
  induction fuel generalizing s toks with
  | zero => omega
  | succ n ih =>
    unfold parse_loop
    cases hs : strtok s with
    | none =>
      exact ⟨[], by simp, MaximalRuns.done s (strtok_none s hs)⟩
    | some pr =>
      obtain ⟨tok, rest⟩ := pr
      obtain ⟨d, r, e, hrest, hd, ht, htn, hr⟩ := strtok_some s tok rest hs
      have hlen : rest.length < n := by
        have h1 : 0 < tok.length := List.length_pos.mpr ht
        have h2 : s.length = d.length + tok.length + r.length := by
          rw [e]
          simp only [List.length_append]
        have h3 : rest.length ≤ r.length := by
          rw [hrest]
          simp
        omega
      obtain ⟨ts, h1, h2⟩ := ih rest (toks ++ [tok]) hlen
      refine ⟨tok :: ts, by simpa using h1, ?_⟩
      rw [e]
      exact MaximalRuns.tok d tok r ts hd ht htn hr
        (maximalRuns_drop_one r ts hr (hrest ▸ h2))

theorem maximalRuns_props (s : CStr) (ts : List CStr) (h : MaximalRuns s ts) :
    (∀ t ∈ ts, t ≠ [] ∧ ∀ b ∈ t, is_delim b = false) ∧
    ts.flatten = s.filter (fun b => !is_delim b) ∧
    ((∀ b ∈ s, is_delim b = true) → ts = []) := by
  induction h with
  | done d hd =>
    refine ⟨by simp, ?_, fun _ => rfl⟩
    symm
    rw [List.flatten_nil, List.filter_eq_nil_iff]
    intro b hb
    simp [hd b hb]
  | tok d t rest ts1 hd ht htn hrest h1 ih =>
    obtain ⟨a, b, _⟩ := ih
    refine ⟨?_, ?_, ?_⟩
    · intro x hx
      rcases List.mem_cons.mp hx with rfl | hx
      · exact ⟨ht, htn⟩
      · exact a x hx
    · have e1 : d.filter (fun b => !is_delim b) = [] := by
        rw [List.filter_eq_nil_iff]
        intro x hx
        simp [hd x hx]
      have e2 : t.filter (fun b => !is_delim b) = t := by
        rw [List.filter_eq_self]
        intro x hx
        simp [htn x hx]
      simp only [List.flatten_cons, List.filter_append, e1, e2, b, List.nil_append]
    · intro hall
      exfalso
      obtain ⟨x, hx⟩ := List.exists_mem_of_ne_nil t ht
      have h2 := hall x (by simp [hx])
      rw [htn x hx] at h2
      exact Bool.false_ne_true h2

theorem span_append (p : Nat → Bool) (d xs : List Nat) (hd : ∀ b ∈ d, p b = true)
    (hx : xs = [] ∨ ∃ x r, xs = x :: r ∧ p x = false) :
    (d ++ xs).takeWhile p = d ∧ (d ++ xs).dropWhile p = xs := by
  induction d with
  | nil =>
    rcases hx with rfl | ⟨x, r, rfl, hpx⟩
    · simp
    · simp [List.takeWhile_cons, List.dropWhile_cons, hpx]
  | cons a d ih =>
    have ha : p a = true := hd a (List.mem_cons_self _ _)
    have ih1 := ih (fun b hb => hd b (List.mem_cons_of_mem _ hb))
    simp [List.takeWhile_cons, List.dropWhile_cons, ha, ih1.1, ih1.2]

/-- A decomposition `d ++ t ++ rest` into delimiters, a token and a rest that is
empty or starts with a delimiter is determined by the string. -/
theorem runs_decomposition_unique (d t rest d1 t1 rest1 : CStr)
    (hd : ∀ b ∈ d, is_delim b = true) (ht : t ≠ []) (htn : ∀ b ∈ t, is_delim b = false)
    (hrest : rest = [] ∨ ∃ x xs, rest = x :: xs ∧ is_delim x = true)
    (hd1 : ∀ b ∈ d1, is_delim b = true) (ht1 : t1 ≠ [])
    (htn1 : ∀ b ∈ t1, is_delim b = false)
    (hrest1 : rest1 = [] ∨ ∃ x xs, rest1 = x :: xs ∧ is_delim x = true)
    (e : d ++ t ++ rest = d1 ++ t1 ++ rest1) : t = t1 ∧ rest = rest1 := by
  have head_of : ∀ (u r : CStr), u ≠ [] → (∀ b ∈ u, is_delim b = false) →
      (u ++ r = [] ∨ ∃ x xs, u ++ r = x :: xs ∧ is_delim x = false) := by
    intro u r hu hun
    cases u with
    | nil => exact absurd rfl hu
    | cons a u1 => exact Or.inr ⟨a, u1 ++ r, rfl, hun a (List.mem_cons_self _ _)⟩
  have a1 := (span_append is_delim d (t ++ rest) hd (head_of t rest ht htn)).2
  have a2 := (span_append is_delim d1 (t1 ++ rest1) hd1 (head_of t1 rest1 ht1 htn1)).2
  rw [List.append_assoc] at e
  rw [List.append_assoc] at e
  rw [e, a2] at a1
  have flip : ∀ r : CStr, (r = [] ∨ ∃ x xs, r = x :: xs ∧ is_delim x = true) →
      (r = [] ∨ ∃ x xs, r = x :: xs ∧ (fun b => !is_delim b) x = false) := by
    intro r hr
    rcases hr with h | ⟨x, xs, h, hx⟩
    · exact Or.inl h
    · exact Or.inr ⟨x, xs, h, by simp [hx]⟩
  have b1 := span_append (fun b => !is_delim b) t rest (fun b hb => by simp [htn b hb])
    (flip rest hrest)
  have b2 := span_append (fun b => !is_delim b) t1 rest1 (fun b hb => by simp [htn1 b hb])
    (flip rest1 hrest1)
  rw [← a1] at b1
  exact ⟨b1.1.symm.trans b2.1, b1.2.symm.trans b2.2⟩

/-- A string is cut along its maximal runs in one way only. -/
theorem maximalRuns_unique (s : CStr) (ts ts1 : List CStr) (h : MaximalRuns s ts)
    (h1 : MaximalRuns s ts1) : ts = ts1 := by
  induction h generalizing ts1 with
  | done d hd =>
    have := (maximalRuns_props d ts1 h1).2.2 hd
    exact this.symm
  | tok d t rest ts2 hd ht htn hrest h2 ih =>
    generalize hs : d ++ t ++ rest = s1 at h1
    cases h1 with
    | done d1 hd1 =>
      exfalso
      obtain ⟨x, hx⟩ := List.exists_mem_of_ne_nil t ht
      have hmem : x ∈ s1 := by
        rw [← hs]
        simp [hx]
      have h3 := hd1 x hmem
      rw [htn x hx] at h3
      exact Bool.false_ne_true h3
    | tok d1 t1 rest1 ts3 hd1 ht1 htn1 hrest1 h3 =>
      obtain ⟨e1, e2⟩ :=
        runs_decomposition_unique d t rest d1 t1 rest1 hd ht htn hrest hd1 ht1 htn1 hrest1 hs
      subst e1 e2
      rw [ih ts3 h3]

/-- C8. For every input line, `parse_input` returns a token list, and that list
is the one way to cut the line along its maximal runs of bytes other than space,
tab, CR and LF, in order: every token is non-empty and holds no such byte, the
tokens joined are the line with those bytes removed, and a line of only such
bytes (the empty line included) gives the empty list. -/
theorem C8_parse_input_maximal_runs (input : CStr) :
    ∃ ts : List CStr,
      parse_input input = some ts ∧
      MaximalRuns input ts ∧
      (∀ ts1 : List CStr, MaximalRuns input ts1 → ts1 = ts) ∧
      (∀ t ∈ ts, t ≠ [] ∧ ∀ b ∈ t, is_delim b = false) ∧
      ts.flatten = input.filter (fun b => !is_delim b) ∧
      ((∀ b ∈ input, is_delim b = true) → ts = []) := by
  obtain ⟨ts, h1, h2⟩ := parse_loop_spec (input.length + 1) input [] (Nat.lt_succ_self _)
  exact ⟨ts, by simpa [parse_input] using h1, h2,
    fun ts1 h3 => maximalRuns_unique input ts1 ts h3 h2, maximalRuns_props input ts h2⟩

/-! ## Pipeline stages -/

theorem c_argv_at_none (pre l : List (Option CStr)) :
    c_argv (pre ++ none :: l) pre.length = [] := by
  simp [c_argv, List.drop_left]

theorem c_argv_at_some (pre l : List (Option CStr)) (t : CStr) :
    c_argv (pre ++ some t :: l) pre.length
      = t :: c_argv (pre ++ some t :: l) (pre.length + 1) := by
  have e : List.drop (pre.length + 1) (pre ++ some t :: l) = l := by
    rw [List.drop_append]
    rfl
  simp [c_argv, List.drop_left, e, List.takeWhile_cons]

theorem split_bar_ne_nil (toks : List CStr) : split_bar toks ≠ [] := by
  cases toks with
  | nil => simp [split_bar]
  | cons t rest =>
    unfold split_bar
    split
    · simp
    · split <;> simp

theorem find_pipes_stages (toks : List CStr) (pre : List (Option CStr)) :
    (pre.length :: (find_pipes (args_of toks) pre.length).2.map (fun q => q + 1)).map
        (c_argv (pre ++ (find_pipes (args_of toks) pre.length).1))
      = split_bar toks ∧
    (find_pipes (args_of toks) pre.length).2.length = toks.count tok_bar := by
  induction toks generalizing pre with
  | nil =>
    simp [args_of, find_pipes, split_bar, c_argv_at_none]
  | cons t rest ih =>
    have hcons : args_of (t :: rest) = some t :: args_of rest := rfl
    rw [hcons]
    by_cases hb : t = tok_bar
    · have ih1 := ih (pre ++ [none])
      simp only [List.length_append, List.length_singleton, List.append_assoc,
        List.singleton_append] at ih1
      simp only [find_pipes, hb, if_true, List.map_cons, c_argv_at_none, split_bar,
        List.length_cons, List.count_cons_self]
      simp only [List.map_cons] at ih1
      exact ⟨by rw [ih1.1], by rw [ih1.2]⟩
    · have ih1 := ih (pre ++ [some t])
      simp only [List.length_append, List.length_singleton, List.append_assoc,
        List.singleton_append] at ih1
      have hne : (t == tok_bar) = false := by simpa using hb
      simp only [find_pipes, hb, if_false, List.map_cons, c_argv_at_some, split_bar,
        List.count_cons, hne, Bool.false_eq_true, Nat.add_zero]
      simp only [List.map_cons] at ih1
      refine ⟨?_, ih1.2⟩
      cases hs : split_bar rest with
      | nil => exact absurd hs (split_bar_ne_nil rest)
      | cons st sts =>
        rw [hs] at ih1
        have h1 := ih1.1
        injection h1 with h2 h3
        simp only [h2, h3]

theorem fork_loop_argv (a : List (Option CStr)) (pc : Nat) (p2 p1 : List Nat) (cs : Nat) :
    (fork_loop a (p1 ++ p2) pc (p2.length + 1) p1.length cs).map Child.argv
      = (cs :: p2.map (fun q => q + 1)).map (c_argv a) := by
  induction p2 generalizing p1 cs with
  | nil => simp [fork_loop, child_of]
  | cons q qs ih =>
    have hg : (p1 ++ q :: qs).getD p1.length 0 = q := by
      rw [List.getD_eq_getElem?_getD, List.getElem?_append_right (le_refl _)]
      simp
    have ih1 := ih (p1 ++ [q]) (q + 1)
    simp only [List.length_append, List.length_singleton, List.append_assoc,
      List.singleton_append] at ih1
    have e : fork_loop a (p1 ++ q :: qs) pc ((q :: qs).length + 1) p1.length cs
        = child_of a pc p1.length cs ::
            fork_loop a (p1 ++ q :: qs) pc (qs.length + 1) (p1.length + 1) (q + 1) := by
      simp only [List.length_cons]
      rw [fork_loop, hg]
    rw [e, List.map_cons, ih1]
    simp [child_of]

theorem fork_loop_length (a : List (Option CStr)) (pos : List Nat) (pc n i cs : Nat) :
    (fork_loop a pos pc n i cs).length = n := by
  induction n generalizing i cs with
  | zero => rfl
  | succ k ih => simp [fork_loop, ih]

theorem split_bar_length (toks : List CStr) :
    (split_bar toks).length = toks.count tok_bar + 1 := by
  induction toks with
  | nil => rfl
  | cons t rest ih =>
    by_cases hb : t = tok_bar
    · simp [split_bar, hb, ih]
    · have hne : (t == tok_bar) = false := by simpa using hb
      cases hs : split_bar rest with
      | nil => exact absurd hs (split_bar_ne_nil rest)
      | cons st sts =>
        rw [hs] at ih
        simp only [split_bar, hb, if_false, hs, List.length_cons, List.count_cons, hne,
          Bool.false_eq_true, Nat.add_zero]
        simpa using ih

theorem split_bar_no_bar (toks : List CStr) : ∀ st ∈ split_bar toks, tok_bar ∉ st := by
  induction toks with
  | nil => simp [split_bar]
  | cons t rest ih =>
    by_cases hb : t = tok_bar
    · simp only [split_bar, hb, if_true, List.mem_cons]
      intro st hst
      rcases hst with rfl | hst
      · simp
      · exact ih st hst
    · cases hs : split_bar rest with
      | nil => exact absurd hs (split_bar_ne_nil rest)
      | cons st sts =>
        rw [hs] at ih
        simp only [split_bar, hb, if_false, hs, List.mem_cons]
        intro x hx
        rcases hx with rfl | hx
        · intro hmem
          rcases List.mem_cons.mp hmem with h1 | h1
          · exact hb h1.symm
          · exact ih st (List.mem_cons_self _ _) h1
        · exact ih x (List.mem_cons_of_mem _ hx)

theorem split_bar_intercalate (toks : List CStr) :
    List.intercalate [tok_bar] (split_bar toks) = toks := by
  induction toks with
  | nil => simp [split_bar, List.intercalate]
  | cons t rest ih =>
    cases hs : split_bar rest with
    | nil => exact absurd hs (split_bar_ne_nil rest)
    | cons st sts =>
      rw [hs] at ih
      by_cases hb : t = tok_bar
      · simp only [split_bar, hb, if_true, hs]
        simp only [List.intercalate, List.intersperse] at ih ⊢
        simp only [List.flatten_cons, List.nil_append, List.singleton_append, ih]
      · simp only [split_bar, hb, if_false, hs]
        cases sts with
        | nil =>
          simp only [List.intercalate, List.intersperse, List.flatten_cons, List.flatten_nil,
            List.append_nil] at ih ⊢
          rw [ih]
        | cons s2 ss =>
          simp only [List.intercalate, List.intersperse, List.flatten_cons] at ih ⊢
          rw [List.cons_append, ih]

/-- C2. For every token sequence with `k ≤ MAX_PIPES` tokens `"|"`, when every
`pipe` call succeeds: if `k = 0`, `execute_piped_commands` makes no pipe and
returns -1; if `k ≥ 1`, it makes exactly `k` pipes and forks `k + 1` stages, the
stage vectors joined with `"|"` between them are the token sequence (so stage `i`
is the tokens strictly between consecutive `"|"` tokens, in order) and no stage
holds a `"|"`. -/
theorem C2_pipeline_stages (pipe_ok : Nat → Bool) (toks : List CStr)
    (hk : toks.count tok_bar ≤ MAX_PIPES) (hp : ∀ i, pipe_ok i = true) :
    (toks.count tok_bar = 0 →
      execute_piped_commands pipe_ok (args_of toks) = Piped.no_pipes ∧
      (execute_piped_commands pipe_ok (args_of toks)).ret = some (-1)) ∧
    (1 ≤ toks.count tok_bar →
      ∃ children : List Child,
        execute_piped_commands pipe_ok (args_of toks)
          = Piped.ran (toks.count tok_bar) children
              (List.range (2 * toks.count tok_bar)) (toks.count tok_bar + 1) ∧
        children.length = toks.count tok_bar + 1 ∧
        List.intercalate [tok_bar] (children.map Child.argv) = toks ∧
        (∀ st ∈ children.map Child.argv, tok_bar ∉ st) ∧
        children.map Child.argv = split_bar toks) := by
  have fp := find_pipes_stages toks []
  simp only [List.length_nil, List.nil_append] at fp
  obtain ⟨hst, hlen⟩ := fp
  have hnotover : ¬ (find_pipes (args_of toks) 0).2.length > MAX_PIPES := by
    rw [hlen]
    omega
  constructor
  · intro h0
    have e : execute_piped_commands pipe_ok (args_of toks) = Piped.no_pipes := by
      simp only [execute_piped_commands, hlen, h0]
      simp [MAX_PIPES]
    rw [e]
    exact ⟨rfl, rfl⟩
  · intro h1
    have hne : ¬ toks.count tok_bar = 0 := by omega
    have hfind : (List.range (toks.count tok_bar)).find? (fun i => !pipe_ok i) = none := by
      rw [List.find?_eq_none]
      intro i _
      simp [hp i]
    have hover : ¬ toks.count tok_bar > MAX_PIPES := by omega
    have e : execute_piped_commands pipe_ok (args_of toks)
        = Piped.ran (toks.count tok_bar)
            (fork_loop (find_pipes (args_of toks) 0).1 (find_pipes (args_of toks) 0).2
              (toks.count tok_bar) (toks.count tok_bar + 1) 0 0)
            (List.range (2 * toks.count tok_bar)) (toks.count tok_bar + 1) := by
      simp only [execute_piped_commands, hlen, hover, hne, if_false, hfind]
    have hargv : (fork_loop (find_pipes (args_of toks) 0).1 (find_pipes (args_of toks) 0).2
        (toks.count tok_bar) (toks.count tok_bar + 1) 0 0).map Child.argv
          = split_bar toks := by
      have := fork_loop_argv (find_pipes (args_of toks) 0).1 (toks.count tok_bar)
        (find_pipes (args_of toks) 0).2 [] 0
      simp only [List.nil_append, List.length_nil, hlen] at this
      rw [this, hst]
    refine ⟨_, e, fork_loop_length _ _ _ _ _ _, ?_, ?_, hargv⟩
    · rw [hargv]
      exact split_bar_intercalate toks
    · rw [hargv]
      exact split_bar_no_bar toks

/-- Witness for C2: the tokens `echo hi | cat | cat` give 2 pipes and the three
stages `echo hi`, `cat`, `cat`. -/
theorem C2_pipeline_stages_witness :
    ∃ children : List Child,
      execute_piped_commands (fun _ => true)
          (args_of [[101, 99, 104, 111], [104, 105], tok_bar, [99, 97, 116], tok_bar,
            [99, 97, 116]])
        = Piped.ran 2 children (List.range 4) 3 ∧
      children.length = 3 ∧
      children.map Child.argv
        = [[[101, 99, 104, 111], [104, 105]], [[99, 97, 116]], [[99, 97, 116]]] := by
  obtain ⟨children, h1, h2, _, _, h5⟩ :=
    (C2_pipeline_stages (fun _ => true)
      [[101, 99, 104, 111], [104, 105], tok_bar, [99, 97, 116], tok_bar, [99, 97, 116]]
      (by decide) (fun _ => rfl)).2 (by decide)
  exact ⟨children, h1, h2, by rw [h5]; decide⟩

/-! ## Redirections -/

/-- C3 fails as stated: for the stage `sort < in.txt -r` with `in.txt` readable,
`execvp` receives the vector `sort` alone; the `-r` after the redirection is not
passed. -/
theorem C3_tokens_after_redirection_dropped_counterexample :
    run_child { can_read := fun _ => true, can_write := fun _ => true }
        [[115, 111, 114, 116], tok_lt, [105, 110, 46, 116, 120, 116], [45, 114]]
      = ChildEnd.exec [[115, 111, 114, 116]]
          [Redir.stdin_from [105, 110, 46, 116, 120, 116]] ∧
    run_child { can_read := fun _ => true, can_write := fun _ => true }
        [[115, 111, 114, 116], tok_lt, [105, 110, 46, 116, 120, 116], [45, 114]]
      ≠ ChildEnd.exec [[115, 111, 114, 116], [45, 114]]
          [Redir.stdin_from [105, 110, 46, 116, 120, 116]] := by
  constructor <;> decide

theorem handle_redirection_argv (fs : Files) (stage : List CStr)
    (a : List (Option CStr)) (r : List Redir)
    (h : handle_redirection fs stage = Redirected.ok a r) :
    exec_argv a = stage.takeWhile (fun t => t != tok_lt && t != tok_gt) := by
  induction stage generalizing a r with
  | nil =>
    simp only [handle_redirection, Redirected.ok.injEq] at h
    obtain ⟨rfl, _⟩ := h
    rfl
  | cons t rest ih =>
    unfold handle_redirection at h
    by_cases h1 : t = tok_lt
    · rw [if_pos h1] at h
      cases rest with
      | nil => simp at h
      | cons path more =>
        simp only at h
        split at h
        · split at h
          · simp at h
          · simp only [Redirected.ok.injEq] at h
            obtain ⟨rfl, _⟩ := h
            simp [exec_argv, h1]
        · simp at h
    · rw [if_neg h1] at h
      by_cases h2 : t = tok_gt
      · rw [if_pos h2] at h
        cases rest with
        | nil => simp at h
        | cons path more =>
          simp only at h
          split at h
          · split at h
            · simp at h
            · simp only [Redirected.ok.injEq] at h
              obtain ⟨rfl, _⟩ := h
              simp [exec_argv, h2]
          · simp at h
      · rw [if_neg h2] at h
        split at h
        · simp at h
        · rename_i a1 r1 hrec
          simp only [Redirected.ok.injEq] at h
          obtain ⟨rfl, _⟩ := h
          have e := ih a1 r1 hrec
          simp only [exec_argv] at e
          simp [exec_argv, List.takeWhile_cons, h1, h2, e]

/-- C3, amended. Whenever `handle_redirection` returns on a stage (every `open`
succeeded), the vector it leaves for `execvp` is the stage tokens that come
before the first `"<"` or `">"` token; that operator, its path and every later
token are not passed to `execvp`. -/
theorem C3_exec_argv_stops_at_first_operator (fs : Files) (stage : List CStr)
    (a : List (Option CStr)) (r : List Redir)
    (h : handle_redirection fs stage = Redirected.ok a r) :
    exec_argv a = stage.takeWhile (fun t => t != tok_lt && t != tok_gt) ∧
    run_child fs stage
      = ChildEnd.exec (stage.takeWhile (fun t => t != tok_lt && t != tok_gt)) r := by
  have e := handle_redirection_argv fs stage a r h
  refine ⟨e, ?_⟩
  simp only [run_child, h, e]

/-- Witness for C3, amended: the stage `sort < in.txt -r`. -/
theorem C3_exec_argv_stops_at_first_operator_witness :
    exec_argv [some [115, 111, 114, 116], none, some [105, 110, 46, 116, 120, 116],
        some [45, 114]]
      = ([[115, 111, 114, 116], tok_lt, [105, 110, 46, 116, 120, 116], [45, 114]] :
          List CStr).takeWhile (fun t => t != tok_lt && t != tok_gt) :=
  (C3_exec_argv_stops_at_first_operator
    { can_read := fun _ => true, can_write := fun _ => true }
    [[115, 111, 114, 116], tok_lt, [105, 110, 46, 116, 120, 116], [45, 114]]
    [some [115, 111, 114, 116], none, some [105, 110, 46, 116, 120, 116], some [45, 114]]
    [Redir.stdin_from [105, 110, 46, 116, 120, 116]] (by decide)).1

/-! ## History navigation -/

theorem slice_strcpy (m : Nat → Nat) (e : CStr) : slice (strcpy m e) 0 e.length = e := by
  apply slice_eq _ e e.length rfl
  intro i hi
  simp [strcpy, hi]

/-- C11. With a navigation index `t ≥ 0`: when `t = history_count - 1`, ArrowDown
sets the index to `history_count`, zeroes the buffer and sets `len = cursor = 0`,
whatever the buffer held; when `t < history_count - 1`, ArrowDown moves the index
to `t + 1` and replaces the buffer by the entry there; when `t > 0`, ArrowUp moves
the index to `t - 1` and replaces the buffer by the entry there (entries being C
strings). The loop runs these handlers on `ESC [ B` and `ESC [ A`. -/
theorem C11_history_navigation (gc : CStr → List CStr) (g : Globals) (s : Editor)
    (rest : List Nat) (h0 : 0 ≤ s.temp_history_index) :
    iteration gc g s (27 :: 91 :: 66 :: rest) = Step.cont (arrow_down g s) rest ∧
    iteration gc g s (27 :: 91 :: 65 :: rest) = Step.cont (arrow_up g s) rest ∧
    (s.temp_history_index = g.history_count - 1 →
      0 < g.history_count ∧
      arrow_down g s
        = { input := memset0 s.input MAX_INPUT, cursor := 0, len := 0,
            temp_history_index := g.history_count } ∧
      (∀ i, i < MAX_INPUT → (arrow_down g s).input i = 0) ∧
      c_string (arrow_down g s).input (arrow_down g s).len.toNat = []) ∧
    (s.temp_history_index < g.history_count - 1 →
      (∀ b ∈ g.history (s.temp_history_index + 1).toNat, b ≠ 0) →
      arrow_down g s
        = { input := strcpy s.input (g.history (s.temp_history_index + 1).toNat),
            cursor := (g.history (s.temp_history_index + 1).toNat).length,
            len := (g.history (s.temp_history_index + 1).toNat).length,
            temp_history_index := s.temp_history_index + 1 } ∧
      slice (arrow_down g s).input 0 (arrow_down g s).len.toNat
        = g.history (s.temp_history_index + 1).toNat) ∧
    (0 < s.temp_history_index →
      (∀ b ∈ g.history (s.temp_history_index - 1).toNat, b ≠ 0) →
      arrow_up g s
        = { input := strcpy s.input (g.history (s.temp_history_index - 1).toNat),
            cursor := (g.history (s.temp_history_index - 1).toNat).length,
            len := (g.history (s.temp_history_index - 1).toNat).length,
            temp_history_index := s.temp_history_index - 1 } ∧
      slice (arrow_up g s).input 0 (arrow_up g s).len.toNat
        = g.history (s.temp_history_index - 1).toNat) := by
  refine ⟨by simp [iteration, escape_sequence], by simp [iteration, escape_sequence],
    ?_, ?_, ?_⟩
  · intro ht
    have hcount : 0 < g.history_count := by omega
    have hnlt : ¬ s.temp_history_index < g.history_count - 1 := by omega
    have hs : arrow_down g s
        = { input := memset0 s.input MAX_INPUT, cursor := 0, len := 0,
            temp_history_index := g.history_count } := by
      unfold arrow_down
      rw [if_neg hnlt, if_pos ht]
    rw [hs]
    refine ⟨hcount, rfl, ?_, ?_⟩
    · intro i hi
      simp [memset0, hi]
    · simp [c_string, strlen_mem, strlen_from, slice]
  · intro ht hz
    have hs : arrow_down g s
        = { input := strcpy s.input (g.history (s.temp_history_index + 1).toNat),
            cursor := (g.history (s.temp_history_index + 1).toNat).length,
            len := (g.history (s.temp_history_index + 1).toNat).length,
            temp_history_index := s.temp_history_index + 1 } := by
      simp only [arrow_down, ht, if_true]
      exact recall_state _ _ hz _
    rw [hs]
    exact ⟨rfl, by simpa using slice_strcpy _ _⟩
  · intro ht hz
    have hs : arrow_up g s
        = { input := strcpy s.input (g.history (s.temp_history_index - 1).toNat),
            cursor := (g.history (s.temp_history_index - 1).toNat).length,
            len := (g.history (s.temp_history_index - 1).toNat).length,
            temp_history_index := s.temp_history_index - 1 } := by
      simp only [arrow_up, ht, if_true]
      exact recall_state _ _ hz _
    rw [hs]
    exact ⟨rfl, by simpa using slice_strcpy _ _⟩

/-- Witness for C11: the entries `a`, `b`, the index at 1 and the draft `x` in the
buffer; ArrowDown clears the line. -/
theorem C11_history_navigation_witness :
    arrow_down history_a_b
        { input := strcpy (fun _ => 0) [120], cursor := 1, len := 1, temp_history_index := 1 }
      = { input := memset0 (strcpy (fun _ => 0) [120]) MAX_INPUT, cursor := 0, len := 0,
          temp_history_index := history_a_b.history_count } :=
  ((C11_history_navigation (fun _ => []) history_a_b
    { input := strcpy (fun _ => 0) [120], cursor := 1, len := 1, temp_history_index := 1 }
    [] (by decide)).2.2.1
    (by simp [history_a_b, empty_history, add_to_history, MAX_HISTORY, hist_set])).2.1

/-! ## End of input -/

/-- C15. On the byte 4: when `len = 0` the pass ends in `exit(0)` and the call
ends with the history state it was entered with (`add_to_history` is not
called); when `len` is not 0 the pass leaves the whole editor state unchanged and
the loop goes on with the next byte. -/
theorem C15_eof_byte (gc : CStr → List CStr) (g : Globals) (s : Editor)
    (rest : List Nat) (fuel : Nat) :
    (s.len = 0 →
      iteration gc g s (4 :: rest) = Step.exit0 ∧
      run gc g (fuel + 1) s (4 :: rest) = Outcome.exited g) ∧
    (s.len ≠ 0 →
      iteration gc g s (4 :: rest) = Step.cont s rest ∧
      run gc g (fuel + 1) s (4 :: rest) = run gc g fuel s rest) := by
  constructor
  · intro h
    have it : iteration gc g s (4 :: rest) = Step.exit0 := by
      simp [iteration, h]
    exact ⟨it, by simp only [run, it]⟩
  · intro h
    have it : iteration gc g s (4 :: rest) = Step.cont s rest := by
      simp [iteration, h]
    exact ⟨it, by simp only [run, it]⟩

/-- Witness for C15: the byte 4 on the empty line at the start of a session. -/
theorem C15_eof_byte_witness :
    run (fun _ => []) history_a_b 1 (init_editor history_a_b (fun _ => 0)) (4 :: [])
      = Outcome.exited history_a_b :=
  ((C15_eof_byte (fun _ => []) history_a_b (init_editor history_a_b (fun _ => 0)) [] 0).1
    rfl).2

/-! ## Inserting a byte -/

theorem insert_content (m : Nat → Nat) (k n c : Nat) (hkn : k ≤ n) :
    slice (poke (poke (memmove m (k + 1) k (n - k)) k c) (n + 1) 0) 0 (n + 1)
      = slice m 0 k ++ [c] ++ slice m k n := by
  apply slice_eq
  · simp only [List.length_append, slice_length, List.length_singleton]
    omega
  · intro i hi
    simp only [List.length_append, slice_length, Nat.sub_zero, List.length_singleton] at hi
    rw [getD_append3]
    simp only [slice_length, Nat.sub_zero, poke, memmove, List.length_singleton]
    by_cases h1 : i < k
    · have e1 : i ≠ n + 1 := by omega
      have e2 : i ≠ k := by omega
      have e3 : ¬ (k + 1 ≤ i ∧ i < k + 1 + (n - k)) := by omega
      rw [if_neg e1, if_neg e2, if_neg e3, if_pos h1, slice_getD m 0 k i (by omega)]
      simp
    · by_cases h2 : i = k
      · subst h2
        have e1 : i ≠ n + 1 := by omega
        rw [if_neg e1, if_pos rfl, if_neg h1, if_pos (by omega)]
        simp
      · have e1 : i ≠ n + 1 := by omega
        have e3 : k + 1 ≤ i ∧ i < k + 1 + (n - k) := by omega
        have e4 : ¬ i < k + 1 := by omega
        rw [if_neg e1, if_neg h2, if_pos e3, if_neg h1, if_neg e4,
          slice_getD m k n _ (by omega),
          show k + (i - (k + 1)) = k + (i - k - 1) by omega]

/-- C19. For a buffer of `len < MAX_INPUT - 1` bytes, a cursor `k` with
`0 ≤ k ≤ len` and a printable byte `c`, the loop runs the insert handler, after
which the buffer is the old bytes before `k`, then `c`, then the old bytes from
`k` on, terminated at the new `len = len + 1`, with the cursor at `k + 1`; when
`len = MAX_INPUT - 1` the handler leaves the state unchanged. -/
theorem C19_insert_char (gc : CStr → List CStr) (g : Globals) (s : Editor) (c : Nat)
    (rest : List Nat) (h0 : 0 ≤ s.cursor) (h1 : s.cursor ≤ s.len)
    (hc : 32 ≤ c ∧ c ≤ 126) :
    iteration gc g s (c :: rest) = Step.cont (insert_char s c) rest ∧
    (s.len < (MAX_INPUT : Int) - 1 →
      slice (insert_char s c).input 0 (insert_char s c).len.toNat
        = slice s.input 0 s.cursor.toNat ++ [c] ++ slice s.input s.cursor.toNat s.len.toNat ∧
      (insert_char s c).len = s.len + 1 ∧
      (insert_char s c).cursor = s.cursor + 1 ∧
      (insert_char s c).input (insert_char s c).len.toNat = 0 ∧
      (insert_char s c).temp_history_index = s.temp_history_index) ∧
    (s.len = (MAX_INPUT : Int) - 1 → insert_char s c = s) := by
  refine ⟨iteration_key gc g s (Key.char c) hc rest, ?_, ?_⟩
  · intro hlt
    rcases s with ⟨m, cur, len, t⟩
    simp only at h0 h1 hlt ⊢
    obtain ⟨k, rfl⟩ := Int.eq_ofNat_of_zero_le h0
    obtain ⟨n, rfl⟩ := Int.eq_ofNat_of_zero_le (le_trans h0 h1)
    have hkn : k ≤ n := by omega
    have e1 : ((k : Int) + 1).toNat = k + 1 := by omega
    have e2 : ((n : Int) - (k : Int)).toNat = n - k := by omega
    have e3 : ((n : Int) + 1).toNat = n + 1 := by omega
    simp only [insert_char, hlt, if_true, Int.toNat_ofNat, e1, e2, e3]
    refine ⟨insert_content m k n c hkn, trivial, trivial, ?_, trivial⟩
    simp [poke]
  · intro he
    have hnlt : ¬ s.len < (MAX_INPUT : Int) - 1 := by omega
    simp only [insert_char, hnlt, if_false]

/-- Witness for C19: the buffer `ac` with the cursor at 1, inserting `b`. -/
theorem C19_insert_char_witness :
    iteration (fun _ => []) empty_history
        { input := strcpy (fun _ => 0) [97, 99], cursor := 1, len := 2,
          temp_history_index := 0 } (98 :: [])
      = Step.cont
          (insert_char
            { input := strcpy (fun _ => 0) [97, 99], cursor := 1, len := 2,
              temp_history_index := 0 }
            98)
          [] :=
  (C19_insert_char (fun _ => []) empty_history
    { input := strcpy (fun _ => 0) [97, 99], cursor := 1, len := 2, temp_history_index := 0 }
    98 [] (by decide) (by decide) (by decide)).1

/-! ## Ctrl+Left against the specified word-left move -/

theorem spec_skip_run_left_eq (m : Nat → Nat) (fuel : Nat) (c : Int) :
    spec_skip_run_left m fuel c = skip_word_left m fuel c := by
  induction fuel generalizing c with
  | zero => rfl
  | succ n ih =>
    unfold spec_skip_run_left skip_word_left
    rw [ih]

/-- The first loops side by side: the handler starts one byte further left and
tests the byte under the cursor, the specified move tests the byte left of the
cursor. Both end at 0, or the handler ends one byte left of the specified move,
on a byte that is not a space. -/
theorem skip_spaces_left_shift (m : Nat → Nat) (n : Nat) :
    (spec_skip_spaces_left m (n + 1) ((n : Int) + 1) = 0 ∧
      skip_spaces_left m n (n : Int) = 0) ∨
    (spec_skip_spaces_left m (n + 1) ((n : Int) + 1) = skip_spaces_left m n (n : Int) + 1 ∧
      0 ≤ skip_spaces_left m n (n : Int) ∧
      m (skip_spaces_left m n (n : Int)).toNat ≠ 32) := by
  induction n with
  | zero =>
    by_cases h : m 0 = 32
    · left
      simp [spec_skip_spaces_left, skip_spaces_left, h]
    · right
      simp [spec_skip_spaces_left, skip_spaces_left, h]
  | succ k ih =>
    have e1 : ((k + 1 : Nat) : Int) + 1 - 1 = (k : Int) + 1 := by omega
    have e2 : ((k + 1 : Nat) : Int) - 1 = (k : Int) := by omega
    have e3 : (((k + 1 : Nat) : Int) + 1 - 1).toNat = k + 1 := by omega
    have e4 : (((k + 1 : Nat) : Int)).toNat = k + 1 := by omega
    have p1 : ((k + 1 : Nat) : Int) + 1 > 0 := by omega
    have p2 : ((k + 1 : Nat) : Int) > 0 := by omega
    by_cases h : m (k + 1) = 32
    · have a : spec_skip_spaces_left m (k + 1 + 1) (((k + 1 : Nat) : Int) + 1)
          = spec_skip_spaces_left m (k + 1) ((k : Int) + 1) := by
        rw [spec_skip_spaces_left, e3, if_pos ⟨p1, h⟩, e1]
      have b : skip_spaces_left m (k + 1) ((k + 1 : Nat) : Int)
          = skip_spaces_left m k (k : Int) := by
        rw [skip_spaces_left, e4, if_pos ⟨p2, h⟩, e2]
      rw [a, b]
      exact ih
    · have a : spec_skip_spaces_left m (k + 1 + 1) (((k + 1 : Nat) : Int) + 1)
          = ((k + 1 : Nat) : Int) + 1 := by
        rw [spec_skip_spaces_left, e3, if_neg (fun hh => h hh.2)]
      have b : skip_spaces_left m (k + 1) ((k + 1 : Nat) : Int) = ((k + 1 : Nat) : Int) := by
        rw [skip_spaces_left, e4, if_neg (fun hh => h hh.2)]
      right
      rw [a, b, e4]
      exact ⟨rfl, by omega, h⟩

theorem word_left_cursor_eq (m : Nat → Nat) (c : Int) (h0 : 0 ≤ c) :
    skip_word_left m
        (skip_spaces_left m (if c > 0 then c - 1 else c).toNat
          (if c > 0 then c - 1 else c)).toNat
        (skip_spaces_left m (if c > 0 then c - 1 else c).toNat (if c > 0 then c - 1 else c))
      = moveWordLeft m c := by
  obtain ⟨k, rfl⟩ := Int.eq_ofNat_of_zero_le h0
  unfold moveWordLeft
  simp only [spec_skip_run_left_eq, Int.toNat_ofNat]
  cases k with
  | zero => simp [skip_spaces_left, spec_skip_spaces_left, skip_word_left]
  | succ n =>
    have p : ((n + 1 : Nat) : Int) > 0 := by omega
    have e1 : ((n + 1 : Nat) : Int) - 1 = (n : Int) := by omega
    have e2 : ((n + 1 : Nat) : Int) = (n : Int) + 1 := by omega
    rw [if_pos p, e1, Int.toNat_ofNat, e2]
    rcases skip_spaces_left_shift m n with ⟨a, b⟩ | ⟨a, b, c⟩
    · rw [a, b]
    · rw [a]
      generalize skip_spaces_left m n (n : Int) = r at a b c ⊢
      obtain ⟨j, rfl⟩ := Int.eq_ofNat_of_zero_le b
      have e3 : ((j : Int) + 1).toNat = j + 1 := by omega
      have e4 : ((j : Int) + 1 - 1) = (j : Int) := by omega
      have p2 : (j : Int) + 1 > 0 := by omega
      rw [e3, Int.toNat_ofNat]
      conv_rhs => rw [skip_word_left, e4, if_pos ⟨p2, c⟩]

/-- C18. For every buffer and cursor with `0 ≤ cursor ≤ len`, the Ctrl+Left
handler ends at the cursor that the specified `moveWordLeft` yields (step left
while the byte left of the cursor is a space, then while it is not a space); that
cursor is 0 or has a space as its left neighbour, and lies between 0 and the
starting cursor. The handler changes nothing but the cursor, and the loop runs it
on `ESC [ 1 ; 5 D`. -/
theorem C18_word_left_refines_moveWordLeft (gc : CStr → List CStr) (g : Globals)
    (s : Editor) (rest : List Nat) (h0 : 0 ≤ s.cursor) (h1 : s.cursor ≤ s.len) :
    iteration gc g s (27 :: 91 :: 49 :: 59 :: 53 :: 68 :: rest)
      = Step.cont (word_left s) rest ∧
    (word_left s).cursor = moveWordLeft s.input s.cursor ∧
    ((word_left s).cursor = 0 ∨
      (0 < (word_left s).cursor ∧ s.input ((word_left s).cursor - 1).toNat = 32)) ∧
    0 ≤ (word_left s).cursor ∧ (word_left s).cursor ≤ s.cursor ∧
    word_left s = { s with cursor := moveWordLeft s.input s.cursor } := by
  have hinv := word_left_inv s h0 h1
  have he : (word_left s).cursor = moveWordLeft s.input s.cursor := by
    simp only [word_left]
    exact word_left_cursor_eq s.input s.cursor h0
  have hc : 0 ≤ (if s.cursor > 0 then s.cursor - 1 else s.cursor) ∧
      (if s.cursor > 0 then s.cursor - 1 else s.cursor) ≤ s.cursor := by
    split <;> omega
  have a := skip_spaces_left_bounds s.input
    (if s.cursor > 0 then s.cursor - 1 else s.cursor).toNat _ hc.1
  have b := skip_word_left_bounds s.input
    (skip_spaces_left s.input (if s.cursor > 0 then s.cursor - 1 else s.cursor).toNat
      (if s.cursor > 0 then s.cursor - 1 else s.cursor)).toNat _ a.1
  have st := skip_word_left_stops s.input
    (skip_spaces_left s.input (if s.cursor > 0 then s.cursor - 1 else s.cursor).toNat
      (if s.cursor > 0 then s.cursor - 1 else s.cursor)).toNat
    (skip_spaces_left s.input (if s.cursor > 0 then s.cursor - 1 else s.cursor).toNat
      (if s.cursor > 0 then s.cursor - 1 else s.cursor))
    (by omega)
  refine ⟨by simp [iteration, escape_sequence, extended_sequence], he, ?_, hinv.1, ?_, ?_⟩
  · simp only [word_left] at hinv ⊢
    by_cases hz : skip_word_left s.input
        (skip_spaces_left s.input (if s.cursor > 0 then s.cursor - 1 else s.cursor).toNat
          (if s.cursor > 0 then s.cursor - 1 else s.cursor)).toNat
        (skip_spaces_left s.input (if s.cursor > 0 then s.cursor - 1 else s.cursor).toNat
          (if s.cursor > 0 then s.cursor - 1 else s.cursor)) = 0
    · exact Or.inl hz
    · right
      have hpos : skip_word_left s.input
          (skip_spaces_left s.input (if s.cursor > 0 then s.cursor - 1 else s.cursor).toNat
            (if s.cursor > 0 then s.cursor - 1 else s.cursor)).toNat
          (skip_spaces_left s.input (if s.cursor > 0 then s.cursor - 1 else s.cursor).toNat
            (if s.cursor > 0 then s.cursor - 1 else s.cursor)) > 0 := by omega
      refine ⟨hpos, ?_⟩
      by_contra hne
      exact st ⟨hpos, hne⟩
  · simp only [word_left]
    omega
  · rw [← he]
    rfl

/-- Witness for C18: the buffer `ab cd` with the cursor at its end. -/
theorem C18_word_left_refines_moveWordLeft_witness :
    (word_left { input := strcpy (fun _ => 0) [97, 98, 32, 99, 100], cursor := 5, len := 5,
                 temp_history_index := 0 }).cursor
      = moveWordLeft (strcpy (fun _ => 0) [97, 98, 32, 99, 100]) 5 :=
  (C18_word_left_refines_moveWordLeft (fun _ => []) empty_history
    { input := strcpy (fun _ => 0) [97, 98, 32, 99, 100], cursor := 5, len := 5,
      temp_history_index := 0 } [] (by decide) (by decide)).2.1

/-! ## Length of the line against the buffer size -/

/-- The six editing keys keep `len` within `MAX_INPUT - 1`. -/
theorem key_apply_len_le (s : Editor) (k : Key) (h : s.len ≤ (MAX_INPUT : Int) - 1) :
    (Key.apply s k).len ≤ (MAX_INPUT : Int) - 1 := by
  cases k with
  | char c =>
    simp only [Key.apply, insert_char]
    split
    · simp only
      omega
    · exact h
  | backspace =>
    simp only [Key.apply, backspace]
    split
    · simp only
      omega
    · exact h
  | ctrl_h =>
    simp only [Key.apply, backspace]
    split
    · simp only
      omega
    · exact h
  | left =>
    simp only [Key.apply, arrow_left]
    split <;> exact h
  | right =>
    simp only [Key.apply, arrow_right]
    split <;> exact h
  | word_left => exact h
  | word_right => exact h

set_option maxRecDepth 100000 in
/-- C12 at its failing input: with `long_name` the single completion of `ab`,
the keys `x`, space and three times `a b Tab` lead to `len = 772`, within the
buffer; one more Tab sets `len = 772 - 2 + 255 = 1025`, above `MAX_INPUT - 1`. -/
theorem C12_tab_overruns_buffer :
    ((read_input_with_completion long_engine empty_history (fun _ => 0)
        [120, 32, 97, 98, 9, 97, 98, 9, 97, 98, 9, 97, 98]).state.map Editor.len)
      = some 772 ∧
    ((read_input_with_completion long_engine empty_history (fun _ => 0)
        [120, 32, 97, 98, 9, 97, 98, 9, 97, 98, 9, 97, 98, 9]).state.map Editor.len)
      = some 1025 ∧
    (MAX_INPUT : Int) - 1 < 1025 := by
  refine ⟨by decide, by decide, by decide⟩

/-! ## Wiring of the pipeline children -/

theorem execute_piped_ran (pipe_ok : Nat → Bool) (toks : List CStr)
    (hk1 : 1 ≤ toks.count tok_bar) (hk2 : toks.count tok_bar ≤ MAX_PIPES)
    (hp : ∀ i, pipe_ok i = true) :
    execute_piped_commands pipe_ok (args_of toks)
      = Piped.ran (toks.count tok_bar)
          (fork_loop (find_pipes (args_of toks) 0).1 (find_pipes (args_of toks) 0).2
            (toks.count tok_bar) (toks.count tok_bar + 1) 0 0)
          (List.range (2 * toks.count tok_bar)) (toks.count tok_bar + 1) := by
  have fp := find_pipes_stages toks []
  simp only [List.length_nil, List.nil_append] at fp
  have hlen := fp.2
  have hne : ¬ toks.count tok_bar = 0 := by omega
  have hover : ¬ toks.count tok_bar > MAX_PIPES := by omega
  have hfind : (List.range (toks.count tok_bar)).find? (fun i => !pipe_ok i) = none := by
    rw [List.find?_eq_none]
    intro i _
    simp [hp i]
  simp only [execute_piped_commands, hlen, hover, hne, if_false, hfind]

theorem fork_loop_get (a : List (Option CStr)) (pos : List Nat) (pc n i cs j : Nat)
    (hj : j < n) :
    ∃ cs1, (fork_loop a pos pc n i cs)[j]? = some (child_of a pc (i + j) cs1) := by
  induction n generalizing i cs j with
  | zero => omega
  | succ k ih =>
    cases j with
    | zero => exact ⟨cs, by simp [fork_loop]⟩
    | succ j1 =>
      obtain ⟨cs1, h⟩ := ih (i + 1) (pos.getD i 0 + 1) j1 (by omega)
      refine ⟨cs1, ?_⟩
      rw [show i + (j1 + 1) = i + 1 + j1 by omega]
      simp only [fork_loop, List.getElem?_cons_succ]
      exact h

/-- Wiring of the children when `pipe_positions` is not overrun. For a token
sequence with `k` tokens `"|"`, `1 ≤ k ≤ MAX_PIPES`, and all
`pipe` calls succeeding, the `k + 1` children are forked, and the child of stage
`i` duplicates the read end of pipe `i - 1` onto standard input exactly when
`i > 0`, the write end of pipe `i` onto standard output exactly when `i < k`, then
closes all `2 k` slots of `pipefds`, and only then applies its redirections and
calls `execvp`; the pipe stage `i` writes to is the pipe stage `i + 1` reads
from. -/
theorem child_wiring_within_cap (pipe_ok : Nat → Bool) (toks : List CStr)
    (hk1 : 1 ≤ toks.count tok_bar) (hk2 : toks.count tok_bar ≤ MAX_PIPES)
    (hp : ∀ i, pipe_ok i = true) :
    ∃ children : List Child,
      execute_piped_commands pipe_ok (args_of toks)
        = Piped.ran (toks.count tok_bar) children
            (List.range (2 * toks.count tok_bar)) (toks.count tok_bar + 1) ∧
      children.length = toks.count tok_bar + 1 ∧
      (∀ i, i ≤ toks.count tok_bar →
        ∃ c : Child, children[i]? = some c ∧ c.stage = i ∧
          c.stdin_from = (if 0 < i then some (read_end (i - 1)) else none) ∧
          c.stdout_to = (if i < toks.count tok_bar then some (write_end i) else none) ∧
          c.closed = List.range (2 * toks.count tok_bar) ∧
          c.calls
            = (if 0 < i then [Sys.dup2 (read_end (i - 1)) 0] else []) ++
              (if i < toks.count tok_bar then [Sys.dup2 (write_end i) 1] else []) ++
              (List.range (2 * toks.count tok_bar)).map Sys.close ++
              [Sys.redirect_exec c.argv]) ∧
      (∀ i, i < toks.count tok_bar →
        ∃ c d : Child, children[i]? = some c ∧ children[i + 1]? = some d ∧
          c.stdout_to = some (write_end i) ∧ d.stdin_from = some (read_end i)) := by
  refine ⟨_, execute_piped_ran pipe_ok toks hk1 hk2 hp, fork_loop_length _ _ _ _ _ _, ?_, ?_⟩
  · intro i hi
    obtain ⟨cs1, h⟩ := fork_loop_get (find_pipes (args_of toks) 0).1
      (find_pipes (args_of toks) 0).2 (toks.count tok_bar) (toks.count tok_bar + 1) 0 0 i
      (by omega)
    rw [Nat.zero_add] at h
    refine ⟨_, h, rfl, ?_, ?_, rfl, ?_⟩
    · simp only [child_of, read_end]
    · simp only [child_of, write_end]
    · simp only [Child.calls, child_of, read_end, write_end]
      by_cases h1 : 0 < i <;> by_cases h2 : i < toks.count tok_bar <;> simp [h1, h2]
  · intro i hi
    obtain ⟨cs1, h⟩ := fork_loop_get (find_pipes (args_of toks) 0).1
      (find_pipes (args_of toks) 0).2 (toks.count tok_bar) (toks.count tok_bar + 1) 0 0 i
      (by omega)
    obtain ⟨cs2, h2⟩ := fork_loop_get (find_pipes (args_of toks) 0).1
      (find_pipes (args_of toks) 0).2 (toks.count tok_bar) (toks.count tok_bar + 1) 0 0
      (i + 1) (by omega)
    rw [Nat.zero_add] at h h2
    refine ⟨_, _, h, h2, ?_, ?_⟩
    · simp [child_of, write_end, hi]
    · simp [child_of, read_end]

/-- The wiring of the tokens `echo hi | cat | cat`. -/
theorem child_wiring_echo_cat_cat :
    ∃ children : List Child,
      execute_piped_commands (fun _ => true)
          (args_of [[101, 99, 104, 111], [104, 105], tok_bar, [99, 97, 116], tok_bar,
            [99, 97, 116]])
        = Piped.ran 2 children (List.range 4) 3 ∧
      children.map Child.stdin_from = [none, some 0, some 2] ∧
      children.map Child.stdout_to = [some 1, some 3, none] := by
  obtain ⟨children, h1, _, _, _⟩ :=
    child_wiring_within_cap (fun _ => true)
      [[101, 99, 104, 111], [104, 105], tok_bar, [99, 97, 116], tok_bar, [99, 97, 116]]
      (by decide) (by decide) (fun _ => rfl)
  have h2 : execute_piped_commands (fun _ => true)
      (args_of [[101, 99, 104, 111], [104, 105], tok_bar, [99, 97, 116], tok_bar,
        [99, 97, 116]])
        = Piped.ran 2
            [{ stage := 0, stdin_from := none, stdout_to := some 1, closed := [0, 1, 2, 3],
               argv := [[101, 99, 104, 111], [104, 105]] },
             { stage := 1, stdin_from := some 0, stdout_to := some 3, closed := [0, 1, 2, 3],
               argv := [[99, 97, 116]] },
             { stage := 2, stdin_from := some 2, stdout_to := none, closed := [0, 1, 2, 3],
               argv := [[99, 97, 116]] }]
            (List.range 4) 3 := by
    decide
  rw [h2] at h1
  injection h1 with _ hc _ _
  subst hc
  exact ⟨_, h2, rfl, rfl⟩

/-- C14 at its failing input: for the tokens `a | b | c` with the first `pipe`
call succeeding and the second failing, `execute_piped_commands` returns 1 while
the two descriptors of the first pipe are still open in the parent: it closed
none. -/
theorem C14_failed_pipe_leaks_descriptors :
    execute_piped_commands (fun i => i == 0) (args_of [[97], tok_bar, [98], tok_bar, [99]])
      = Piped.pipe_failed 1 ∧
    (execute_piped_commands (fun i => i == 0)
      (args_of [[97], tok_bar, [98], tok_bar, [99]])).opened = [0, 1] ∧
    (execute_piped_commands (fun i => i == 0)
      (args_of [[97], tok_bar, [98], tok_bar, [99]])).closed_by_parent = [] ∧
    (execute_piped_commands (fun i => i == 0)
      (args_of [[97], tok_bar, [98], tok_bar, [99]])).ret = some 1 := by
  refine ⟨by decide, by decide, by decide, by decide⟩

/-! ## Argument vectors that reach `execvp` -/

/-- C16 at its failing inputs: for the tokens `ls |` the second stage is empty
and its child reaches `execvp` with an empty vector (`args[cmd_start]` is NULL);
for the tokens `< f` (with `f` readable) the single child is forked and reaches
`execvp` with an empty vector. -/
theorem C16_empty_argv_reaches_exec :
    execute_command (fun _ => true) true [[108, 115], tok_bar]
      = Executed.piped (Piped.ran 1
          [{ stage := 0, stdin_from := none, stdout_to := some 1, closed := [0, 1],
             argv := [[108, 115]] },
           { stage := 1, stdin_from := some 0, stdout_to := none, closed := [0, 1],
             argv := [] }]
          [0, 1] 2) ∧
    run_child { can_read := fun _ => true, can_write := fun _ => true } []
      = ChildEnd.exec [] [] ∧
    execute_command (fun _ => true) true [tok_lt, [102]]
      = Executed.external [tok_lt, [102]] ∧
    run_child { can_read := fun _ => true, can_write := fun _ => true } [tok_lt, [102]]
      = ChildEnd.exec [] [Redir.stdin_from [102]] := by
  refine ⟨by decide, by decide, by decide, by decide⟩

theorem takeWhile_ne_nil_iff (p : CStr → Bool) (l : List CStr) :
    l.takeWhile p ≠ [] ↔ ∃ t rest, l = t :: rest ∧ p t = true := by
  cases l with
  | nil => simp
  | cons a l1 =>
    by_cases h : p a = true
    · simp [List.takeWhile_cons, h]
    · simp [List.takeWhile_cons, h]

/-- Whenever a stage reaches `execvp` (`handle_redirection` returned), its
argument vector is non-empty exactly when the stage has a first token and that
token is neither `"<"` nor `">"`. Only the whole token sequence is tested for
emptiness: with no token `execute_command` returns without forking. -/
theorem exec_argv_nonempty_iff (fs : Files) (stage : List CStr)
    (a : List (Option CStr)) (r : List Redir)
    (h : handle_redirection fs stage = Redirected.ok a r) :
    run_child fs stage = ChildEnd.exec (exec_argv a) r ∧
    (exec_argv a ≠ [] ↔ ∃ t rest, stage = t :: rest ∧ t ≠ tok_lt ∧ t ≠ tok_gt) ∧
    (∀ (pipe_ok : Nat → Bool) (fork_ok : Bool),
      execute_command pipe_ok fork_ok [] = Executed.empty) := by
  refine ⟨by simp only [run_child, h], ?_, fun _ _ => rfl⟩
  rw [handle_redirection_argv fs stage a r h, takeWhile_ne_nil_iff]
  constructor
  · rintro ⟨t, rest, e, hp⟩
    refine ⟨t, rest, e, ?_⟩
    simpa using hp
  · rintro ⟨t, rest, e, h1, h2⟩
    exact ⟨t, rest, e, by simp [h1, h2]⟩

/-! ## Return value of `execute_command` -/

theorem find_builtin_cases (t : CStr) :
    (t = [99, 100] ∧ find_builtin t builtin_names 0 = some 0) ∨
    (t = [101, 120, 105, 116] ∧ find_builtin t builtin_names 0 = some 1) ∨
    (t = [104, 101, 108, 112] ∧ find_builtin t builtin_names 0 = some 2) ∨
    (t ≠ [101, 120, 105, 116] ∧ find_builtin t builtin_names 0 = none) := by
  by_cases h1 : t = [99, 100]
  · left
    subst h1
    exact ⟨rfl, by decide⟩
  · by_cases h2 : t = [101, 120, 105, 116]
    · right
      left
      subst h2
      exact ⟨rfl, by decide⟩
    · by_cases h3 : t = [104, 101, 108, 112]
      · right
        right
        left
        subst h3
        exact ⟨rfl, by decide⟩
      · right
        right
        right
        refine ⟨h2, ?_⟩
        simp [find_builtin, builtin_names, h1, h2, h3]

theorem execute_piped_not_overflow (pipe_ok : Nat → Bool) (toks : List CStr)
    (hk : toks.count tok_bar ≤ MAX_PIPES) :
    execute_piped_commands pipe_ok (args_of toks) ≠ Piped.overflow := by
  have fp := find_pipes_stages toks []
  simp only [List.length_nil, List.nil_append] at fp
  have hlen := fp.2
  have hover : ¬ toks.count tok_bar > MAX_PIPES := by omega
  simp only [execute_piped_commands, hlen, hover, if_false]
  split
  · simp
  · split <;> simp

theorem ret_unbuilt_ne_zero (p : Piped) (fork_ok : Bool) (toks : List CStr) :
    (match p with
      | Piped.no_pipes => if fork_ok then Executed.external toks else Executed.fork_failed
      | p => Executed.piped p).ret ≠ some 0 := by
  cases p <;> cases fork_ok <;> simp [Executed.ret]

theorem ret_unbuilt_eq_one (p : Piped) (fork_ok : Bool) (toks : List CStr)
    (hp : p ≠ Piped.overflow) :
    (match p with
      | Piped.no_pipes => if fork_ok then Executed.external toks else Executed.fork_failed
      | p => Executed.piped p).ret = some 1 := by
  cases p <;> cases fork_ok <;> simp [Executed.ret] at hp ⊢

/-- Status of `execute_command` when `pipe_positions` is not overrun. For every
token sequence, `execute_command` returns 0 if and only if the
first token is `exit`, and 0 is the one status that stops `shell_loop`; when the
first token is not `exit` and there are at most `MAX_PIPES` tokens `"|"`, it
returns 1, whether the sequence is empty, starts with `cd` or `help`, is a
pipeline (whatever `pipe` calls fail) or an external command (whether or not
`fork` succeeds). -/
theorem execute_command_status_within_cap (pipe_ok : Nat → Bool) (fork_ok : Bool)
    (toks : List CStr) :
    ((execute_command pipe_ok fork_ok toks).ret = some 0 ↔
      toks.head? = some [101, 120, 105, 116]) ∧
    (toks.count tok_bar ≤ MAX_PIPES → toks.head? ≠ some [101, 120, 105, 116] →
      (execute_command pipe_ok fork_ok toks).ret = some 1) ∧
    (∀ status : Int, shell_loop_continues status = false ↔ status = 0) := by
  refine ⟨?_, ?_, ?_⟩
  · cases toks with
    | nil => simp [execute_command, Executed.ret]
    | cons t rest =>
      rcases find_builtin_cases t with ⟨h, hf⟩ | ⟨h, hf⟩ | ⟨h, hf⟩ | ⟨h, hf⟩
      · subst h
        simp [execute_command, hf, Executed.ret, builtin_rets]
      · subst h
        simp [execute_command, hf, Executed.ret, builtin_rets]
      · subst h
        simp [execute_command, hf, Executed.ret, builtin_rets]
      · simp only [execute_command, hf, List.head?_cons, Option.some.injEq]
        constructor
        · intro h0
          exact absurd h0 (ret_unbuilt_ne_zero _ fork_ok (t :: rest))
        · intro h0
          exact absurd h0 h
  · intro hk hne
    cases toks with
    | nil => rfl
    | cons t rest =>
      rcases find_builtin_cases t with ⟨h, hf⟩ | ⟨h, hf⟩ | ⟨h, hf⟩ | ⟨h, hf⟩
      · subst h
        simp [execute_command, hf, Executed.ret, builtin_rets]
      · subst h
        simp at hne
      · subst h
        simp [execute_command, hf, Executed.ret, builtin_rets]
      · simp only [execute_command, hf]
        exact ret_unbuilt_eq_one _ fork_ok (t :: rest)
          (execute_piped_not_overflow pipe_ok (t :: rest) hk)
  · intro status
    simp [shell_loop_continues]

/-- The status for the tokens `ls | wc` with the `pipe` call failing. -/
theorem execute_command_status_ls_wc :
    (execute_command (fun _ => false) true [[108, 115], tok_bar, [119, 99]]).ret = some 1 :=
  (execute_command_status_within_cap (fun _ => false) true
    [[108, 115], tok_bar, [119, 99]]).2.1 (by decide) (by decide)

/-- C20. For every buffer and cursor with `0 ≤ cursor ≤ len`, the word the editor
hands to `get_completions` on Tab holds no whitespace byte, so the `has_space`
test is false; and for every word without whitespace `get_completions` ends in
`get_file_completions` exactly when the word is empty or starts with `.`, `/`
or `~`, and in `get_command_completions` otherwise, wherever the word stands in
the line. -/
theorem C20_completion_engine_choice (cmdc filec : CStr → List CStr) (s : Editor)
    (h0 : 0 ≤ s.cursor) (h1 : s.cursor ≤ s.len) :
    (∀ b ∈ tab_word (poke s.input s.len.toNat 0) (word_start s) s.cursor,
      isspace b = false) ∧
    has_space (tab_word (poke s.input s.len.toNat 0) (word_start s) s.cursor) = false ∧
    (∀ w : CStr, has_space w = false →
      get_completions_call w
        = (if w = [] ∨ w.head? = some 46 ∨ w.head? = some 47 ∨ w.head? = some 126
           then EngineCall.file_completions w else EngineCall.command_completions w) ∧
      get_completions cmdc filec w
        = (if w = [] ∨ w.head? = some 46 ∨ w.head? = some 47 ∨ w.head? = some 126
           then filec w else cmdc w)) := by
  have hword : ∀ b ∈ tab_word (poke s.input s.len.toNat 0) (word_start s) s.cursor,
      isspace b = false := by
    rcases s with ⟨m, cur, len, t⟩
    simp only at h0 h1 ⊢
    obtain ⟨k, rfl⟩ := Int.eq_ofNat_of_zero_le h0
    obtain ⟨n, rfl⟩ := Int.eq_ofNat_of_zero_le (le_trans h0 h1)
    have hkn : k ≤ n := by omega
    obtain ⟨w, hw, hwk, hns, _⟩ := word_start_spec m k n t hkn
    rw [hw]
    intro b hb
    simp only [tab_word, Int.toNat_ofNat] at hb
    have hb1 := (List.takeWhile_prefix (fun b => b != 0)).subset hb
    simp only [slice, List.mem_map, List.mem_range] at hb1
    obtain ⟨i, hi, rfl⟩ := hb1
    have hne : w + i ≠ n := by omega
    simp only [poke, hne, if_false]
    exact hns (w + i) (by omega) (by omega)
  refine ⟨hword, ?_, ?_⟩
  · simp only [has_space, List.any_eq_false]
    intro b hb
    simp [hword b hb]
  · intro w hs
    have hcall : get_completions_call w
        = (if w = [] ∨ w.head? = some 46 ∨ w.head? = some 47 ∨ w.head? = some 126
           then EngineCall.file_completions w else EngineCall.command_completions w) := by
      cases w with
      | nil => simp [get_completions_call]
      | cons a w1 => simp [get_completions_call, hs]
    refine ⟨hcall, ?_⟩
    simp only [get_completions, hcall]
    by_cases hc : w = [] ∨ w.head? = some 46 ∨ w.head? = some 47 ∨ w.head? = some 126
    · rw [if_pos hc, if_pos hc]
    · rw [if_neg hc, if_neg hc]

/-- Witness for C20: the buffer `ls ec` with the cursor at its end; the word is
`ec`, not the first word of the line. -/
theorem C20_completion_engine_choice_witness :
    has_space (tab_word (poke (strcpy (fun _ => 0) [108, 115, 32, 101, 99]) (5 : Int).toNat 0)
      (word_start { input := strcpy (fun _ => 0) [108, 115, 32, 101, 99], cursor := 5,
                    len := 5, temp_history_index := 0 }) 5) = false :=
  (C20_completion_engine_choice (fun _ => []) (fun _ => [])
    { input := strcpy (fun _ => 0) [108, 115, 32, 101, 99], cursor := 5, len := 5,
      temp_history_index := 0 } (by decide) (by decide)).2.1

/-! ## Insert followed by Backspace -/

theorem insert_backspace_content (m : Nat → Nat) (k n c : Nat) (hkn : k ≤ n) :
    slice (poke (memmove (poke (poke (memmove m (k + 1) k (n - k)) k c) (n + 1) 0)
        k (k + 1) (n - k)) n 0) 0 n = slice m 0 n := by
  apply slice_eq _ (slice m 0 n) n (by simp [slice_length])
  intro i hi
  simp only [slice_length, Nat.sub_zero] at hi
  rw [slice_getD m 0 n i (by omega), Nat.zero_add]
  simp only [poke, memmove]
  have e0 : i ≠ n := by omega
  rw [if_neg e0]
  by_cases h1 : i < k
  · have e1 : ¬ (k ≤ i ∧ i < k + (n - k)) := by omega
    have e2 : i ≠ n + 1 := by omega
    have e3 : i ≠ k := by omega
    have e4 : ¬ (k + 1 ≤ i ∧ i < k + 1 + (n - k)) := by omega
    rw [if_neg e1, if_neg e2, if_neg e3, if_neg e4]
  · have e1 : k ≤ i ∧ i < k + (n - k) := by omega
    have e2 : k + 1 + (i - k) ≠ n + 1 := by omega
    have e3 : k + 1 + (i - k) ≠ k := by omega
    have e4 : k + 1 ≤ k + 1 + (i - k) ∧ k + 1 + (i - k) < k + 1 + (n - k) := by omega
    rw [if_pos e1, if_neg e2, if_neg e3, if_pos e4]
    congr 1
    omega

/-- C22. For every editor state with `0 ≤ cursor ≤ len < MAX_INPUT - 1` and every
printable byte `c`, the loop runs the insert handler on `c` and the Backspace
handler on the byte 127 (or 8), and the state after both has the original `len`
and `cursor`, the original `len` bytes of buffer contents, a terminator at `len`,
and the original navigation index. -/
theorem C22_backspace_undoes_insert (gc : CStr → List CStr) (g : Globals) (s : Editor)
    (c : Nat) (rest : List Nat) (fuel : Nat)
    (h0 : 0 ≤ s.cursor) (h1 : s.cursor ≤ s.len) (h2 : s.len < (MAX_INPUT : Int) - 1)
    (hc : 32 ≤ c ∧ c ≤ 126) :
    run gc g (fuel + 2) s (c :: 127 :: rest)
      = run gc g fuel (backspace (insert_char s c)) rest ∧
    run gc g (fuel + 2) s (c :: 8 :: rest)
      = run gc g fuel (backspace (insert_char s c)) rest ∧
    (backspace (insert_char s c)).len = s.len ∧
    (backspace (insert_char s c)).cursor = s.cursor ∧
    slice (backspace (insert_char s c)).input 0 s.len.toNat = slice s.input 0 s.len.toNat ∧
    (backspace (insert_char s c)).input s.len.toNat = 0 ∧
    (backspace (insert_char s c)).temp_history_index = s.temp_history_index := by
  have it1 : ∀ r : List Nat, iteration gc g s (c :: r) = Step.cont (insert_char s c) r :=
    fun r => iteration_key gc g s (Key.char c) hc r
  have it2 : iteration gc g (insert_char s c) (127 :: rest)
      = Step.cont (backspace (insert_char s c)) rest :=
    iteration_key gc g (insert_char s c) Key.backspace trivial rest
  have it3 : iteration gc g (insert_char s c) (8 :: rest)
      = Step.cont (backspace (insert_char s c)) rest :=
    iteration_key gc g (insert_char s c) Key.ctrl_h trivial rest
  refine ⟨by simp only [run, it1, it2], by simp only [run, it1, it3], ?_⟩
  rcases s with ⟨m, cur, len, t⟩
  simp only at h0 h1 h2 ⊢
  obtain ⟨k, rfl⟩ := Int.eq_ofNat_of_zero_le h0
  obtain ⟨n, rfl⟩ := Int.eq_ofNat_of_zero_le (le_trans h0 h1)
  have hkn : k ≤ n := by omega
  have e1 : ((k : Int) + 1).toNat = k + 1 := by omega
  have e2 : ((n : Int) - (k : Int)).toNat = n - k := by omega
  have e3 : ((n : Int) + 1).toNat = n + 1 := by omega
  have p1 : (k : Int) + 1 > 0 := by omega
  have e4 : ((k : Int) + 1 - 1).toNat = k := by omega
  have e5 : ((n : Int) + 1 - ((k : Int) + 1)).toNat = n - k := by omega
  have e6 : ((n : Int) + 1 - 1).toNat = n := by omega
  simp only [insert_char, h2, if_true, backspace, p1, Int.toNat_ofNat, e1, e2, e3, e4, e5, e6]
  refine ⟨by omega, by omega, insert_backspace_content m k n c hkn, ?_, trivial⟩
  simp [poke]

/-- Witness for C22: the buffer `ac` with the cursor at 1, the byte `b`. -/
theorem C22_backspace_undoes_insert_witness :
    (backspace (insert_char
      { input := strcpy (fun _ => 0) [97, 99], cursor := 1, len := 2, temp_history_index := 0 }
      98)).len = 2 :=
  (C22_backspace_undoes_insert (fun _ => []) empty_history
    { input := strcpy (fun _ => 0) [97, 99], cursor := 1, len := 2, temp_history_index := 0 }
    98 [] 0 (by decide) (by decide) (by decide) (by decide)).2.2.1

/-! ## Arithmetic lines -/

theorem arith_scan_spec (l : CStr) (d o : Bool) :
    ((∀ b ∈ l, arith_byte b) ∧
      ∃ d1 o1 : Bool, arith_scan l d o = some (d1, o1) ∧
        (d1 = true ↔ d = true ∨ ∃ b ∈ l, digit_byte b) ∧
        (o1 = true ↔ o = true ∨ ∃ b ∈ l, operator_byte b)) ∨
    ((∃ b ∈ l, ¬ arith_byte b) ∧ arith_scan l d o = none) := by
  induction l generalizing d o with
  | nil =>
    left
    exact ⟨by simp, d, o, rfl, by simp, by simp⟩
  | cons b rest ih =>
    unfold arith_scan
    by_cases c1 : isdigit b = true ∨ b = 46
    · rw [if_pos c1]
      have hd : digit_byte b := by
        simp only [isdigit, Bool.and_eq_true, decide_eq_true_eq] at c1
        exact c1
      have ha : arith_byte b := by
        unfold digit_byte at hd
        unfold arith_byte
        omega
      have ho : ¬ operator_byte b := by
        unfold digit_byte at hd
        unfold operator_byte
        omega
      rcases ih true o with ⟨h1, d1, o1, e, hd1, ho1⟩ | ⟨h1, e⟩
      · left
        refine ⟨?_, d1, o1, e, ?_, ?_⟩
        · intro x hx
          rcases List.mem_cons.mp hx with rfl | hx
          · exact ha
          · exact h1 x hx
        · constructor
          · intro _
            exact Or.inr ⟨b, List.mem_cons_self _ _, hd⟩
          · intro _
            exact hd1.mpr (Or.inl rfl)
        · constructor
          · intro h
            rcases ho1.mp h with h | ⟨x, hx, hp⟩
            · exact Or.inl h
            · exact Or.inr ⟨x, List.mem_cons_of_mem _ hx, hp⟩
          · intro h
            rcases h with h | ⟨x, hx, hp⟩
            · exact ho1.mpr (Or.inl h)
            · rcases List.mem_cons.mp hx with rfl | hx
              · exact absurd hp ho
              · exact ho1.mpr (Or.inr ⟨x, hx, hp⟩)
      · right
        obtain ⟨x, hx, hp⟩ := h1
        exact ⟨⟨x, List.mem_cons_of_mem _ hx, hp⟩, e⟩
    · rw [if_neg c1]
      have hnd : ¬ digit_byte b := by
        simp only [isdigit, Bool.and_eq_true, decide_eq_true_eq] at c1
        exact c1
      by_cases c2 : b = 43 ∨ b = 45 ∨ b = 42 ∨ b = 47 ∨ b = 37 ∨ b = 40 ∨ b = 41 ∨ b = 32 ∨ b = 94
      · rw [if_pos c2]
        have ha : arith_byte b := by
          unfold arith_byte
          omega
        by_cases c3 : b ≠ 32 ∧ b ≠ 40 ∧ b ≠ 41
        · rw [if_pos c3]
          have ho : operator_byte b := by
            unfold operator_byte
            omega
          rcases ih d true with ⟨h1, d1, o1, e, hd1, ho1⟩ | ⟨h1, e⟩
          · left
            refine ⟨?_, d1, o1, e, ?_, ?_⟩
            · intro x hx
              rcases List.mem_cons.mp hx with rfl | hx
              · exact ha
              · exact h1 x hx
            · constructor
              · intro h
                rcases hd1.mp h with h | ⟨x, hx, hp⟩
                · exact Or.inl h
                · exact Or.inr ⟨x, List.mem_cons_of_mem _ hx, hp⟩
              · intro h
                rcases h with h | ⟨x, hx, hp⟩
                · exact hd1.mpr (Or.inl h)
                · rcases List.mem_cons.mp hx with rfl | hx
                  · exact absurd hp hnd
                  · exact hd1.mpr (Or.inr ⟨x, hx, hp⟩)
            · constructor
              · intro _
                exact Or.inr ⟨b, List.mem_cons_self _ _, ho⟩
              · intro _
                exact ho1.mpr (Or.inl rfl)
          · right
            obtain ⟨x, hx, hp⟩ := h1
            exact ⟨⟨x, List.mem_cons_of_mem _ hx, hp⟩, e⟩
        · rw [if_neg c3]
          have ho : ¬ operator_byte b := by
            unfold operator_byte
            omega
          rcases ih d o with ⟨h1, d1, o1, e, hd1, ho1⟩ | ⟨h1, e⟩
          · left
            refine ⟨?_, d1, o1, e, ?_, ?_⟩
            · intro x hx
              rcases List.mem_cons.mp hx with rfl | hx
              · exact ha
              · exact h1 x hx
            · constructor
              · intro h
                rcases hd1.mp h with h | ⟨x, hx, hp⟩
                · exact Or.inl h
                · exact Or.inr ⟨x, List.mem_cons_of_mem _ hx, hp⟩
              · intro h
                rcases h with h | ⟨x, hx, hp⟩
                · exact hd1.mpr (Or.inl h)
                · rcases List.mem_cons.mp hx with rfl | hx
                  · exact absurd hp hnd
                  · exact hd1.mpr (Or.inr ⟨x, hx, hp⟩)
            · constructor
              · intro h
                rcases ho1.mp h with h | ⟨x, hx, hp⟩
                · exact Or.inl h
                · exact Or.inr ⟨x, List.mem_cons_of_mem _ hx, hp⟩
              · intro h
                rcases h with h | ⟨x, hx, hp⟩
                · exact ho1.mpr (Or.inl h)
                · rcases List.mem_cons.mp hx with rfl | hx
                  · exact absurd hp ho
                  · exact ho1.mpr (Or.inr ⟨x, hx, hp⟩)
          · right
            obtain ⟨x, hx, hp⟩ := h1
            exact ⟨⟨x, List.mem_cons_of_mem _ hx, hp⟩, e⟩
      · rw [if_neg c2]
        right
        refine ⟨⟨b, List.mem_cons_self _ _, ?_⟩, rfl⟩
        unfold arith_byte
        unfold digit_byte at hnd
        omega

theorem is_arithmetic_iff (line : CStr) :
    is_arithmetic_expression (some line) = true ↔
      line ≠ [] ∧ (∀ b ∈ line, arith_byte b) ∧ (∃ b ∈ line, digit_byte b) ∧
        (∃ b ∈ line, operator_byte b) := by
  cases line with
  | nil => simp [is_arithmetic_expression]
  | cons a l =>
    have hlen : ¬ (a :: l).length = 0 := by simp
    simp only [is_arithmetic_expression, hlen, if_false]
    rcases arith_scan_spec (a :: l) false false with ⟨h1, d1, o1, e, hd1, ho1⟩ | ⟨h1, e⟩
    · rw [e]
      simp only [Bool.and_eq_true, hd1, ho1, Bool.false_eq_true, false_or]
      constructor
      · rintro ⟨h2, h3⟩
        exact ⟨by simp, h1, h2, h3⟩
      · rintro ⟨_, _, h2, h3⟩
        exact ⟨h2, h3⟩
    · rw [e]
      simp only [Bool.false_eq_true, false_iff]
      rintro ⟨_, h2, _, _⟩
      obtain ⟨x, hx, hp⟩ := h1
      exact hp (h2 x hx)

/-- C24. For every line, `is_arithmetic_expression` returns true if and only if
the line is non-empty, every byte is a digit, `.`, one of `+ - * / % ^`, a
parenthesis or a space, some byte is a digit or `.`, and some byte is one of
`+ - * / % ^` (a NULL line gives false). Hence `shell_loop` hands every line
holding a letter to `parse_input` and `execute_command`, and hands the line `./`
to the evaluator, not to `execute_command`. -/
theorem C24_arithmetic_line_test (line : CStr) :
    (is_arithmetic_expression (some line) = true ↔
      line ≠ [] ∧ (∀ b ∈ line, arith_byte b) ∧ (∃ b ∈ line, digit_byte b) ∧
        (∃ b ∈ line, operator_byte b)) ∧
    is_arithmetic_expression none = false ∧
    ((∃ b ∈ line, isalpha b = true) →
      shell_dispatch line = LineAction.run_command (parse_input line)) ∧
    shell_dispatch [46, 47] = LineAction.evaluate [46, 47] := by
  refine ⟨is_arithmetic_iff line, rfl, ?_, by decide⟩
  rintro ⟨b, hb, hal⟩
  have hn : ¬ is_arithmetic_expression (some line) = true := by
    rw [is_arithmetic_iff]
    rintro ⟨_, h2, _, _⟩
    have ha := h2 b hb
    simp only [isalpha, Bool.or_eq_true, Bool.and_eq_true, decide_eq_true_eq] at hal
    unfold arith_byte at ha
    omega
  unfold shell_dispatch
  rw [if_neg hn]

/-- Witness for C24: the line `ls` holds a letter and goes to the tokenizer. -/
theorem C24_arithmetic_line_test_witness :
    shell_dispatch [108, 115] = LineAction.run_command (parse_input [108, 115]) :=
  (C24_arithmetic_line_test [108, 115]).2.2.1 ⟨108, by decide, by decide⟩

/-! ## Range of the navigation index -/

theorem insert_char_index (s : Editor) (c : Nat) :
    (insert_char s c).temp_history_index = s.temp_history_index := by
  unfold insert_char
  split <;> rfl

theorem backspace_index (s : Editor) :
    (backspace s).temp_history_index = s.temp_history_index := by
  unfold backspace
  split <;> rfl

theorem arrow_left_index (s : Editor) :
    (arrow_left s).temp_history_index = s.temp_history_index := by
  unfold arrow_left
  split <;> rfl

theorem arrow_right_index (s : Editor) :
    (arrow_right s).temp_history_index = s.temp_history_index := by
  unfold arrow_right
  split <;> rfl

theorem tab_index (gc : CStr → List CStr) (s : Editor) :
    (tab gc s).temp_history_index = s.temp_history_index := by
  simp only [tab]
  split <;> (try split_ifs) <;> rfl

theorem arrow_up_index (g : Globals) (s : Editor) (h0 : 0 ≤ s.temp_history_index)
    (h1 : s.temp_history_index ≤ g.history_count) :
    0 ≤ (arrow_up g s).temp_history_index ∧
      (arrow_up g s).temp_history_index ≤ g.history_count := by
  unfold arrow_up
  split
  · simp only
    omega
  · exact ⟨h0, h1⟩

theorem arrow_down_index (g : Globals) (s : Editor) (h0 : 0 ≤ s.temp_history_index)
    (h1 : s.temp_history_index ≤ g.history_count) :
    0 ≤ (arrow_down g s).temp_history_index ∧
      (arrow_down g s).temp_history_index ≤ g.history_count := by
  unfold arrow_down
  split
  · simp only
    omega
  · split
    · simp only
      omega
    · exact ⟨h0, h1⟩

theorem extended_sequence_index (s s1 : Editor) (bytes rest : List Nat)
    (h : extended_sequence s bytes = Step.cont s1 rest) :
    s1.temp_history_index = s.temp_history_index := by
  rcases bytes with _ | ⟨b2, _ | ⟨b3, _ | ⟨b4, rest5⟩⟩⟩
  · cases h
  · simp only [extended_sequence] at h
    split_ifs at h
    simp only [Step.cont.injEq] at h
    obtain ⟨rfl, _⟩ := h
    rfl
  · simp only [extended_sequence] at h
    split_ifs at h
    simp only [Step.cont.injEq] at h
    obtain ⟨rfl, _⟩ := h
    rfl
  · simp only [extended_sequence] at h
    split_ifs at h <;>
      (simp only [Step.cont.injEq] at h
       obtain ⟨rfl, _⟩ := h
       rfl)

theorem escape_sequence_index (g : Globals) (s s1 : Editor) (bytes rest : List Nat)
    (h0 : 0 ≤ s.temp_history_index) (h1 : s.temp_history_index ≤ g.history_count)
    (h : escape_sequence g s bytes = Step.cont s1 rest) :
    0 ≤ s1.temp_history_index ∧ s1.temp_history_index ≤ g.history_count := by
  rcases bytes with _ | ⟨b0, _ | ⟨b1, rest2⟩⟩
  · cases h
  · cases h
  · simp only [escape_sequence] at h
    split_ifs at h <;>
      first
        | (simp only [Step.cont.injEq] at h
           obtain ⟨rfl, _⟩ := h
           first
             | exact arrow_up_index g s h0 h1
             | exact arrow_down_index g s h0 h1
             | exact ⟨(arrow_right_index s).symm ▸ h0, (arrow_right_index s).symm ▸ h1⟩
             | exact ⟨(arrow_left_index s).symm ▸ h0, (arrow_left_index s).symm ▸ h1⟩)
        | exact ⟨(extended_sequence_index s s1 rest2 rest h).symm ▸ h0,
            (extended_sequence_index s s1 rest2 rest h).symm ▸ h1⟩

theorem iteration_index (gc : CStr → List CStr) (g : Globals) (s s1 : Editor)
    (bytes rest : List Nat)
    (h0 : 0 ≤ s.temp_history_index) (h1 : s.temp_history_index ≤ g.history_count)
    (h : iteration gc g s bytes = Step.cont s1 rest) :
    0 ≤ s1.temp_history_index ∧ s1.temp_history_index ≤ g.history_count := by
  rcases bytes with _ | ⟨c, rest0⟩
  · cases h
  · simp only [iteration] at h
    split_ifs at h <;>
      first
        | exact escape_sequence_index g s s1 rest0 rest h0 h1 h
        | (simp only [Step.cont.injEq] at h
           obtain ⟨rfl, _⟩ := h
           first
             | exact ⟨(tab_index gc s).symm ▸ h0, (tab_index gc s).symm ▸ h1⟩
             | exact ⟨(backspace_index s).symm ▸ h0, (backspace_index s).symm ▸ h1⟩
             | exact ⟨(insert_char_index s c).symm ▸ h0, (insert_char_index s c).symm ▸ h1⟩)

theorem reaches_index (gc : CStr → List CStr) (g : Globals) (s0 s : Editor)
    (h0 : 0 ≤ s0.temp_history_index) (h1 : s0.temp_history_index ≤ g.history_count)
    (hr : Reaches gc g s0 s) :
    0 ≤ s.temp_history_index ∧ s.temp_history_index ≤ g.history_count := by
  induction hr with
  | start => exact ⟨h0, h1⟩
  | pass s1 s2 bytes rest _ hp ih => exact iteration_index gc g s1 s2 bytes rest ih.1 ih.2 hp

theorem add_to_history_index (g : Globals) (cmd : Option CStr)
    (hidx : g.history_index = g.history_count) (hc : 0 ≤ g.history_count) :
    (add_to_history g cmd).history_index = (add_to_history g cmd).history_count ∧
      0 ≤ (add_to_history g cmd).history_count := by
  cases cmd with
  | none => exact ⟨hidx, hc⟩
  | some c =>
    simp only [add_to_history]
    split_ifs
    · exact ⟨hidx, hc⟩
    · exact ⟨hidx, hc⟩
    · exact ⟨rfl, show 0 ≤ g.history_count + 1 by omega⟩
    · exact ⟨rfl, hc⟩

theorem load_loop_count (chunks : List CStr) (g : Globals) (hc : 0 ≤ g.history_count) :
    0 ≤ (load_loop chunks g).history_count := by
  induction chunks generalizing g with
  | nil => exact hc
  | cons ln rest ih =>
    unfold load_loop
    split
    · split
      · exact ih _ (by simp only; omega)
      · exact ih g hc
    · exact hc

/-- C23. When `history_index = history_count` (and the count is not negative) at
the start of an editing session, then in every state the loop can reach, whatever
bytes arrive, `0 ≤ temp_history_index ≤ history_count`, and every slot of
`history` that a pass reads has an index `j` with `0 ≤ j < history_count`. Both
`add_to_history` and `load_history_from_file` keep `history_index = history_count`
and a non-negative count. -/
theorem C23_navigation_index_in_range (gc : CStr → List CStr) (g : Globals)
    (heap : Nat → Nat) (s : Editor) (bytes : List Nat)
    (hidx : g.history_index = g.history_count) (hc : 0 ≤ g.history_count)
    (hr : Reaches gc g (init_editor g heap) s) :
    0 ≤ s.temp_history_index ∧ s.temp_history_index ≤ g.history_count ∧
    (∀ j, history_read g s bytes = some j → 0 ≤ j ∧ j < g.history_count) ∧
    (∀ cmd, (add_to_history g cmd).history_index = (add_to_history g cmd).history_count ∧
      0 ≤ (add_to_history g cmd).history_count) ∧
    (∀ file, (load_history_from_file g file).history_index
        = (load_history_from_file g file).history_count ∧
      0 ≤ (load_history_from_file g file).history_count) := by
  have hinit0 : 0 ≤ (init_editor g heap).temp_history_index := by
    simp only [init_editor, hidx]
    exact hc
  have hinit1 : (init_editor g heap).temp_history_index ≤ g.history_count := by
    simp only [init_editor, hidx]
    exact le_refl _
  have hinv := reaches_index gc g (init_editor g heap) s hinit0 hinit1 hr
  refine ⟨hinv.1, hinv.2, ?_, fun cmd => add_to_history_index g cmd hidx hc, ?_⟩
  · intro j hj
    rcases bytes with _ | ⟨c, _ | ⟨b0, _ | ⟨b1, rest⟩⟩⟩
    · cases hj
    · cases hj
    · cases hj
    · simp only [history_read] at hj
      split_ifs at hj <;>
        (simp only [Option.some.injEq] at hj
         omega)
  · intro file
    cases file with
    | none => exact ⟨hidx, hc⟩
    | some chunks => exact ⟨rfl, load_loop_count chunks g hc⟩

/-- Witness for C23: the entries `a`, `b` and the state after ArrowUp. -/
theorem C23_navigation_index_in_range_witness :
    0 ≤ (arrow_up history_a_b (init_editor history_a_b (fun _ => 0))).temp_history_index :=
  (C23_navigation_index_in_range (fun _ => []) history_a_b (fun _ => 0)
    (arrow_up history_a_b (init_editor history_a_b (fun _ => 0))) []
    (by simp [history_a_b, empty_history, add_to_history, MAX_HISTORY, hist_set])
    (by simp [history_a_b, empty_history, add_to_history, MAX_HISTORY, hist_set])
    (Reaches.pass (init_editor history_a_b (fun _ => 0))
      (arrow_up history_a_b (init_editor history_a_b (fun _ => 0))) [27, 91, 65] []
      Reaches.start (by simp [iteration, escape_sequence]))).1

/-! ## Command completion -/

theorem strncmp_eq_iff (name part : CStr) (hz : ∀ b ∈ part, b ≠ 0) :
    strncmp_eq name part part.length = true ↔ part <+: name := by
  have e : (part ++ [0]).take part.length = part := List.take_left' rfl
  simp only [strncmp_eq, e, beq_iff_eq]
  constructor
  · intro h
    have h1 : part <+: name ++ [0] := by
      rw [← h]
      exact List.take_prefix _ _
    rcases List.prefix_concat_iff.mp h1 with h2 | h2
    · exfalso
      exact hz 0 (by rw [h2]; simp) rfl
    · exact h2
  · rintro ⟨t, rfl⟩
    rw [List.append_assoc]
    exact List.take_left' rfl

theorem builtin_matches_eq (part : CStr) (hz : ∀ b ∈ part, b ≠ 0) :
    builtin_matches part = builtin_names.filter (fun name => part.isPrefixOf name) := by
  unfold builtin_matches
  apply List.filter_congr
  intro x _
  rw [Bool.eq_iff_iff, strncmp_eq_iff x part hz, List.isPrefixOf_iff_prefix]

theorem add_matches_full (part : CStr) (l comps : List CStr)
    (h : ¬ comps.length < MAX_COMPLETIONS) : add_matches part l comps = comps := by
  cases l with
  | nil => rfl
  | cons e es => simp only [add_matches, h, if_false]

theorem add_matches_append (part : CStr) (l1 l2 comps : List CStr) :
    add_matches part (l1 ++ l2) comps = add_matches part l2 (add_matches part l1 comps) := by
  induction l1 generalizing comps with
  | nil => rfl
  | cons e es ih =>
    simp only [List.cons_append, add_matches]
    split
    · split
      · split
        · exact ih comps
        · exact ih _
      · exact ih comps
    · rename_i h
      exact (add_matches_full part l2 comps h).symm

theorem scan_path_eq (part : CStr) (dirs : List (Option (List CStr))) (comps : List CStr) :
    scan_path part dirs comps = add_matches part ((dirs.filterMap id).flatten) comps := by
  induction dirs generalizing comps with
  | nil => rfl
  | cons d ds ih =>
    unfold scan_path
    split
    · cases d with
      | none =>
        simp only [List.filterMap_cons, id]
        exact ih comps
      | some l =>
        simp only [List.filterMap_cons, id, List.flatten_cons]
        rw [add_matches_append]
        exact ih _
    · rename_i h
      exact (add_matches_full part _ comps h).symm

theorem filter_not_mem_snoc (X comps : List CStr) (e : CStr) :
    X.filter (fun y => decide (y ∉ comps ++ [e]))
      = (X.filter (fun y => decide (y ≠ e))).filter (fun y => decide (y ∉ comps)) := by
  rw [List.filter_filter]
  apply List.filter_congr
  intro y _
  by_cases h1 : y ∈ comps <;> by_cases h2 : y = e <;> simp [h1, h2]

theorem filter_not_mem_of_mem (X comps : List CStr) (e : CStr) (he : e ∈ comps) :
    (X.filter (fun y => decide (y ≠ e))).filter (fun y => decide (y ∉ comps))
      = X.filter (fun y => decide (y ∉ comps)) := by
  rw [List.filter_filter]
  apply List.filter_congr
  intro y _
  by_cases h1 : y ∈ comps
  · simp [h1]
  · have h2 : y ≠ e := fun h => h1 (h ▸ he)
    simp [h1, h2]

/-- The inner loop against the specification: the completions held, followed by
the first occurrences of the matching entries that are not yet held, cut at
`MAX_COMPLETIONS`. -/
theorem add_matches_spec (part : CStr) (hz : ∀ b ∈ part, b ≠ 0) (l comps : List CStr)
    (hlen : comps.length ≤ MAX_COMPLETIONS) :
    add_matches part l comps
      = (comps ++ (first_occurrences (l.filter (fun n => part.isPrefixOf n))).filter
            (fun y => decide (y ∉ comps))).take MAX_COMPLETIONS := by
  induction l generalizing comps with
  | nil =>
    simp only [add_matches, List.filter_nil, first_occurrences, List.append_nil]
    exact (List.take_of_length_le hlen).symm
  | cons e es ih =>
    unfold add_matches
    by_cases hfull : comps.length < MAX_COMPLETIONS
    · rw [if_pos hfull]
      by_cases hp : strncmp_eq e part part.length = true
      · have hp1 : part.isPrefixOf e = true :=
          List.isPrefixOf_iff_prefix.mpr ((strncmp_eq_iff e part hz).mp hp)
        rw [if_pos hp]
        simp only [List.filter_cons, hp1, if_true, first_occurrences]
        by_cases hm : e ∈ comps
        · rw [if_pos hm, ih comps hlen]
          have hd : decide (e ∉ comps) = false := by simp [hm]
          simp only [hd, Bool.false_eq_true, if_false]
          rw [filter_not_mem_of_mem _ comps e hm]
        · have hl : (comps ++ [e]).length ≤ MAX_COMPLETIONS := by
            rw [List.length_append, List.length_singleton]
            omega
          rw [if_neg hm, ih (comps ++ [e]) hl]
          have hd : decide (e ∉ comps) = true := by simp [hm]
          simp only [hd, if_true]
          rw [filter_not_mem_snoc, List.append_assoc, List.singleton_append]
      · have hp1 : ¬ part.isPrefixOf e = true := fun h =>
          hp ((strncmp_eq_iff e part hz).mpr (List.isPrefixOf_iff_prefix.mp h))
        have hp2 : part.isPrefixOf e = false := Bool.eq_false_iff.mpr hp1
        rw [if_neg hp, ih comps hlen]
        simp only [List.filter_cons, hp2, Bool.false_eq_true, if_false]
    · rw [if_neg hfull]
      exact (List.take_left' (by omega)).symm

theorem first_occurrences_subset (l : List CStr) : ∀ y ∈ first_occurrences l, y ∈ l := by
  induction l with
  | nil => simp [first_occurrences]
  | cons x xs ih =>
    intro y hy
    simp only [first_occurrences, List.mem_cons, List.mem_filter] at hy
    rcases hy with rfl | ⟨hy, _⟩
    · exact List.mem_cons_self _ _
    · exact List.mem_cons_of_mem _ (ih y hy)

theorem first_occurrences_nodup (l : List CStr) : (first_occurrences l).Nodup := by
  induction l with
  | nil => simp [first_occurrences]
  | cons x xs ih =>
    simp only [first_occurrences, List.nodup_cons, List.mem_filter]
    exact ⟨by simp, List.Nodup.filter _ ih⟩

theorem first_occurrences_mem (l : List CStr) : ∀ y ∈ l, y ∈ first_occurrences l := by
  induction l with
  | nil => simp
  | cons x xs ih =>
    intro y hy
    simp only [first_occurrences, List.mem_cons, List.mem_filter]
    by_cases h : y = x
    · exact Or.inl h
    · rcases List.mem_cons.mp hy with h1 | h1
      · exact absurd h1 h
      · exact Or.inr ⟨ih y h1, by simp [h]⟩

theorem first_occurrences_append (B P : List CStr) (hB : B.Nodup) :
    first_occurrences (B ++ P)
      = B ++ (first_occurrences P).filter (fun y => decide (y ∉ B)) := by
  induction B with
  | nil =>
    simp only [List.nil_append]
    symm
    rw [List.filter_eq_self]
    intro a _
    simp
  | cons b B1 ih =>
    have hb : b ∉ B1 := (List.nodup_cons.mp hB).1
    have hB1 : B1.Nodup := (List.nodup_cons.mp hB).2
    have e0 : first_occurrences (b :: B1 ++ P)
        = b :: (first_occurrences (B1 ++ P)).filter (fun y => decide (y ≠ b)) := rfl
    rw [e0, ih hB1, List.filter_append]
    have e1 : B1.filter (fun y => decide (y ≠ b)) = B1 := by
      rw [List.filter_eq_self]
      intro a ha
      have : a ≠ b := fun h => hb (h ▸ ha)
      simp [this]
    rw [e1, List.filter_filter]
    congr 2
    apply List.filter_congr
    intro y _
    by_cases h1 : y ∈ B1 <;> by_cases h2 : y = b <;> simp [h1, h2]

/-- C21. For every word (a C string) and every search path given as an ordered
list of directory listings, `get_command_completions` returns the builtin names
that start with the word, in table order, followed by the search-path entries
that start with the word, in search-path then listing order, with only the first
occurrence of each name kept, cut at `MAX_COMPLETIONS` candidates. The result
has no two equal names, at most `MAX_COMPLETIONS` names, and every name starts
with the word. -/
theorem C21_command_completions (path : Option (List (Option (List CStr)))) (part : CStr)
    (hz : ∀ b ∈ part, b ≠ 0) :
    get_command_completions path part
      = (first_occurrences
          (builtin_names.filter (fun n => part.isPrefixOf n) ++
            (path_entries path).filter (fun n => part.isPrefixOf n))).take MAX_COMPLETIONS ∧
    (get_command_completions path part).Nodup ∧
    (∀ n ∈ get_command_completions path part, part <+: n) ∧
    (get_command_completions path part).length ≤ MAX_COMPLETIONS ∧
    builtin_names.filter (fun n => part.isPrefixOf n)
      <+: get_command_completions path part := by
  have hBnodup : (builtin_names.filter (fun n => part.isPrefixOf n)).Nodup :=
    List.Nodup.filter _ (by decide)
  have hBlen : (builtin_names.filter (fun n => part.isPrefixOf n)).length ≤ 3 :=
    List.length_filter_le _ _
  have hmax : MAX_COMPLETIONS = 256 := rfl
  have hmain : get_command_completions path part
      = (first_occurrences
          (builtin_names.filter (fun n => part.isPrefixOf n) ++
            (path_entries path).filter (fun n => part.isPrefixOf n))).take MAX_COMPLETIONS := by
    rw [first_occurrences_append _ _ hBnodup]
    cases path with
    | none =>
      simp only [get_command_completions, path_entries, Option.getD_none, List.filterMap_nil,
        List.flatten_nil, List.filter_nil, first_occurrences, List.append_nil]
      rw [builtin_matches_eq part hz]
      exact (List.take_of_length_le (by omega)).symm
    | some dirs =>
      simp only [get_command_completions, path_entries, Option.getD_some]
      rw [scan_path_eq, builtin_matches_eq part hz]
      exact add_matches_spec part hz _ _ (by omega)
  refine ⟨hmain, ?_, ?_, ?_, ?_⟩
  · rw [hmain]
    exact List.Nodup.sublist (List.take_sublist _ _) (first_occurrences_nodup _)
  · intro n hn
    rw [hmain] at hn
    have h1 := first_occurrences_subset _ n (List.mem_of_mem_take hn)
    rcases List.mem_append.mp h1 with h2 | h2
    · exact List.isPrefixOf_iff_prefix.mp (List.mem_filter.mp h2).2
    · exact List.isPrefixOf_iff_prefix.mp (List.mem_filter.mp h2).2
  · rw [hmain]
    exact List.length_take_le _ _
  · rw [hmain, first_occurrences_append _ _ hBnodup, List.take_append_eq_append_take,
      List.take_of_length_le (by omega)]
    exact List.prefix_append _ _

/-- Witness for C21: the word `e` with the search path `[echo, env]`, a directory
that cannot be opened, and `[env, exit, ed]`. -/
theorem C21_command_completions_witness :
    get_command_completions
        (some [some [[101, 99, 104, 111], [101, 110, 118]], none,
          some [[101, 110, 118], [101, 120, 105, 116], [101, 100]]]) [101]
      = [[101, 120, 105, 116], [101, 99, 104, 111], [101, 110, 118], [101, 100]] := by
  have h := (C21_command_completions
    (some [some [[101, 99, 104, 111], [101, 110, 118]], none,
      some [[101, 110, 118], [101, 120, 105, 116], [101, 100]]]) [101] (by decide)).1
  rw [h]
  decide

end MyShell
